import Mathlib

/-!
Verification of the runit-sv reconciliation engine (`library/runit_sv.py`).

Shallow embedding conventions:
* A filesystem path is a list of name segments (`os.path.join a b` becomes
  `a ++ [b]`); configuration names and extra-file names are single segments.
* The filesystem is an association list from paths to entries; `os.lstat`
  semantics read the entry at a path without resolving symbolic links.
* Reading through a symbolic link (`open` on a link entry) is modelled as a
  non-ENOENT I/O error: the model does not resolve symlink indirection.
* `hashlib.sha256(...).hexdigest()` is modelled by `sha256hex`, an injective
  fingerprint (the identity on contents); the code only ever compares digests
  for equality, so only injectivity and reflexivity of the digest matter.
* Fallible operations return `Except`; where the original mutates the
  filesystem before failing, the error carries the filesystem at that point.
-/

namespace RunitSv

abbrev Path := List String

/-- Filesystem entry as seen by lstat: a regular file with contents and
settable permission bits, a directory, or a symbolic link holding a target. -/
inductive Entry
  | file (content : String) (perm : Nat)
  | dir
  | link (target : Path)
deriving DecidableEq, Repr

/-- A filesystem: association list from paths to entries (first match wins). -/
abbrev FS := List (Path × Entry)

def fsGet (fs : FS) (p : Path) : Option Entry :=
  match fs.find? (fun pe => pe.1 == p) with
  | some pe => some pe.2
  | none => none

def fsSet (fs : FS) (p : Path) (e : Entry) : FS :=
  (p, e) :: fs.filter (fun pe => !(pe.1 == p))

def fsRemove (fs : FS) (p : Path) : FS :=
  fs.filter (fun pe => !(pe.1 == p))

/-- Effect of `shutil.rmtree`: removes the entry and everything below it. -/
def fsRemoveTree (fs : FS) (p : Path) : FS :=
  fs.filter (fun pe => !(p.isPrefixOf pe.1))

/-- Whether `p` is an immediate child of directory `d`. -/
def isChildOf (d p : Path) : Bool :=
  d.isPrefixOf p && p.length == d.length + 1

/-- Errno values distinguished by the source's error handling.  `EOTHER`
stands for any other I/O failure (e.g. following a symlink on open, which the
model does not resolve). -/
inductive OsErr
  | ENOENT | EEXIST | EINVAL | EISDIR | ENOTDIR | EOTHER
deriving DecidableEq, Repr

/-- Exceptions a record operation can raise. -/
inductive Err
  | os (e : OsErr)
  | pathAlreadyExists (p : Path)
  | notAThing (p : Path)
  | fileDoesNotExist (p : Path)
deriving DecidableEq, Repr

def EXECUTABLE : Nat := 0o777
def NONEXECUTABLE : Nat := 0o666
def SETTABLE_MASK : Nat := 0o7777
def S_IFREG : Nat := 0o100000

def settable_mode (m : Nat) : Nat := m &&& SETTABLE_MASK

/-- Python `base & ~mask` on nonnegative ints, as a Nat operation. -/
def and_not (base mask : Nat) : Nat := base ^^^ (base &&& mask)

/-- Model of `hashlib.sha256(s).hexdigest()`: an injective content
fingerprint; modelled as the identity since the code only compares digests. -/
def sha256hex (s : String) : String := s

/-- Translation of `first_directory`: the first candidate whose lstat shows a
real directory; missing candidates and non-directories are skipped. -/
def first_directory (directories : List Path) (fs : FS) : Option Path :=
  directories.find? (fun d =>
    match fsGet fs d with
    | some Entry.dir => true
    | _ => false)

/-- Translation of `hash_file`: `.ok none` models the `(None, None)` return
for a missing file; a regular file yields its digest and raw st_mode
(type bits ored with the permission bits). -/
def hash_file (fs : FS) (p : Path) : Except OsErr (Option (String × Nat)) :=
  match fsGet fs p with
  | none => .ok none
  | some (Entry.file c perm) => .ok (some (sha256hex c, S_IFREG ||| perm))
  | some Entry.dir => .error .EISDIR
  | some (Entry.link _) => .error .EOTHER

/-- Helper for `makedirs_exist_ok`: create each missing ancestor in turn; an
intermediate occupied by a non-directory fails with ENOTDIR, while an occupied
final component is the tolerated EEXIST case (left as-is).  Errors carry the
filesystem with the directories created so far. -/
def mkdirsGo (fs : FS) (done : Path) (rest : List String) :
    Except (OsErr × FS) FS :=
  match rest with
  | [] => .ok fs
  | [last] =>
    match fsGet fs (done ++ [last]) with
    | none => .ok (fsSet fs (done ++ [last]) Entry.dir)
    | some _ => .ok fs
  | s :: more =>
    match fsGet fs (done ++ [s]) with
    | none => mkdirsGo (fsSet fs (done ++ [s]) Entry.dir) (done ++ [s]) more
    | some Entry.dir => mkdirsGo fs (done ++ [s]) more
    | some _ => .error (.ENOTDIR, fs)

/-- Translation of `makedirs_exist_ok`. -/
def makedirs_exist_ok (fs : FS) (p : Path) : Except (OsErr × FS) FS :=
  mkdirsGo fs [] p

/-- Tri-state desired content of a `FileRecord` (`None` / `True` / bytes in
the source). -/
inductive FileContent
  | absent
  | sentinel
  | exact (data : String)
deriving DecidableEq, Repr

structure FileRecord where
  path : Path
  mode : Nat
  content : FileContent
  must_change : Bool := false
  changed : Bool := false
deriving DecidableEq, Repr

/-- Translation of `FileRecord._must_change_p`. -/
def FileRecord.must_change_p (r : FileRecord) (fs : FS) : Except Err Bool :=
  match hash_file fs r.path with
  | .error e => .error (.os e)
  | .ok none => .ok (decide (r.content ≠ FileContent.absent))
  | .ok (some (current_hash, current_mode)) =>
    match r.content with
    | .absent => .ok true
    | .sentinel => .ok (decide (r.mode ≠ settable_mode current_mode))
    | .exact data =>
      let content_matches := sha256hex data == current_hash
      .ok (!content_matches || decide (r.mode ≠ settable_mode current_mode))

/-- Translation of `FileRecord.commit`.  The temporary file used by the
write-and-rename branch is not tracked (it never survives an `.ok` result). -/
def FileRecord.commit (r : FileRecord) (fs : FS) :
    Except (Err × FS) (FS × FileRecord) :=
  if r.must_change = false then .ok (fs, r) else
  match r.content with
  | .absent =>
    match fsGet fs r.path with
    | none => .ok (fs, { r with changed := true })
    | some Entry.dir => .error (.os .EISDIR, fs)
    | some _ => .ok (fsRemove fs r.path, { r with changed := true })
  | .sentinel =>
    match fsGet fs r.path with
    | none => .error (.fileDoesNotExist r.path, fs)
    | some (Entry.link _) => .ok (fs, { r with changed := true })
    | some (Entry.file c _) =>
      .ok (fsSet fs r.path (Entry.file c (settable_mode r.mode)),
           { r with changed := true })
    | some Entry.dir =>
      -- chmod on a directory succeeds; directory permission bits are not
      -- tracked by the model, so the filesystem is unchanged.
      .ok (fs, { r with changed := true })
  | .exact data =>
    match makedirs_exist_ok fs r.path.dropLast with
    | .error (e, fsE) => .error (.os e, fsE)
    | .ok fs1 =>
      match fsGet fs1 r.path.dropLast with
      | some Entry.dir =>
        match fsGet fs1 r.path with
        | some Entry.dir => .error (.os .EISDIR, fs1)
        | _ => .ok (fsSet fs1 r.path (Entry.file data (settable_mode r.mode)),
                    { r with changed := true })
      | _ => .error (.os .ENOTDIR, fs1)

structure LinkRecord where
  path : Path
  target : Option Path
  dir_ok : Bool := false
  must_change : Bool := false
  changed : Bool := false
deriving DecidableEq, Repr

/-- Translation of `LinkRecord._must_change_p`: readlink yields the target of
a link, ENOENT when absent, EINVAL for a non-link (where a tolerated directory
reports no change and anything else raises `PathAlreadyExistsError`). -/
def LinkRecord.must_change_p (r : LinkRecord) (fs : FS) : Except Err Bool :=
  match fsGet fs r.path with
  | some (Entry.link current_target) => .ok (decide (r.target ≠ some current_target))
  | none => .ok (decide (r.target ≠ none))
  | some Entry.dir =>
    if r.dir_ok then .ok false else .error (.pathAlreadyExists r.path)
  | some (Entry.file _ _) => .error (.pathAlreadyExists r.path)

/-- Steps of `LinkRecord.commit` after the tolerated unlink: create the new
symlink when a target is desired. -/
def LinkRecord.commit_rest (r : LinkRecord) (fs1 : FS) :
    Except (Err × FS) (FS × LinkRecord) :=
  match r.target with
  | none => .ok (fs1, { r with changed := true })
  | some t =>
    match makedirs_exist_ok fs1 r.path.dropLast with
    | .error (e, fsE) => .error (.os e, fsE)
    | .ok fs2 =>
      match fsGet fs2 r.path with
      | some _ => .error (.os .EEXIST, fs2)
      | none => .ok (fsSet fs2 r.path (Entry.link t), { r with changed := true })

/-- Translation of `LinkRecord.commit`: unlink whatever occupies the path
(tolerating absence, failing on a directory), then `commit_rest`. -/
def LinkRecord.commit (r : LinkRecord) (fs : FS) :
    Except (Err × FS) (FS × LinkRecord) :=
  if r.must_change = false then .ok (fs, r) else
  match fsGet fs r.path with
  | none => r.commit_rest fs
  | some Entry.dir => .error (.os .EISDIR, fs)
  | some _ => r.commit_rest (fsRemove fs r.path)

/-- The two `stat_type` values used by the source (`rm` and `rmdir`). -/
inductive StatType
  | S_ISREG
  | S_ISDIR
deriving DecidableEq, Repr

def statMatches : StatType → Entry → Bool
  | .S_ISREG, Entry.file _ _ => true
  | .S_ISDIR, Entry.dir => true
  | _, _ => false

structure RemoveThing where
  path : Path
  stat_type : StatType
  must_change : Bool := false
  changed : Bool := false
deriving DecidableEq, Repr

/-- Translation of `RemoveThing._must_change_p`. -/
def RemoveThing.must_change_p (r : RemoveThing) (fs : FS) : Except Err Bool :=
  match fsGet fs r.path with
  | none => .ok false
  | some e =>
    if statMatches r.stat_type e then .ok true else .error (.notAThing r.path)

/-- Translation of `RemoveThing.commit`: the remover paired with the
stat_type (`os.unlink` for regular files, `shutil.rmtree` for directories). -/
def RemoveThing.commit (r : RemoveThing) (fs : FS) :
    Except (Err × FS) (FS × RemoveThing) :=
  if r.must_change = false then .ok (fs, r) else
  match r.stat_type with
  | .S_ISREG =>
    match fsGet fs r.path with
    | none => .error (.os .ENOENT, fs)
    | some Entry.dir => .error (.os .EISDIR, fs)
    | some _ => .ok (fsRemove fs r.path, { r with changed := true })
  | .S_ISDIR =>
    match fsGet fs r.path with
    | some Entry.dir => .ok (fsRemoveTree fs r.path, { r with changed := true })
    | _ => .error (.os .ENOTDIR, fs)

def rm (path : Path) : RemoveThing := { path := path, stat_type := .S_ISREG }

def rmdir (path : Path) : RemoveThing := { path := path, stat_type := .S_ISDIR }

/-- The polymorphic record capability: one of the three record variants. -/
inductive Record
  | file : FileRecord → Record
  | link : LinkRecord → Record
  | remove : RemoveThing → Record
deriving DecidableEq, Repr

def Record.path : Record → Path
  | .file r => r.path
  | .link r => r.path
  | .remove r => r.path

def Record.must_change : Record → Bool
  | .file r => r.must_change
  | .link r => r.must_change
  | .remove r => r.must_change

def Record.check_if_must_change (rec : Record) (fs : FS) : Except Err Record :=
  match rec with
  | .file r =>
    match r.must_change_p fs with
    | .error e => .error e
    | .ok b => .ok (.file { r with must_change := b })
  | .link r =>
    match r.must_change_p fs with
    | .error e => .error e
    | .ok b => .ok (.link { r with must_change := b })
  | .remove r =>
    match r.must_change_p fs with
    | .error e => .error e
    | .ok b => .ok (.remove { r with must_change := b })

def Record.commit (rec : Record) (fs : FS) : Except (Err × FS) (FS × Record) :=
  match rec with
  | .file r =>
    match r.commit fs with
    | .error e => .error e
    | .ok (fs', r') => .ok (fs', .file r')
  | .link r =>
    match r.commit fs with
    | .error e => .error e
    | .ok (fs', r') => .ok (fs', .link r')
  | .remove r =>
    match r.commit fs with
    | .error e => .error e
    | .ok (fs', r') => .ok (fs', .remove r')

inductive SvState
  | present
  | absent
  | down
deriving DecidableEq, Repr

inductive LsbChoice
  | present
  | absent
deriving DecidableEq, Repr

/-- The resolved module parameters consumed by `_main` (the argument_spec of
`main`).  String-valued symlink targets are path values in the model. -/
structure Config where
  name : String
  sv_directory : List Path
  service_directory : List Path
  init_d_directory : List Path
  runscript : String
  log_runscript : Option String
  supervise_link : Option Path
  log_supervise_link : Option Path
  state : SvState
  extra_files : List (String × String)
  extra_scripts : List (String × String)
  envdir : Option (List (String × String))
  lsb_service : Option LsbChoice
  umask : Nat
deriving DecidableEq, Repr

/-- Fatal outcomes of `_main`: the `module.fail_json` calls, plus `exc` for a
propagated exception (caught by `main`'s blanket handler in the source). -/
inductive Failure
  | noExtantDirectory (param : String)
  | logSuperviseWithoutLogRunscript
  | lsbPresentWithStateAbsent
  | noInitDDirectory
  | duplicateFilePaths
  | exc (e : Err)
deriving DecidableEq, Repr

/-- The payload of a successful `module.exit_json`. -/
structure RunReport where
  paths : List (Path × Bool)
  changed : Bool
deriving DecidableEq, Repr

/-- Target of the LSB init.d integration link (`'/usr/bin/sv'`). -/
def usrBinSv : Path := ["usr", "bin", "sv"]

/-- Record construction portion of `_main` (lines 263-320 of the source):
produces `outfiles` and `directories_to_clear`, or the first fatal
configuration error.  `fs` is consulted only for the init.d candidate
lookup. -/
def build_records (cfg : Config) (fs : FS) (sv_dir service_dir : Path) :
    Except Failure (List Record × List Path) :=
  let svp := sv_dir ++ [cfg.name]
  let exeMode := and_not EXECUTABLE cfg.umask
  let nexeMode := and_not NONEXECUTABLE cfg.umask
  let logPart : Except Failure (List Record × List Path) :=
    match cfg.log_runscript with
    | none =>
      match cfg.log_supervise_link with
      | some _ => .error .logSuperviseWithoutLogRunscript
      | none => .ok ([.remove (rmdir (svp ++ ["log"]))], [])
    | some lr =>
      .ok ([.file { path := svp ++ ["log", "run"], mode := exeMode,
                    content := .exact lr }],
           [svp ++ ["log"]])
  match logPart with
  | .error f => .error f
  | .ok (logRecords, logDirs) =>
    let extraFileRecords := cfg.extra_files.map fun kv =>
      Record.file { path := svp ++ [kv.1], mode := nexeMode, content := .exact kv.2 }
    let extraScriptRecords := cfg.extra_scripts.map fun kv =>
      Record.file { path := svp ++ [kv.1], mode := exeMode, content := .exact kv.2 }
    let envPart : List Record × List Path :=
      match cfg.envdir with
      | none => ([.remove (rmdir (svp ++ ["env"]))], [])
      | some kvs =>
        (kvs.map fun kv =>
          Record.file { path := svp ++ ["env", kv.1], mode := nexeMode,
                        content := .exact kv.2 },
         [svp ++ ["env"]])
    let downRecord : Record :=
      .file { path := svp ++ ["down"], mode := nexeMode,
              content := if cfg.state = SvState.down then .exact "" else .absent }
    let superviseRecord : Record :=
      .link { path := svp ++ ["supervise"], target := cfg.supervise_link,
              dir_ok := cfg.supervise_link.isNone }
    let logSuperviseRecord : Record :=
      .link { path := svp ++ ["log", "supervise"], target := cfg.log_supervise_link,
              dir_ok := cfg.log_supervise_link.isNone }
    let serviceRecord : Record :=
      .link { path := service_dir ++ [cfg.name],
              target := if cfg.state = SvState.absent then none else some svp,
              dir_ok := false }
    let lsbPart : Except Failure (List Record) :=
      if cfg.state = SvState.absent then
        if cfg.lsb_service = some LsbChoice.present then
          .error .lsbPresentWithStateAbsent
        else .ok []
      else
        match first_directory cfg.init_d_directory fs with
        | none =>
          if cfg.lsb_service ≠ none then .error .noInitDDirectory
          else .ok []
        | some init_d_dir =>
          let should_create_lsb :=
            cfg.lsb_service = some LsbChoice.present ∨ cfg.lsb_service = none
          .ok [.link { path := init_d_dir ++ [cfg.name],
                       target := if should_create_lsb then some usrBinSv else none,
                       dir_ok := false }]
    match lsbPart with
    | .error f => .error f
    | .ok lsbRecords =>
      .ok ([.file { path := svp ++ ["run"], mode := exeMode,
                    content := .exact cfg.runscript }]
           ++ logRecords ++ extraFileRecords ++ extraScriptRecords
           ++ envPart.1
           ++ [downRecord, superviseRecord, logSuperviseRecord, serviceRecord]
           ++ lsbRecords,
          [svp] ++ logDirs ++ envPart.2)

/-- Model of `os.listdir` returning full child paths (the source immediately
joins each name to the directory). -/
def list_directory (fs : FS) (d : Path) : Except OsErr (List Path) :=
  match fsGet fs d with
  | none => .error .ENOENT
  | some Entry.dir =>
    .ok ((fs.filterMap fun pe =>
      if isChildOf d pe.1 then some pe.1 else none).dedup)
  | some _ => .error .ENOTDIR

/-- The cleanup pass of `_main` (lines 327-335): for each directory to clear,
append an `rm` record for every listed child not in the claimed path set; a
missing directory is skipped (the tolerated ENOENT). -/
def cleanup_records (fs : FS) (dirs : List Path) (claimed : List Path) :
    Except OsErr (List Record) :=
  match dirs with
  | [] => .ok []
  | d :: rest =>
    match list_directory fs d with
    | .error .ENOENT => cleanup_records fs rest claimed
    | .error e => .error e
    | .ok children =>
      match cleanup_records fs rest claimed with
      | .error e => .error e
      | .ok tail =>
        .ok (((children.filter fun p => !claimed.contains p).map
               fun p => Record.remove (rm p)) ++ tail)

/-- The detection phase: `check_if_must_change` on every record in order,
stopping at the first raised exception. -/
def detect_records (fs : FS) (rs : List Record) : Except Err (List Record) :=
  match rs with
  | [] => .ok []
  | r :: rest =>
    match r.check_if_must_change fs with
    | .error e => .error e
    | .ok r' =>
      match detect_records fs rest with
      | .error e => .error e
      | .ok rest' => .ok (r' :: rest')

/-- The commit phase: `commit` on every record in construction order,
threading the filesystem; an error carries the filesystem at that point. -/
def commit_records (fs : FS) (rs : List Record) :
    Except (Err × FS) (FS × List Record) :=
  match rs with
  | [] => .ok (fs, [])
  | r :: rest =>
    match r.commit fs with
    | .error e => .error e
    | .ok (fs1, r') =>
      match commit_records fs1 rest with
      | .error e => .error e
      | .ok (fs2, rest') => .ok (fs2, r' :: rest')

/-- Translation of `_main`.  The result pairs the exit_json report with the
final filesystem; failures carry the filesystem at the point of failure. -/
def _main (cfg : Config) (check_mode : Bool) (fs : FS) :
    Except (Failure × FS) (RunReport × FS) :=
  match first_directory cfg.sv_directory fs with
  | none => .error (Failure.noExtantDirectory "sv_directory", fs)
  | some sv_dir =>
  match first_directory cfg.service_directory fs with
  | none => .error (Failure.noExtantDirectory "service_directory", fs)
  | some service_dir =>
  match build_records cfg fs sv_dir service_dir with
  | .error f => .error (f, fs)
  | .ok (outfiles, directories_to_clear) =>
    let declared := outfiles.map Record.path
    if declared.dedup.length ≠ declared.length then
      .error (Failure.duplicateFilePaths, fs)
    else
      let paths_set := declared ++ directories_to_clear
      match cleanup_records fs directories_to_clear paths_set with
      | .error e => .error (Failure.exc (Err.os e), fs)
      | .ok cleanup =>
        let all_records := outfiles ++ cleanup
        match detect_records fs all_records with
        | .error e => .error (Failure.exc e, fs)
        | .ok detected =>
          let paths := detected.map fun r => (r.path, r.must_change)
          if detected.any (fun r => r.must_change) = false then
            .ok ({ paths := paths, changed := false }, fs)
          else if check_mode then
            .ok ({ paths := paths, changed := true }, fs)
          else
            match commit_records fs detected with
            | .error (e, fs1) => .error (Failure.exc e, fs1)
            | .ok (fs1, _) => .ok ({ paths := paths, changed := true }, fs1)

instance {ε α : Type} [DecidableEq ε] [DecidableEq α] :
    DecidableEq (Except ε α) := fun x y =>
  match x, y with
  | .ok a, .ok b =>
    if h : a = b then isTrue (by rw [h])
    else isFalse (fun hh => h (Except.ok.inj hh))
  | .error a, .error b =>
    if h : a = b then isTrue (by rw [h])
    else isFalse (fun hh => h (Except.error.inj hh))
  | .ok _, .error _ => isFalse (fun hh => Except.noConfusion hh)
  | .error _, .ok _ => isFalse (fun hh => Except.noConfusion hh)

/-- The record list `build_records` produces when it does not fail, written
as one explicit append for reasoning (proved equal in
`build_records_ok_eq`). -/
def outfiles_spec (cfg : Config) (fs : FS) (sv_dir service_dir : Path) :
    List Record :=
  let svp := sv_dir ++ [cfg.name]
  let exeMode := and_not EXECUTABLE cfg.umask
  let nexeMode := and_not NONEXECUTABLE cfg.umask
  [Record.file { path := svp ++ ["run"], mode := exeMode,
                 content := .exact cfg.runscript }]
  ++ (match cfg.log_runscript with
      | none => [Record.remove (rmdir (svp ++ ["log"]))]
      | some lr => [Record.file { path := svp ++ ["log", "run"], mode := exeMode,
                                  content := .exact lr }])
  ++ (cfg.extra_files.map fun kv =>
      Record.file { path := svp ++ [kv.1], mode := nexeMode, content := .exact kv.2 })
  ++ (cfg.extra_scripts.map fun kv =>
      Record.file { path := svp ++ [kv.1], mode := exeMode, content := .exact kv.2 })
  ++ (match cfg.envdir with
      | none => [Record.remove (rmdir (svp ++ ["env"]))]
      | some kvs => kvs.map fun kv =>
          Record.file { path := svp ++ ["env", kv.1], mode := nexeMode,
                        content := .exact kv.2 })
  ++ [Record.file { path := svp ++ ["down"], mode := nexeMode,
                    content := if cfg.state = SvState.down then .exact "" else .absent },
      Record.link { path := svp ++ ["supervise"], target := cfg.supervise_link,
                    dir_ok := cfg.supervise_link.isNone },
      Record.link { path := svp ++ ["log", "supervise"],
                    target := cfg.log_supervise_link,
                    dir_ok := cfg.log_supervise_link.isNone },
      Record.link { path := service_dir ++ [cfg.name],
                    target := if cfg.state = SvState.absent then none else some svp,
                    dir_ok := false }]
  ++ (if cfg.state = SvState.absent then []
      else
        match first_directory cfg.init_d_directory fs with
        | none => []
        | some init_d_dir =>
          [Record.link { path := init_d_dir ++ [cfg.name],
                         target :=
                           if cfg.lsb_service = some LsbChoice.present ∨
                              cfg.lsb_service = none
                           then some usrBinSv else none,
                         dir_ok := false }])

/-- The `directories_to_clear` list `build_records` produces when it does not
fail. -/
def dirs_spec (cfg : Config) (sv_dir : Path) : List Path :=
  let svp := sv_dir ++ [cfg.name]
  [svp]
  ++ (match cfg.log_runscript with
      | none => []
      | some _ => [svp ++ ["log"]])
  ++ (match cfg.envdir with
      | none => []
      | some _ => [svp ++ ["env"]])

/-- Truthiness of an `Except` result, for stating that an operation does not
raise. -/
def isOkB {e a : Type} : Except e a -> Bool
  | .ok _ => true
  | .error _ => false

/-- Concrete fixture: a minimal present-state configuration. -/
def cfgBasic : Config :=
  { name := "n", sv_directory := [["sv"]], service_directory := [["srv"]],
    init_d_directory := [["initd"]], runscript := "R", log_runscript := none,
    supervise_link := none, log_supervise_link := none, state := .present,
    extra_files := [], extra_scripts := [], envdir := none, lsb_service := none,
    umask := 0o022 }

/-- Concrete fixture: the three parent directories exist and nothing else. -/
def fsBasic : FS := [(["sv"], Entry.dir), (["srv"], Entry.dir), (["initd"], Entry.dir)]

/-- Concrete fixture: basic configuration whose init.d candidate does not
exist and which requests lsb_service handling. -/
def cfgNoInit : Config :=
  { cfgBasic with init_d_directory := [["noinit"]], lsb_service := some LsbChoice.absent }

/-- Concrete fixture: service directory already present with one stale file. -/
def fsStale : FS :=
  (["sv", "n"], Entry.dir) :: (["sv", "n", "stale"], Entry.file "x" 0o644) :: fsBasic

/-- Concrete fixture: the report `_main` produces for `cfgBasic` in check
mode starting from `fsBasic`. -/
def repBasic : RunReport :=
  { paths := [(["sv", "n", "run"], true), (["sv", "n", "log"], false),
              (["sv", "n", "env"], false), (["sv", "n", "down"], false),
              (["sv", "n", "supervise"], false),
              (["sv", "n", "log", "supervise"], false),
              (["srv", "n"], true), (["initd", "n"], true)],
    changed := true }

/-- Concrete fixture: service directory present with one stray directory. -/
def fsStray : FS :=
  (["sv", "n"], Entry.dir) :: (["sv", "n", "stray"], Entry.dir) :: fsBasic

/-- Detection result of a record, dispatching on the variant. -/
def recordMustChangeP (r : Record) (fs : FS) : Except Err Bool :=
  match r with
  | .file fr => fr.must_change_p fs
  | .link lr => lr.must_change_p fs
  | .remove rr => rr.must_change_p fs

/-- A record with its must_change flag replaced. -/
def updateMust : Record → Bool → Record
  | .file fr, b => .file { fr with must_change := b }
  | .link lr, b => .link { lr with must_change := b }
  | .remove rr, b => .remove { rr with must_change := b }

/-- Records whose commit removes a whole subtree (`shutil.rmtree`). -/
def isRmtreeRec : Record → Bool
  | .remove rr =>
    match rr.stat_type with
    | .S_ISDIR => true
    | .S_ISREG => false
  | _ => false

/-- Records whose commit may create missing ancestor directories. -/
def hasMakedirsRec : Record → Bool
  | .file fr =>
    match fr.content with
    | .exact _ => true
    | _ => false
  | .link lr => lr.target.isSome
  | .remove _ => false

/-- Records that can be in a detect-false state with nothing at their path. -/
def mayBeAbsentRec : Record → Bool
  | .file fr =>
    match fr.content with
    | .absent => true
    | _ => false
  | .link lr => lr.target.isNone
  | .remove _ => true

/-- Two paths name disjoint subtrees: neither is a prefix of the other. -/
def separated (a b : Path) : Bool := !a.isPrefixOf b && !b.isPrefixOf a

/-- Shape facts used to show a committed record is detect-false afterwards:
file records never carry the opaque sentinel and their mode fits in the
settable bits. -/
def recordShapeOkB : Record → Bool
  | .file fr =>
    (match fr.content with
     | FileContent.sentinel => false
     | _ => true) && (settable_mode fr.mode == fr.mode)
  | .link _ => true
  | .remove _ => true

/-- Non-interference condition between a committing record `s` and another
record `r`: if `s` removes a whole subtree covering `r`'s path then `r`
tolerates absence, and `s`'s implicit directory creation never reaches `r`'s
path. -/
def condRec (s r : Record) : Prop :=
  (isRmtreeRec s = true → s.path.isPrefixOf r.path = true →
    mayBeAbsentRec r = true) ∧
  (hasMakedirsRec s = true → r.path ≠ [] →
    r.path.isPrefixOf s.path.dropLast = false)

/-- No extra file or script uses one of the reserved child names that name
the managed log and env subdirectories. -/
def namesOk (cfg : Config) : Bool :=
  (cfg.extra_files ++ cfg.extra_scripts).all fun kv =>
    !(kv.1 == "log") && !(kv.1 == "env")

/-- Separation of the selected init.d link path from the service entry paths,
trivially true when no init.d directory is selected. -/
def initSepOk (cfg : Config) (fs : FS) (svp sp : Path) : Bool :=
  match first_directory cfg.init_d_directory fs with
  | none => true
  | some d => separated svp (d ++ [cfg.name]) && separated sp (d ++ [cfg.name])

/-- The nonempty proper prefixes of a path. -/
def properAncestors (p : Path) : List Path :=
  ((List.range p.length).map fun i => p.take i).filter fun a => !a.isEmpty

/-- Executable well-formedness of a filesystem: ancestors of every entry are
directories (what a real filesystem guarantees). -/
def fsWFb (fs : FS) : Bool :=
  fs.all fun pe =>
    (properAncestors pe.1).all fun a => fsGet fs a == some Entry.dir

/-- Concrete fixture: the filesystem `_main cfgBasic false fsBasic` produces,
on which the reconciliation is already converged. -/
def fsConverged : FS :=
  [(["initd", "n"], Entry.link ["usr", "bin", "sv"]),
   (["srv", "n"], Entry.link ["sv", "n"]),
   (["sv", "n", "run"], Entry.file "R" 0o755),
   (["sv", "n"], Entry.dir),
   (["sv"], Entry.dir), (["srv"], Entry.dir), (["initd"], Entry.dir)]

/-- Concrete fixture: the report of a run on the already-converged
filesystem: no record must change. -/
def repConverged : RunReport :=
  { paths := [(["sv", "n", "run"], false), (["sv", "n", "log"], false),
              (["sv", "n", "env"], false), (["sv", "n", "down"], false),
              (["sv", "n", "supervise"], false),
              (["sv", "n", "log", "supervise"], false),
              (["srv", "n"], false), (["initd", "n"], false)],
    changed := false }

/-! Helper lemmas. -/

/-- The settable-mode mask discards the regular-file type bit that
`hash_file` reports in st_mode. -/
theorem settable_mode_or_ifreg (m : Nat) :
    settable_mode (S_IFREG ||| m) = settable_mode m := by
  unfold settable_mode S_IFREG SETTABLE_MASK
  apply Nat.eq_of_testBit_eq
  intro i
  rw [Nat.testBit_land, Nat.testBit_land, Nat.testBit_lor]
  rcases lt_or_ge i 12 with h | h
  · have h15 : (0o100000 : Nat).testBit i = false := by
      have e : (0o100000 : Nat) = 2 ^ 15 := by norm_num
      rw [e, Nat.testBit_two_pow]
      simp only [decide_eq_false_iff_not]
      omega
    rw [h15, Bool.false_or]
  · have hm : (0o7777 : Nat).testBit i = false := by
      have e : (0o7777 : Nat) = 2 ^ 12 - 1 := by norm_num
      rw [e, Nat.testBit_two_pow_sub_one]
      simp only [decide_eq_false_iff_not]
      omega
    rw [hm, Bool.and_false, Bool.and_false]

/-- A successful `build_records` yields exactly the spec lists. -/
theorem build_records_ok_eq (cfg : Config) (fs : FS) (sv_dir service_dir : Path)
    (built : List Record × List Path)
    (hb : build_records cfg fs sv_dir service_dir = .ok built) :
    built = (outfiles_spec cfg fs sv_dir service_dir, dirs_spec cfg sv_dir) := by
  unfold build_records at hb
  unfold outfiles_spec dirs_spec
  rcases hlog : cfg.log_runscript with _ | lr <;> rw [hlog] at hb
  · rcases hls : cfg.log_supervise_link with _ | ls <;> rw [hls] at hb
    · rcases henv : cfg.envdir with _ | kvs <;> rw [henv] at hb <;>
        rcases hst : cfg.state <;> rw [hst] at hb <;>
        rcases hlsb : cfg.lsb_service with _ | ch <;> rw [hlsb] at hb <;>
        rcases hfd : first_directory cfg.init_d_directory fs with _ | d <;>
        rw [hfd] at hb <;> (try rcases ch) <;> simp_all
    · simp at hb
  · rcases henv : cfg.envdir with _ | kvs <;> rw [henv] at hb <;>
      rcases hst : cfg.state <;> rw [hst] at hb <;>
      rcases hlsb : cfg.lsb_service with _ | ch <;> rw [hlsb] at hb <;>
      rcases hfd : first_directory cfg.init_d_directory fs with _ | d <;>
      rw [hfd] at hb <;> (try rcases ch) <;> simp_all

/-! Claim theorems. -/

/-- C9: the content hasher returns `(None, None)` exactly when no file exists
at the path; on a regular file it returns the SHA-256 fingerprint of the full
contents together with the raw mode bits; and every swallowed error is
ENOENT — any other I/O error propagates to the caller as an `.error`
(and conversely every propagated error is not ENOENT). -/
theorem C9_hash_file_contract (fs : FS) (p : Path) :
    (hash_file fs p = .ok none ↔ fsGet fs p = none) ∧
    (∀ c m, fsGet fs p = some (Entry.file c m) →
      hash_file fs p = .ok (some (sha256hex c, S_IFREG ||| m))) ∧
    (∀ e, hash_file fs p = .error e → e ≠ OsErr.ENOENT) := by
  unfold hash_file
  rcases h : fsGet fs p with _ | e
  · simp
  · cases e <;> simp

/-- C9 witness: the contract instantiated on a one-file filesystem. -/
theorem C9_hash_file_contract_witness :
    hash_file [(["a"], Entry.file "body" 0o644)] ["a"] =
      .ok (some (sha256hex "body", S_IFREG ||| 0o644)) :=
  (C9_hash_file_contract [(["a"], Entry.file "body" 0o644)] ["a"]).2.1
    "body" 0o644 (by decide)

/-- C2: `FileRecord._must_change_p` computes must-change by exactly the
claimed case analysis: no file present means must-change iff content is not
the absent case; a present file with absent content always must change; the
opaque sentinel compares only the desired mode against the current settable
mode bits; exact bytes compare the SHA-256 fingerprints and the settable
mode. -/
theorem C2_filerecord_detect (r : FileRecord) (fs : FS) :
    (fsGet fs r.path = none →
      r.must_change_p fs = .ok (decide (r.content ≠ FileContent.absent))) ∧
    (∀ c m, fsGet fs r.path = some (Entry.file c m) →
      (r.content = FileContent.absent → r.must_change_p fs = .ok true) ∧
      (r.content = FileContent.sentinel →
        r.must_change_p fs = .ok (decide (r.mode ≠ settable_mode m))) ∧
      (∀ data, r.content = FileContent.exact data →
        r.must_change_p fs =
          .ok (decide (sha256hex data ≠ sha256hex c) ||
               decide (r.mode ≠ settable_mode m)))) := by
  refine ⟨fun h => ?_, fun c m h => ?_⟩
  · unfold FileRecord.must_change_p hash_file
    rw [h]
  · refine ⟨fun hc => ?_, fun hc => ?_, fun data hc => ?_⟩
    · unfold FileRecord.must_change_p hash_file
      rw [h, hc]
    · unfold FileRecord.must_change_p hash_file
      rw [h, hc]
      show Except.ok (decide (r.mode ≠ settable_mode (S_IFREG ||| m))) = _
      rw [settable_mode_or_ifreg]
    · unfold FileRecord.must_change_p hash_file
      rw [h, hc]
      show Except.ok (!(sha256hex data == sha256hex c) ||
        decide (r.mode ≠ settable_mode (S_IFREG ||| m))) = _
      rw [settable_mode_or_ifreg]
      congr 2
      cases hd : (sha256hex data == sha256hex c) with
      | false =>
        have hne : sha256hex data ≠ sha256hex c := by
          intro he
          rw [he] at hd
          simp at hd
        simp [hne]
      | true =>
        have he : sha256hex data = sha256hex c := eq_of_beq hd
        simp [he]

/-- C2 witness: detection on a file whose contents differ from the desired
bytes while the mode matches. -/
theorem C2_filerecord_detect_witness :
    FileRecord.must_change_p
      { path := ["a"], mode := 0o644, content := FileContent.exact "x" }
      [(["a"], Entry.file "y" 0o644)] =
      .ok (decide (sha256hex "x" ≠ sha256hex "y") ||
           decide (0o644 ≠ settable_mode 0o644)) :=
  ((C2_filerecord_detect
      { path := ["a"], mode := 0o644, content := FileContent.exact "x" }
      [(["a"], Entry.file "y" 0o644)]).2 "y" 0o644 (by decide)).2.2 "x" rfl

/-- C5 counterexample: a `LinkRecord` whose path is occupied by a directory,
with `dir_ok` set and a desired target PRESENT, reports must-change = false;
the claim instead predicts an immediate `PathAlreadyExistsError` for this
non-symlink occupant (it exempts only the target-absent case). -/
theorem C5_counterexample :
    LinkRecord.must_change_p
        { path := ["p"], target := some ["t"], dir_ok := true }
        [(["p"], Entry.dir)] = .ok false ∧
    ¬ LinkRecord.must_change_p
        { path := ["p"], target := some ["t"], dir_ok := true }
        [(["p"], Entry.dir)] =
      .error (Err.pathAlreadyExists ["p"]) := by
  constructor
  · decide
  · decide

/-- C5 amended: for a `LinkRecord` whose path is occupied by something that is
not a symlink, detectChange returns must-change = false whenever `dirOk` holds
and the occupant is a directory — regardless of whether a target is desired —
and raises an immediate fatal `PathAlreadyExistsError` in every other
non-symlink-occupant case (a directory without `dirOk`, or any regular
file). -/
theorem C5_link_conflict (r : LinkRecord) (fs : FS) :
    (fsGet fs r.path = some Entry.dir →
      (r.dir_ok = true → r.must_change_p fs = .ok false) ∧
      (r.dir_ok = false →
        r.must_change_p fs = .error (.pathAlreadyExists r.path))) ∧
    (∀ c m, fsGet fs r.path = some (Entry.file c m) →
      r.must_change_p fs = .error (.pathAlreadyExists r.path)) := by
  unfold LinkRecord.must_change_p
  refine ⟨fun h => ⟨fun hok => ?_, fun hok => ?_⟩, fun c m h => ?_⟩
  · rw [h, hok]; rfl
  · rw [h, hok]; rfl
  · rw [h]

/-- C5 witness: a directory occupant with `dir_ok` reports no change; a
regular-file occupant raises the conflict. -/
theorem C5_link_conflict_witness :
    LinkRecord.must_change_p
        { path := ["p"], target := none, dir_ok := true }
        [(["p"], Entry.dir)] = .ok false ∧
    LinkRecord.must_change_p
        { path := ["q"], target := none, dir_ok := true }
        [(["q"], Entry.file "x" 0o644)] =
      .error (Err.pathAlreadyExists ["q"]) :=
  ⟨((C5_link_conflict { path := ["p"], target := none, dir_ok := true }
      [(["p"], Entry.dir)]).1 (by decide)).1 rfl,
   (C5_link_conflict { path := ["q"], target := none, dir_ok := true }
      [(["q"], Entry.file "x" 0o644)]).2 "x" 0o644 (by decide)⟩

/-- Bridge between the source's set-size duplicate test and `Nodup`. -/
theorem dedup_length_eq_iff {α : Type} [DecidableEq α] (l : List α) :
    l.dedup.length = l.length ↔ l.Nodup := by
  constructor
  · intro h
    exact List.dedup_eq_self.mp ((List.dedup_sublist l).eq_of_length h)
  · intro h
    rw [List.dedup_eq_self.mpr h]

/-- C7: every executable record (run script, log run script, extra scripts)
is constructed with mode `0o777 &~ umask` and every non-executable record
(extra files, env files, down marker) with mode `0o666 &~ umask`; no file
record carries any other mode; and with umask 0o007 these masks resolve to
0o770 and 0o660. -/
theorem C7_mode_masking (cfg : Config) (fs : FS) (sv_dir service_dir : Path)
    (built : List Record × List Path)
    (hb : build_records cfg fs sv_dir service_dir = .ok built) :
    (∀ fr : FileRecord, Record.file fr ∈ built.1 →
      fr.mode = and_not EXECUTABLE cfg.umask ∨
      fr.mode = and_not NONEXECUTABLE cfg.umask) ∧
    (Record.file { path := (sv_dir ++ [cfg.name]) ++ ["run"],
                   mode := and_not EXECUTABLE cfg.umask,
                   content := .exact cfg.runscript } ∈ built.1) ∧
    (∀ lr, cfg.log_runscript = some lr →
      Record.file { path := (sv_dir ++ [cfg.name]) ++ ["log", "run"],
                    mode := and_not EXECUTABLE cfg.umask,
                    content := .exact lr } ∈ built.1) ∧
    (∀ kv ∈ cfg.extra_scripts,
      Record.file { path := (sv_dir ++ [cfg.name]) ++ [kv.1],
                    mode := and_not EXECUTABLE cfg.umask,
                    content := .exact kv.2 } ∈ built.1) ∧
    (∀ kv ∈ cfg.extra_files,
      Record.file { path := (sv_dir ++ [cfg.name]) ++ [kv.1],
                    mode := and_not NONEXECUTABLE cfg.umask,
                    content := .exact kv.2 } ∈ built.1) ∧
    (∀ kvs, cfg.envdir = some kvs → ∀ kv ∈ kvs,
      Record.file { path := (sv_dir ++ [cfg.name]) ++ ["env", kv.1],
                    mode := and_not NONEXECUTABLE cfg.umask,
                    content := .exact kv.2 } ∈ built.1) ∧
    (Record.file { path := (sv_dir ++ [cfg.name]) ++ ["down"],
                   mode := and_not NONEXECUTABLE cfg.umask,
                   content := if cfg.state = SvState.down then .exact ""
                              else .absent } ∈ built.1) ∧
    (and_not EXECUTABLE 0o007 = 0o770 ∧ and_not NONEXECUTABLE 0o007 = 0o660) := by
  have he := build_records_ok_eq cfg fs sv_dir service_dir built hb
  rw [he]
  refine ⟨?_, ?_, ?_, ?_, ?_, ?_, ?_, by decide, by decide⟩
  · intro fr hm
    simp only [outfiles_spec, List.append_assoc] at hm
    rcases List.mem_append.mp hm with h | hm
    · have h' := List.mem_singleton.mp h
      injection h' with h''
      subst h''
      left; rfl
    rcases List.mem_append.mp hm with h | hm
    · rcases hl : cfg.log_runscript with _ | lr <;> rw [hl] at h
      · exact Record.noConfusion (List.mem_singleton.mp h)
      · have h' := List.mem_singleton.mp h
        injection h' with h''
        subst h''
        left; rfl
    rcases List.mem_append.mp hm with h | hm
    · rcases List.mem_map.mp h with ⟨kv, _, hh⟩
      injection hh with h''
      subst h''
      right; rfl
    rcases List.mem_append.mp hm with h | hm
    · rcases List.mem_map.mp h with ⟨kv, _, hh⟩
      injection hh with h''
      subst h''
      left; rfl
    rcases List.mem_append.mp hm with h | hm
    · rcases henv : cfg.envdir with _ | kvs <;> rw [henv] at h
      · exact Record.noConfusion (List.mem_singleton.mp h)
      · rcases List.mem_map.mp h with ⟨kv, _, hh⟩
        injection hh with h''
        subst h''
        right; rfl
    rcases List.mem_append.mp hm with h | hm
    · simp only [List.mem_cons, List.mem_singleton, List.not_mem_nil,
        or_false] at h
      rcases h with h | h | h | h
      · injection h with h''
        subst h''
        right; rfl
      · exact Record.noConfusion h
      · exact Record.noConfusion h
      · exact Record.noConfusion h
    · by_cases habs : cfg.state = SvState.absent
      · rw [if_pos habs] at hm
        exact absurd hm (List.not_mem_nil _)
      · rw [if_neg habs] at hm
        rcases hfd : first_directory cfg.init_d_directory fs with _ | d <;>
          rw [hfd] at hm
        · exact absurd hm (List.not_mem_nil _)
        · exact Record.noConfusion (List.mem_singleton.mp hm)
  · simp only [outfiles_spec, List.append_assoc]
    exact List.mem_append.mpr (Or.inl (List.mem_singleton.mpr rfl))
  · intro lr hl
    simp only [outfiles_spec, List.append_assoc]
    rw [hl]
    refine List.mem_append.mpr (Or.inr (List.mem_append.mpr (Or.inl ?_)))
    exact List.mem_singleton.mpr rfl
  · intro kv hkv
    simp only [outfiles_spec, List.append_assoc]
    refine List.mem_append.mpr (Or.inr (List.mem_append.mpr (Or.inr
      (List.mem_append.mpr (Or.inr (List.mem_append.mpr (Or.inl ?_)))))))
    exact List.mem_map.mpr ⟨kv, hkv, rfl⟩
  · intro kv hkv
    simp only [outfiles_spec, List.append_assoc]
    refine List.mem_append.mpr (Or.inr (List.mem_append.mpr (Or.inr
      (List.mem_append.mpr (Or.inl ?_)))))
    exact List.mem_map.mpr ⟨kv, hkv, rfl⟩
  · intro kvs henv kv hkv
    simp only [outfiles_spec, List.append_assoc]
    rw [henv]
    refine List.mem_append.mpr (Or.inr (List.mem_append.mpr (Or.inr
      (List.mem_append.mpr (Or.inr (List.mem_append.mpr (Or.inr
        (List.mem_append.mpr (Or.inl ?_)))))))))
    exact List.mem_map.mpr ⟨kv, hkv, rfl⟩
  · simp only [outfiles_spec, List.append_assoc]
    refine List.mem_append.mpr (Or.inr (List.mem_append.mpr (Or.inr
      (List.mem_append.mpr (Or.inr (List.mem_append.mpr (Or.inr
        (List.mem_append.mpr (Or.inr (List.mem_append.mpr (Or.inl ?_)))))))))))
    exact List.mem_cons.mpr (Or.inl rfl)

/-- C7 witness: the basic fixture's run record carries mode
`0o777 &~ 0o022`, and the umask-0o007 instances from the claim. -/
theorem C7_mode_masking_witness :
    Record.file { path := (["sv"] ++ ["n"]) ++ ["run"],
                  mode := and_not EXECUTABLE 0o022,
                  content := .exact "R" }
      ∈ (outfiles_spec cfgBasic fsBasic ["sv"] ["srv"],
         dirs_spec cfgBasic ["sv"]).1 ∧
    (and_not EXECUTABLE 0o007 = 0o770 ∧ and_not NONEXECUTABLE 0o007 = 0o660) :=
  ⟨(C7_mode_masking cfgBasic fsBasic ["sv"] ["srv"]
      (outfiles_spec cfgBasic fsBasic ["sv"] ["srv"], dirs_spec cfgBasic ["sv"])
      (by decide)).2.1,
   (C7_mode_masking cfgBasic fsBasic ["sv"] ["srv"]
      (outfiles_spec cfgBasic fsBasic ["sv"] ["srv"], dirs_spec cfgBasic ["sv"])
      (by decide)).2.2.2.2.2.2.2⟩

/-- C4: when two constructed records target the same path (the declared path
set is smaller than the record count), the run fails with the fatal
duplicate-path error; the reported filesystem is the starting one (nothing
was mutated) and the failure does not depend on any detection result (no
`detectChange` hypothesis is needed — detection never runs). -/
theorem C4_duplicate_paths (cfg : Config) (check_mode : Bool) (fs : FS)
    (sv_dir service_dir : Path) (built : List Record × List Path)
    (h1 : first_directory cfg.sv_directory fs = some sv_dir)
    (h2 : first_directory cfg.service_directory fs = some service_dir)
    (hb : build_records cfg fs sv_dir service_dir = .ok built)
    (hdup : ¬ (built.1.map Record.path).Nodup) :
    _main cfg check_mode fs = .error (Failure.duplicateFilePaths, fs) := by
  obtain ⟨outfiles, dirs⟩ := built
  have hlen : ¬ ((outfiles.map Record.path).dedup.length =
      (outfiles.map Record.path).length) := by
    intro he
    exact hdup ((dedup_length_eq_iff _).mp he)
  unfold _main
  simp only [h1, h2, hb, ne_eq]
  rw [if_pos hlen]

/-- C4 witness: an extra file named `run` collides with the primary run
record and makes the basic fixture fail before touching the filesystem. -/
theorem C4_duplicate_paths_witness :
    _main { cfgBasic with extra_files := [("run", "x")] } false fsBasic =
      .error (Failure.duplicateFilePaths, fsBasic) :=
  C4_duplicate_paths { cfgBasic with extra_files := [("run", "x")] } false
    fsBasic ["sv"] ["srv"]
    (outfiles_spec { cfgBasic with extra_files := [("run", "x")] } fsBasic
       ["sv"] ["srv"],
     dirs_spec { cfgBasic with extra_files := [("run", "x")] } ["sv"])
    (by decide) (by decide) (by decide) (by decide)

/-- Forward direction: when no fatal configuration combination is present,
`build_records` succeeds with the spec lists. -/
theorem build_records_ok_of (cfg : Config) (fs : FS) (sv_dir service_dir : Path)
    (hlog : cfg.log_runscript = none → cfg.log_supervise_link = none)
    (habs : cfg.state = SvState.absent → cfg.lsb_service ≠ some LsbChoice.present)
    (hinit : cfg.state ≠ SvState.absent →
      first_directory cfg.init_d_directory fs = none → cfg.lsb_service = none) :
    build_records cfg fs sv_dir service_dir =
      .ok (outfiles_spec cfg fs sv_dir service_dir, dirs_spec cfg sv_dir) := by
  unfold build_records outfiles_spec dirs_spec
  rcases hl : cfg.log_runscript with _ | lr <;>
    (try rw [hlog hl]) <;>
    rcases henv : cfg.envdir with _ | kvs <;>
    rcases hst : cfg.state <;>
    rcases hlsb : cfg.lsb_service with _ | ch <;>
    (try rcases ch) <;>
    rcases hfd : first_directory cfg.init_d_directory fs with _ | d <;>
    simp_all

/-- When the init.d lookup fails, the state is not absent, and lsb_service is
requested, `build_records` fails with the no-init.d error. -/
theorem build_records_err_noInitD (cfg : Config) (fs : FS)
    (sv_dir service_dir : Path)
    (hlog : cfg.log_runscript = none → cfg.log_supervise_link = none)
    (hst : cfg.state ≠ SvState.absent)
    (hfd : first_directory cfg.init_d_directory fs = none)
    (ch : LsbChoice) (hlsb : cfg.lsb_service = some ch) :
    build_records cfg fs sv_dir service_dir = .error Failure.noInitDDirectory := by
  unfold build_records
  rcases hl : cfg.log_runscript with _ | lr <;>
    (try rw [hlog hl]) <;>
    rcases hstv : cfg.state <;>
    simp_all

/-- C8: directory selection returns the first candidate that exists as a real
directory (an entry that is a symlink or file is skipped, and a selected
candidate is always a directory entry); exhausting the candidates is exactly
the all-non-directories case; no sv_directory or service_directory candidate
is a fatal no-extant-directory error; and with the earlier checks passed the
absence of every init_d_directory candidate is fatal precisely when
lsb_service was requested. -/
theorem C8_directory_selection (cfg : Config) (fs : FS) :
    (∀ ds d, first_directory ds fs = some d →
      d ∈ ds ∧ fsGet fs d = some Entry.dir) ∧
    (∀ ds, first_directory ds fs = none ↔
      ∀ d ∈ ds, fsGet fs d ≠ some Entry.dir) ∧
    (∀ l1 d l2, fsGet fs d = some Entry.dir →
      (∀ d' ∈ l1, fsGet fs d' ≠ some Entry.dir) →
      first_directory (l1 ++ d :: l2) fs = some d) ∧
    (first_directory cfg.sv_directory fs = none → ∀ cm,
      _main cfg cm fs = .error (Failure.noExtantDirectory "sv_directory", fs)) ∧
    (∀ sv_dir, first_directory cfg.sv_directory fs = some sv_dir →
      first_directory cfg.service_directory fs = none → ∀ cm,
      _main cfg cm fs =
        .error (Failure.noExtantDirectory "service_directory", fs)) ∧
    (∀ sv_dir service_dir,
      first_directory cfg.sv_directory fs = some sv_dir →
      first_directory cfg.service_directory fs = some service_dir →
      cfg.state ≠ SvState.absent →
      (cfg.log_runscript = none → cfg.log_supervise_link = none) →
      first_directory cfg.init_d_directory fs = none → ∀ cm,
      (_main cfg cm fs = .error (Failure.noInitDDirectory, fs) ↔
        cfg.lsb_service ≠ none)) := by
  refine ⟨?_, ?_, ?_, ?_, ?_, ?_⟩
  · intro ds d h
    refine ⟨List.mem_of_find?_eq_some h, ?_⟩
    have hp := List.find?_some h
    rcases hg : fsGet fs d with _ | e
    · rw [hg] at hp; simp at hp
    · cases e
      · rw [hg] at hp; simp at hp
      · rfl
      · rw [hg] at hp; simp at hp
  · intro ds
    unfold first_directory
    rw [List.find?_eq_none]
    constructor
    · intro h d hd hg
      have := h d hd
      rw [hg] at this
      simp at this
    · intro h d hd
      rcases hg : fsGet fs d with _ | e
      · simp
      · cases e <;> simp_all
  · intro l1 d l2 hd hall
    induction l1 with
    | nil =>
      unfold first_directory
      simp only [List.nil_append]
      apply List.find?_cons_of_pos
      rw [hd]
    | cons x xs ih =>
      unfold first_directory at ih ⊢
      simp only [List.cons_append]
      rw [List.find?_cons_of_neg]
      · exact ih fun d' hd' => hall d' (List.mem_cons_of_mem x hd')
      · have hx := hall x (List.mem_cons_self x xs)
        rcases hg : fsGet fs x with _ | e
        · simp
        · cases e <;> simp_all
  · intro h cm
    unfold _main
    rw [h]
  · intro sv_dir h1 h2 cm
    unfold _main
    simp only [h1, h2]
  · intro sv_dir service_dir h1 h2 hstate hlog hfd cm
    constructor
    · intro hm
      rcases hlsbv : cfg.lsb_service with _ | ch
      · exfalso
        have hbOk := build_records_ok_of cfg fs sv_dir service_dir hlog
          (fun habs => absurd habs hstate) (fun _ _ => hlsbv)
        unfold _main at hm
        simp only [h1, h2, hbOk] at hm
        split at hm
        · simp at hm
        · split at hm
          · simp at hm
          · split at hm
            · simp at hm
            · split at hm
              · simp at hm
              · split at hm
                · simp at hm
                · split at hm
                  · simp at hm
                  · simp at hm
      · simp [hlsbv]
    · intro hne
      rcases hlsbv : cfg.lsb_service with _ | ch
      · exact absurd hlsbv hne
      · have hbErr := build_records_err_noInitD cfg fs sv_dir service_dir
          hlog hstate hfd ch hlsbv
        unfold _main
        simp only [h1, h2, hbErr]

/-- C8 witness: with no extant init.d candidate and lsb_service set to
absent, the basic fixture fails fatally with the no-init.d error. -/
theorem C8_directory_selection_witness :
    _main cfgNoInit false fsBasic =
      .error (Failure.noInitDDirectory, fsBasic) :=
  ((C8_directory_selection cfgNoInit fsBasic).2.2.2.2.2
    ["sv"] ["srv"] (by decide) (by decide) (by decide)
    (fun h => by decide) (by decide) false).mpr (by decide)

/-- Boolean list-prefix test, characterized. -/
theorem isPrefixOf_exists (d p : Path) :
    d.isPrefixOf p = true ↔ ∃ t, p = d ++ t := by
  induction d generalizing p with
  | nil =>
    simp [List.isPrefixOf]
  | cons x xs ih =>
    cases p with
    | nil => simp [List.isPrefixOf]
    | cons y ys =>
      simp only [List.isPrefixOf, Bool.and_eq_true, beq_iff_eq, ih,
        List.cons_append, List.cons.injEq]
      constructor
      · rintro ⟨rfl, t, rfl⟩
        exact ⟨t, rfl, rfl⟩
      · rintro ⟨t, rfl, rfl⟩
        exact ⟨rfl, t, rfl⟩

/-- An immediate child determines its parent directory. -/
theorem isChildOf_parent (d p : Path) (h : isChildOf d p = true) :
    d = p.dropLast := by
  unfold isChildOf at h
  rw [Bool.and_eq_true] at h
  obtain ⟨h1, h2⟩ := h
  obtain ⟨t, rfl⟩ := (isPrefixOf_exists d _).mp h1
  have hlen : (d ++ t).length = d.length + 1 := eq_of_beq h2
  have ht : t.length = 1 := by
    rw [List.length_append] at hlen
    omega
  obtain ⟨x, rfl⟩ := List.length_eq_one.mp ht
  rw [List.dropLast_concat]

/-- The negated containment test used by the cleanup pass. -/
theorem not_contains_iff (l : List Path) (p : Path) :
    (!l.contains p) = true ↔ p ∉ l := by
  simp [List.contains]

/-- Characterization of a successful directory listing. -/
theorem list_directory_ok (fs : FS) (d : Path) (children : List Path)
    (h : list_directory fs d = .ok children) :
    fsGet fs d = some Entry.dir ∧ children.Nodup ∧
    ∀ p, p ∈ children ↔ (isChildOf d p = true ∧ ∃ e, (p, e) ∈ fs) := by
  unfold list_directory at h
  rcases hg : fsGet fs d with _ | e
  · rw [hg] at h; cases h
  · cases e
    · rw [hg] at h; cases h
    · rw [hg] at h
      injection h with h'
      subst h'
      refine ⟨rfl, List.nodup_dedup _, fun p => ?_⟩
      rw [List.mem_dedup, List.mem_filterMap]
      constructor
      · rintro ⟨pe, hpe, hf⟩
        by_cases hic : isChildOf d pe.1
        · rw [if_pos hic] at hf
          injection hf with hf'
          subst hf'
          exact ⟨hic, pe.2, hpe⟩
        · rw [if_neg hic] at hf
          cases hf
      · rintro ⟨hic, e, hpe⟩
        exact ⟨(p, e), hpe, by rw [if_pos hic]⟩
    · rw [hg] at h; cases h

/-- Characterization of the records appended by the cleanup pass: all are
regular-file removals, one per path, exactly for the unclaimed children of
those directories to clear that exist. -/
theorem cleanup_records_mem (fs : FS) (dirs claimed : List Path)
    (rs : List Record) (hnd : dirs.Nodup)
    (hc : cleanup_records fs dirs claimed = .ok rs) :
    (∀ r ∈ rs, ∃ p, r = Record.remove (rm p)) ∧
    (rs.map Record.path).Nodup ∧
    (∀ p, Record.remove (rm p) ∈ rs ↔
      ((∃ d ∈ dirs, fsGet fs d = some Entry.dir ∧ isChildOf d p = true ∧
          ∃ e, (p, e) ∈ fs) ∧ p ∉ claimed)) := by
  induction dirs generalizing rs with
  | nil =>
    unfold cleanup_records at hc
    injection hc with h'
    subst h'
    exact ⟨by simp, by simp, fun p => by simp⟩
  | cons d rest ih =>
    unfold cleanup_records at hc
    rcases hld : list_directory fs d with e | children
    · rw [hld] at hc
      cases e
      case EEXIST => exact Except.noConfusion hc
      case EINVAL => exact Except.noConfusion hc
      case EISDIR => exact Except.noConfusion hc
      case ENOTDIR => exact Except.noConfusion hc
      case EOTHER => exact Except.noConfusion hc
      case ENOENT =>
        obtain ⟨hsh, hnodup, hmem⟩ := ih rs (List.Nodup.of_cons hnd) hc
        have hdmiss : fsGet fs d ≠ some Entry.dir := by
          intro hdir
          unfold list_directory at hld
          rw [hdir] at hld
          cases hld
        refine ⟨hsh, hnodup, fun p => ?_⟩
        rw [hmem p]
        constructor
        · rintro ⟨⟨d', hd', hrest⟩, hncl⟩
          exact ⟨⟨d', List.mem_cons_of_mem d hd', hrest⟩, hncl⟩
        · rintro ⟨⟨d', hd', hdir, hrest⟩, hncl⟩
          rcases List.mem_cons.mp hd' with hdd | hd'
          · exact absurd (hdd ▸ hdir) hdmiss
          · exact ⟨⟨d', hd', hdir, hrest⟩, hncl⟩
    · rw [hld] at hc
      rcases hcr : cleanup_records fs rest claimed with e | tail
      · rw [hcr] at hc; cases hc
      · rw [hcr] at hc
        injection hc with h'
        subst h'
        obtain ⟨hdir, hcnd, hcm⟩ := list_directory_ok fs d children hld
        obtain ⟨hsh, hnodup, hmem⟩ := ih tail (List.Nodup.of_cons hnd) hcr
        have hmap_id : ∀ l : List Path,
            (l.map fun p => Record.remove (rm p)).map Record.path = l := by
          intro l
          rw [List.map_map]
          have : (Record.path ∘ fun p => Record.remove (rm p)) = id := by
            funext q; rfl
          rw [this, List.map_id]
        refine ⟨?_, ?_, fun p => ?_⟩
        · intro r hr
          rcases List.mem_append.mp hr with hr | hr
          · rcases List.mem_map.mp hr with ⟨p, _, hp⟩
            exact ⟨p, hp.symm⟩
          · exact hsh r hr
        · rw [List.map_append]
          apply List.Nodup.append
          · rw [hmap_id]
            exact List.Nodup.filter _ hcnd
          · exact hnodup
          · intro p hp1 hp2
            rw [hmap_id] at hp1
            have hchild : isChildOf d p = true :=
              ((hcm p).mp (List.mem_filter.mp hp1).1).1
            rcases List.mem_map.mp hp2 with ⟨r, hr, hrp⟩
            rcases hsh r hr with ⟨q, hq⟩
            subst hq
            have hqp : q = p := hrp
            obtain ⟨⟨d', hd', _, hchild', _⟩, _⟩ := (hmem p).mp (hqp ▸ hr)
            have h1 : d = p.dropLast := isChildOf_parent d p hchild
            have h2 : d' = p.dropLast := isChildOf_parent d' p hchild'
            have : d ∈ rest := by rw [h1, ← h2]; exact hd'
            exact (List.nodup_cons.mp hnd).1 this
        · rw [List.mem_append]
          constructor
          · rintro (hr | hr)
            · rcases List.mem_map.mp hr with ⟨q, hq, hqe⟩
              have hqp : q = p := congrArg Record.path hqe
              subst hqp
              obtain ⟨hqc, hqcl⟩ := List.mem_filter.mp hq
              obtain ⟨hchild, e, hpe⟩ := (hcm q).mp hqc
              exact ⟨⟨d, List.mem_cons_self d rest, hdir, hchild, e, hpe⟩,
                (not_contains_iff claimed q).mp hqcl⟩
            · obtain ⟨⟨d', hd', hrest⟩, hncl⟩ := (hmem p).mp hr
              exact ⟨⟨d', List.mem_cons_of_mem d hd', hrest⟩, hncl⟩
          · rintro ⟨⟨d', hd', hdir', hchild', e, hpe⟩, hncl⟩
            rcases List.mem_cons.mp hd' with hdd | hd'
            · left
              subst hdd
              apply List.mem_map.mpr
              refine ⟨p, List.mem_filter.mpr ⟨(hcm p).mpr ⟨hchild', e, hpe⟩,
                (not_contains_iff claimed p).mpr hncl⟩, rfl⟩
            · right
              exact (hmem p).mpr ⟨⟨d', hd', hdir', hchild', e, hpe⟩, hncl⟩

/-- C6: the cleanup pass appends regular-file-kind RemoveRecords — one per
path — exactly for the immediate children of the exclusively managed
directories (the main service directory, plus the log and env subdirectories
when configured) that are neither declared record paths nor managed
directories themselves; declared paths contribute nothing, and a managed
directory that does not exist contributes nothing. -/
theorem C6_cleanup_pass (cfg : Config) (fs : FS) (sv_dir service_dir : Path)
    (built : List Record × List Path) (rs : List Record)
    (hb : build_records cfg fs sv_dir service_dir = .ok built)
    (hc : cleanup_records fs built.2 (built.1.map Record.path ++ built.2) =
      .ok rs) :
    (built.2 = [sv_dir ++ [cfg.name]]
      ++ (if cfg.log_runscript.isSome
          then [(sv_dir ++ [cfg.name]) ++ ["log"]] else [])
      ++ (if cfg.envdir.isSome
          then [(sv_dir ++ [cfg.name]) ++ ["env"]] else [])) ∧
    (∀ r ∈ rs, ∃ p, r = Record.remove (rm p)) ∧
    (rs.map Record.path).Nodup ∧
    (∀ p, Record.remove (rm p) ∈ rs ↔
      ((∃ d ∈ built.2, fsGet fs d = some Entry.dir ∧ isChildOf d p = true ∧
          ∃ e, (p, e) ∈ fs) ∧
        p ∉ built.1.map Record.path ∧ p ∉ built.2)) := by
  have he := build_records_ok_eq cfg fs sv_dir service_dir built hb
  have hd2 : built.2 = dirs_spec cfg sv_dir := by rw [he]
  have hshape : built.2 = [sv_dir ++ [cfg.name]]
      ++ (if cfg.log_runscript.isSome
          then [(sv_dir ++ [cfg.name]) ++ ["log"]] else [])
      ++ (if cfg.envdir.isSome
          then [(sv_dir ++ [cfg.name]) ++ ["env"]] else []) := by
    rw [hd2]
    unfold dirs_spec
    rcases cfg.log_runscript <;> rcases cfg.envdir <;> simp
  have hlne : sv_dir ++ [cfg.name] ≠ (sv_dir ++ [cfg.name]) ++ ["log"] := by
    intro h
    have := congrArg List.length h
    simp at this
  have hene : sv_dir ++ [cfg.name] ≠ (sv_dir ++ [cfg.name]) ++ ["env"] := by
    intro h
    have := congrArg List.length h
    simp at this
  have hle : (sv_dir ++ [cfg.name]) ++ ["log"] ≠
      (sv_dir ++ [cfg.name]) ++ ["env"] := by
    intro h
    have := List.append_cancel_left h
    simp at this
  have hnd : built.2.Nodup := by
    rw [hshape]
    rcases cfg.log_runscript <;> rcases cfg.envdir <;>
      simp_all [List.Nodup]
  obtain ⟨hsh, hnodup, hmem⟩ := cleanup_records_mem fs built.2
    (built.1.map Record.path ++ built.2) rs hnd hc
  refine ⟨hshape, hsh, hnodup, fun p => ?_⟩
  rw [hmem p]
  simp only [List.mem_append, not_or]

/-- C6 witness: a stale file in the managed service directory yields exactly
one regular-file RemoveRecord. -/
theorem C6_cleanup_pass_witness :
    Record.remove (rm ["sv", "n", "stale"]) ∈
      [Record.remove (rm ["sv", "n", "stale"])] :=
  ((C6_cleanup_pass cfgBasic fsStale ["sv"] ["srv"]
      (outfiles_spec cfgBasic fsStale ["sv"] ["srv"], dirs_spec cfgBasic ["sv"])
      [Record.remove (rm ["sv", "n", "stale"])]
      (by decide) (by decide)).2.2.2 ["sv", "n", "stale"]).mpr
    ⟨⟨["sv", "n"], by decide, by decide, by decide,
      Entry.file "x" 0o644, by decide⟩, by decide, by decide⟩

/-- Heterogeneous version of `List.any_map`. -/
theorem any_map_hetero {α β : Type} (l : List α) (f : α → β) (p : β → Bool) :
    (l.map f).any p = l.any fun a => p (f a) := by
  induction l with
  | nil => rfl
  | cons x xs ih => simp only [List.map_cons, List.any_cons, ih]

/-- C3: any run that exits successfully reports changed exactly when some
entry of the per-path must-change map is true; a dry-run (check-mode) exit
never mutates the filesystem, commit or no commit pending; and a changed =
false exit leaves the filesystem untouched in either mode. -/
theorem C3_dry_run_purity (cfg : Config) (cm : Bool) (fs : FS)
    (rep : RunReport) (fs1 : FS)
    (h : _main cfg cm fs = .ok (rep, fs1)) :
    (cm = true → fs1 = fs) ∧
    (rep.changed = rep.paths.any fun pr => pr.2) ∧
    (rep.changed = false → fs1 = fs) := by
  rcases h1 : first_directory cfg.sv_directory fs with _ | sv_dir
  · unfold _main at h
    rw [h1] at h
    cases h
  rcases h2 : first_directory cfg.service_directory fs with _ | service_dir
  · unfold _main at h
    simp only [h1, h2] at h
    cases h
  rcases hb : build_records cfg fs sv_dir service_dir with f | built
  · unfold _main at h
    simp only [h1, h2, hb] at h
    cases h
  obtain ⟨outfiles, dirs⟩ := built
  unfold _main at h
  simp only [h1, h2, hb] at h
  split at h
  · cases h
  split at h
  · cases h
  split at h
  · cases h
  rename_i detected heqd
  split at h
  · rename_i hany
    injection h with h'
    injection h' with hrep hfs
    subst hrep
    subst hfs
    refine ⟨fun _ => rfl, ?_, fun _ => rfl⟩
    show false = (detected.map fun r => (r.path, r.must_change)).any
      fun pr => pr.2
    rw [any_map_hetero]
    exact hany.symm
  · rename_i hany
    have hany' : (detected.any fun r => r.must_change) = true :=
      Bool.of_not_eq_false hany
    split at h
    · rename_i hcm
      injection h with h'
      injection h' with hrep hfs
      subst hrep
      subst hfs
      refine ⟨fun _ => rfl, ?_, fun hcontra => by cases hcontra⟩
      show true = (detected.map fun r => (r.path, r.must_change)).any
        fun pr => pr.2
      rw [any_map_hetero]
      exact hany'.symm
    · rename_i hcm
      split at h
      · cases h
      · injection h with h'
        injection h' with hrep hfs
        subst hrep
        refine ⟨fun hc => absurd hc hcm, ?_, fun hcontra => by cases hcontra⟩
        show true = (detected.map fun r => (r.path, r.must_change)).any
          fun pr => pr.2
        rw [any_map_hetero]
        exact hany'.symm

/-- C3 witness: the dry run on the basic fixture reports changed = true with
a per-path map whose disjunction is that same flag. -/
theorem C3_dry_run_purity_witness :
    RunReport.changed repBasic = List.any (RunReport.paths repBasic) Prod.snd :=
  (C3_dry_run_purity cfgBasic true fsBasic repBasic fsBasic (by decide)).2.1

/-- A result is ok exactly when it is some `.ok`. -/
theorem isOkB_iff {e a : Type} (x : Except e a) :
    isOkB x = true ↔ ∃ v, x = .ok v := by
  cases x <;> simp [isOkB]

/-- The directories-to-clear list never repeats a directory. -/
theorem dirs_spec_nodup (cfg : Config) (sv_dir : Path) :
    (dirs_spec cfg sv_dir).Nodup := by
  have hlne : sv_dir ++ [cfg.name] ≠ (sv_dir ++ [cfg.name]) ++ ["log"] := by
    intro h
    have := congrArg List.length h
    simp at this
  have hene : sv_dir ++ [cfg.name] ≠ (sv_dir ++ [cfg.name]) ++ ["env"] := by
    intro h
    have := congrArg List.length h
    simp at this
  have hle : (sv_dir ++ [cfg.name]) ++ ["log"] ≠
      (sv_dir ++ [cfg.name]) ++ ["env"] := by
    intro h
    have := List.append_cancel_left h
    simp at this
  unfold dirs_spec
  rcases cfg.log_runscript <;> rcases cfg.envdir <;> simp_all [List.Nodup]

/-- Detection stops at the unique failing record and propagates its error. -/
theorem detect_records_unique_error (fs : FS) (rs : List Record) (r0 : Record)
    (e0 : Err) (hmem : r0 ∈ rs)
    (herr : r0.check_if_must_change fs = .error e0)
    (hothers : ∀ r ∈ rs, r ≠ r0 → isOkB (r.check_if_must_change fs) = true) :
    detect_records fs rs = .error e0 := by
  induction rs with
  | nil => cases hmem
  | cons r rest ih =>
    unfold detect_records
    by_cases hr0 : r = r0
    · subst hr0
      rw [herr]
    · obtain ⟨r', hr'⟩ := (isOkB_iff _).mp
        (hothers r (List.mem_cons_self r rest) hr0)
      rw [hr']
      have hmem' : r0 ∈ rest := by
        rcases List.mem_cons.mp hmem with hh | hh
        · exact absurd hh.symm hr0
        · exact hh
      rw [ih hmem' fun r hr hne => hothers r (List.mem_cons_of_mem _ hr) hne]

/-- C10: a stray immediate child of a managed directory that is itself a
directory (neither declared nor a managed directory) makes its cleanup
record's detectChange raise the fatal kind-mismatch `NotAThingError`, which
aborts the whole run before any commit — the starting filesystem is returned
unchanged in the failure — rather than the child being removed or skipped
(this assumes every other record's detection succeeds, so the stray child's
conflict is the one that surfaces). -/
theorem C10_stray_directory (cfg : Config) (cm : Bool) (fs : FS)
    (sv_dir service_dir : Path) (built : List Record × List Path)
    (cleanup : List Record) (p : Path)
    (h1 : first_directory cfg.sv_directory fs = some sv_dir)
    (h2 : first_directory cfg.service_directory fs = some service_dir)
    (hb : build_records cfg fs sv_dir service_dir = .ok built)
    (hnodup : (built.1.map Record.path).Nodup)
    (hc : cleanup_records fs built.2 (built.1.map Record.path ++ built.2) =
      .ok cleanup)
    (hp : Record.remove (rm p) ∈ cleanup)
    (hdir : fsGet fs p = some Entry.dir)
    (hothers : ∀ r ∈ built.1 ++ cleanup, r.path ≠ p →
      isOkB (r.check_if_must_change fs) = true) :
    _main cfg cm fs = .error (Failure.exc (Err.notAThing p), fs) := by
  obtain ⟨outfiles, dirs⟩ := built
  simp only at hnodup hc hothers
  have hdnd : dirs.Nodup := by
    have he := build_records_ok_eq cfg fs sv_dir service_dir (outfiles, dirs) hb
    have h2' := congrArg Prod.snd he
    simp only at h2'
    rw [h2']
    exact dirs_spec_nodup cfg sv_dir
  obtain ⟨hsh, hcnodup, hmem⟩ := cleanup_records_mem fs dirs
    (outfiles.map Record.path ++ dirs) cleanup hdnd hc
  have hpnotdecl : p ∉ outfiles.map Record.path := by
    have := ((hmem p).mp hp).2
    intro hcontra
    exact this (List.mem_append.mpr (Or.inl hcontra))
  have hmc : (rm p).must_change_p fs = .error (.notAThing p) := by
    simp [RemoveThing.must_change_p, rm, statMatches, hdir]
  have herr : (Record.remove (rm p)).check_if_must_change fs =
      .error (.notAThing p) := by
    simp only [Record.check_if_must_change, hmc]
  have hothers' : ∀ r ∈ outfiles ++ cleanup, r ≠ Record.remove (rm p) →
      isOkB (r.check_if_must_change fs) = true := by
    intro r hr hne
    by_cases hpath : r.path = p
    · exfalso
      rcases List.mem_append.mp hr with hr | hr
      · exact hpnotdecl (List.mem_map.mpr ⟨r, hr, hpath⟩)
      · obtain ⟨q, hq⟩ := hsh r hr
        subst hq
        have hqp : q = p := hpath
        subst hqp
        exact hne rfl
    · exact hothers r hr hpath
  have hdet : detect_records fs (outfiles ++ cleanup) = .error (.notAThing p) :=
    detect_records_unique_error fs (outfiles ++ cleanup) (Record.remove (rm p))
      (.notAThing p) (List.mem_append.mpr (Or.inr hp)) herr hothers'
  unfold _main
  simp only [h1, h2, hb]
  have hlen : (outfiles.map Record.path).dedup.length =
      (outfiles.map Record.path).length :=
    (dedup_length_eq_iff _).mpr hnodup
  rw [if_neg fun hne => hne hlen]
  simp only [hc, hdet]

/-- C10 witness: the stray directory fixture aborts with NotAThingError on
the stray path, leaving the starting filesystem in the failure. -/
theorem C10_stray_directory_witness :
    _main cfgBasic false fsStray =
      .error (Failure.exc (Err.notAThing ["sv", "n", "stray"]), fsStray) :=
  C10_stray_directory cfgBasic false fsStray ["sv"] ["srv"]
    (outfiles_spec cfgBasic fsStray ["sv"] ["srv"], dirs_spec cfgBasic ["sv"])
    [Record.remove (rm ["sv", "n", "stray"])] ["sv", "n", "stray"]
    (by decide) (by decide) (by decide) (by decide) (by decide) (by decide)
    (by decide) (by decide)

/-! Filesystem update lemmas. -/

theorem find?_key_filter (l : List (Path × Entry)) (keep : Path × Entry → Bool)
    (q : Path) (hkeep : ∀ pe : Path × Entry, pe.1 = q → keep pe = true) :
    (l.filter keep).find? (fun pe => pe.1 == q) =
      l.find? (fun pe => pe.1 == q) := by
  induction l with
  | nil => rfl
  | cons x xs ih =>
    rw [List.filter_cons]
    by_cases hxq : x.1 = q
    · rw [if_pos (hkeep x hxq)]
      rw [List.find?_cons_of_pos _ (by simp [hxq]),
        List.find?_cons_of_pos _ (by simp [hxq])]
    · by_cases hk : keep x = true
      · rw [if_pos hk, List.find?_cons_of_neg _ (by simp [hxq]),
          List.find?_cons_of_neg _ (by simp [hxq]), ih]
      · rw [if_neg hk, ih, List.find?_cons_of_neg _ (by simp [hxq])]

theorem find?_key_filter_none (l : List (Path × Entry))
    (keep : Path × Entry → Bool) (q : Path)
    (hdrop : ∀ pe : Path × Entry, pe.1 = q → keep pe = false) :
    (l.filter keep).find? (fun pe => pe.1 == q) = none := by
  apply List.find?_eq_none.mpr
  intro pe hpe
  have hkeep := (List.mem_filter.mp hpe).2
  intro hcontra
  have heq : pe.1 = q := eq_of_beq hcontra
  rw [hdrop pe heq] at hkeep
  cases hkeep

theorem fsGet_fsSet (fs : FS) (p : Path) (e : Entry) (q : Path) :
    fsGet (fsSet fs p e) q = if q = p then some e else fsGet fs q := by
  unfold fsGet fsSet
  by_cases h : q = p
  · subst h
    rw [if_pos rfl]
    rw [List.find?_cons_of_pos _ (by simp)]
  · rw [if_neg h]
    have h1 : (((p, e) :: fs.filter fun pe => !(pe.1 == p)).find?
        fun pe => pe.1 == q) = fs.find? fun pe => pe.1 == q := by
      rw [List.find?_cons_of_neg _ (by simp; exact fun hh => h hh.symm)]
      apply find?_key_filter
      intro pe hpe
      rw [hpe]
      simp [h]
    rw [h1]

theorem fsGet_fsRemove (fs : FS) (p q : Path) :
    fsGet (fsRemove fs p) q = if q = p then none else fsGet fs q := by
  unfold fsGet fsRemove
  by_cases h : q = p
  · subst h
    rw [if_pos rfl]
    have h1 : ((fs.filter fun pe => !(pe.1 == q)).find?
        fun pe => pe.1 == q) = none := by
      apply find?_key_filter_none
      intro pe hpe
      simp [hpe]
    rw [h1]
  · rw [if_neg h]
    have h1 : ((fs.filter fun pe => !(pe.1 == p)).find?
        fun pe => pe.1 == q) = fs.find? fun pe => pe.1 == q := by
      apply find?_key_filter
      intro pe hpe
      rw [hpe]
      simp [h]
    rw [h1]

theorem fsGet_fsRemoveTree (fs : FS) (p q : Path) :
    fsGet (fsRemoveTree fs p) q =
      if p.isPrefixOf q = true then none else fsGet fs q := by
  unfold fsGet fsRemoveTree
  by_cases h : p.isPrefixOf q = true
  · rw [if_pos h]
    have h1 : ((fs.filter fun pe => !(p.isPrefixOf pe.1)).find?
        fun pe => pe.1 == q) = none := by
      apply find?_key_filter_none
      intro pe hpe
      rw [hpe, h]
      rfl
    rw [h1]
  · rw [if_neg h]
    have hb : p.isPrefixOf q = false := by
      cases hv : p.isPrefixOf q
      · rfl
      · exact absurd hv h
    have h1 : ((fs.filter fun pe => !(p.isPrefixOf pe.1)).find?
        fun pe => pe.1 == q) = fs.find? fun pe => pe.1 == q := by
      apply find?_key_filter
      intro pe hpe
      rw [hpe, hb]
      rfl
    rw [h1]

theorem fsGet_eq_none_iff (fs : FS) (q : Path) :
    fsGet fs q = none ↔ ∀ e, (q, e) ∉ fs := by
  unfold fsGet
  rcases hf : fs.find? (fun pe => pe.1 == q) with _ | pe <;> rw [hf]
  · constructor
    · intro _ e he
      have := List.find?_eq_none.mp hf (q, e) he
      simp at this
    · intro _
      rfl
  · constructor
    · intro hcontra
      cases hcontra
    · intro hall
      exfalso
      have h0 := List.find?_some hf
      have h1 : pe.1 = q := eq_of_beq h0
      have h2 : pe ∈ fs := List.mem_of_find?_eq_some hf
      apply hall pe.2
      have hpe : (q, pe.2) = pe := by
        rw [← h1]
      rw [hpe]
      exact h2

/-! Prefix toolkit. -/

theorem isPrefixOf_refl (p : Path) : p.isPrefixOf p = true :=
  (isPrefixOf_exists p p).mpr ⟨[], (List.append_nil p).symm⟩

theorem isPrefixOf_append_right (a t : Path) : a.isPrefixOf (a ++ t) = true :=
  (isPrefixOf_exists a (a ++ t)).mpr ⟨t, rfl⟩

theorem isPrefixOf_trans {a b c : Path} (h1 : a.isPrefixOf b = true)
    (h2 : b.isPrefixOf c = true) : a.isPrefixOf c = true := by
  obtain ⟨t1, rfl⟩ := (isPrefixOf_exists a b).mp h1
  obtain ⟨t2, rfl⟩ := (isPrefixOf_exists _ _).mp h2
  exact (isPrefixOf_exists _ _).mpr ⟨t1 ++ t2, List.append_assoc a t1 t2⟩

theorem isPrefixOf_length_le {a b : Path} (h : a.isPrefixOf b = true) :
    a.length ≤ b.length := by
  obtain ⟨t, rfl⟩ := (isPrefixOf_exists a b).mp h
  rw [List.length_append]
  omega

theorem isPrefixOf_eq_of_length {a b : Path} (h : a.isPrefixOf b = true)
    (hl : b.length ≤ a.length) : a = b := by
  obtain ⟨t, rfl⟩ := (isPrefixOf_exists a b).mp h
  rw [List.length_append] at hl
  have ht : t = [] := List.eq_nil_of_length_eq_zero (by omega)
  rw [ht, List.append_nil]

theorem isPrefixOf_snoc_split {p a : Path} {x : String}
    (h : p.isPrefixOf (a ++ [x]) = true) :
    p.isPrefixOf a = true ∨ p = a ++ [x] := by
  obtain ⟨t, ht⟩ := (isPrefixOf_exists p (a ++ [x])).mp h
  rcases List.eq_nil_or_concat t with rfl | ⟨t', y, rfl⟩
  · right
    rw [ht, List.append_nil]
  · left
    have h1 : a ++ [x] = (p ++ t') ++ [y] := by
      rw [ht, List.concat_eq_append]
      exact (List.append_assoc p t' [y]).symm
    have h2 := congrArg List.dropLast h1
    rw [List.dropLast_concat, List.dropLast_concat] at h2
    exact (isPrefixOf_exists p a).mpr ⟨t', h2⟩

theorem isPrefixOf_snoc_same {a : Path} {x y : String}
    (h : (a ++ [x]).isPrefixOf (a ++ [y]) = true) : x = y := by
  obtain ⟨t, ht⟩ := (isPrefixOf_exists _ _).mp h
  rw [List.append_assoc] at ht
  have h2 := List.append_cancel_left ht
  cases h2
  rfl

theorem isPrefixOf_snoc_left {a b : Path} {x : String}
    (h : (a ++ [x]).isPrefixOf b = true) : a.isPrefixOf b = true := by
  obtain ⟨t, rfl⟩ := (isPrefixOf_exists _ _).mp h
  rw [List.append_assoc]
  exact isPrefixOf_append_right a _

/-! makedirs lemmas. -/

theorem mkdirsGo_pres_present (rest : List String) (fs : FS) (done : Path)
    (fs' : FS) (h : mkdirsGo fs done rest = .ok fs') (q : Path) (e : Entry)
    (hq : fsGet fs q = some e) : fsGet fs' q = some e := by
  induction rest generalizing fs done with
  | nil =>
    unfold mkdirsGo at h
    injection h with h'
    subst h'
    exact hq
  | cons s more ih =>
    cases more with
    | nil =>
      unfold mkdirsGo at h
      rcases hg : fsGet fs (done ++ [s]) with _ | e' <;> rw [hg] at h <;>
        injection h with h' <;> subst h'
      · rw [fsGet_fsSet]
        by_cases hqq : q = done ++ [s]
        · rw [hqq] at hq
          rw [hq] at hg
          cases hg
        · rw [if_neg hqq]
          exact hq
      · exact hq
    | cons s2 more2 =>
      unfold mkdirsGo at h
      rcases hg : fsGet fs (done ++ [s]) with _ | e' <;> rw [hg] at h
      · apply ih (fsSet fs (done ++ [s]) Entry.dir) (done ++ [s]) h
        rw [fsGet_fsSet]
        by_cases hqq : q = done ++ [s]
        · rw [hqq] at hq
          rw [hq] at hg
          cases hg
        · rw [if_neg hqq]
          exact hq
      · cases e'
        · cases h
        · exact ih fs (done ++ [s]) h hq
        · cases h

theorem mkdirsGo_unchanged (rest : List String) (fs : FS) (done : Path)
    (fs' : FS) (h : mkdirsGo fs done rest = .ok fs') (q : Path)
    (hq : ¬ (done.isPrefixOf q = true ∧ q.isPrefixOf (done ++ rest) = true ∧
      q ≠ done)) :
    fsGet fs' q = fsGet fs q := by
  induction rest generalizing fs done with
  | nil =>
    unfold mkdirsGo at h
    injection h with h'
    subst h'
    rfl
  | cons s more ih =>
    have hqs : q ≠ done ++ [s] := by
      intro hcontra
      apply hq
      subst hcontra
      refine ⟨isPrefixOf_append_right done [s], ?_, ?_⟩
      · have : done ++ [s] ++ more = done ++ (s :: more) := by
          rw [List.append_assoc]
          rfl
        rw [← this]
        exact isPrefixOf_append_right _ _
      · intro hcontra2
        have := congrArg List.length hcontra2
        simp at this
    cases more with
    | nil =>
      unfold mkdirsGo at h
      rcases hg : fsGet fs (done ++ [s]) with _ | e' <;> rw [hg] at h <;>
        injection h with h' <;> subst h'
      · rw [fsGet_fsSet, if_neg hqs]
      · rfl
    | cons s2 more2 =>
      have hq' : ¬ ((done ++ [s]).isPrefixOf q = true ∧
          q.isPrefixOf ((done ++ [s]) ++ (s2 :: more2)) = true ∧
          q ≠ done ++ [s]) := by
        rintro ⟨ha, hb, hc⟩
        apply hq
        refine ⟨?_, ?_, ?_⟩
        · exact isPrefixOf_trans (isPrefixOf_append_right done [s]) ha
        · have heq : (done ++ [s]) ++ (s2 :: more2) = done ++ (s :: s2 :: more2) := by
            rw [List.append_assoc]
            rfl
          rw [heq] at hb
          exact hb
        · intro hcontra
          subst hcontra
          have hlen := isPrefixOf_length_le ha
          simp at hlen
      unfold mkdirsGo at h
      rcases hg : fsGet fs (done ++ [s]) with _ | e' <;> rw [hg] at h
      · have := ih (fsSet fs (done ++ [s]) Entry.dir) (done ++ [s]) h hq'
        rw [this, fsGet_fsSet, if_neg hqs]
      · cases e'
        · cases h
        · exact ih fs (done ++ [s]) h hq'
        · cases h

/-! Record bookkeeping lemmas. -/

theorem updateMust_path (r : Record) (b : Bool) :
    (updateMust r b).path = r.path := by
  cases r <;> rfl

theorem updateMust_must_change (r : Record) (b : Bool) :
    (updateMust r b).must_change = b := by
  cases r <;> rfl

theorem recordMustChangeP_updateMust (r : Record) (b : Bool) (fs : FS) :
    recordMustChangeP (updateMust r b) fs = recordMustChangeP r fs := by
  cases r <;> rfl

theorem isRmtreeRec_updateMust (r : Record) (b : Bool) :
    isRmtreeRec (updateMust r b) = isRmtreeRec r := by
  cases r <;> rfl

theorem hasMakedirsRec_updateMust (r : Record) (b : Bool) :
    hasMakedirsRec (updateMust r b) = hasMakedirsRec r := by
  cases r <;> rfl

theorem mayBeAbsentRec_updateMust (r : Record) (b : Bool) :
    mayBeAbsentRec (updateMust r b) = mayBeAbsentRec r := by
  cases r <;> rfl

theorem recordShapeOkB_updateMust (r : Record) (b : Bool) :
    recordShapeOkB (updateMust r b) = recordShapeOkB r := by
  cases r <;> rfl

/-- Detection only inspects the filesystem at the record's own path. -/
theorem recordMustChangeP_congr (r : Record) (fsA fsB : FS)
    (h : fsGet fsA r.path = fsGet fsB r.path) :
    recordMustChangeP r fsA = recordMustChangeP r fsB := by
  cases r with
  | file fr =>
    simp only [Record.path] at h
    show fr.must_change_p fsA = fr.must_change_p fsB
    unfold FileRecord.must_change_p hash_file
    rw [h]
  | link lr =>
    simp only [Record.path] at h
    show lr.must_change_p fsA = lr.must_change_p fsB
    unfold LinkRecord.must_change_p
    rw [h]
  | remove rr =>
    simp only [Record.path] at h
    show rr.must_change_p fsA = rr.must_change_p fsB
    unfold RemoveThing.must_change_p
    rw [h]

/-- Absence-tolerant records detect no change on an absent path. -/
theorem mayBeAbsent_det_false (r : Record) (fs : FS)
    (hm : mayBeAbsentRec r = true) (hg : fsGet fs r.path = none) :
    recordMustChangeP r fs = .ok false := by
  cases r with
  | file fr =>
    simp only [Record.path] at hg
    have hc : fr.content = FileContent.absent := by
      have hm2 : (match fr.content with
        | FileContent.absent => true
        | _ => false) = true := hm
      rcases hcc : fr.content <;> rw [hcc] at hm2 <;> simp_all
    show fr.must_change_p fs = .ok false
    unfold FileRecord.must_change_p hash_file
    rw [hg, hc]
    simp
  | link lr =>
    simp only [Record.path] at hg
    have ht : lr.target = none := by
      have hm2 : lr.target.isNone = true := hm
      exact Option.isNone_iff_eq_none.mp hm2
    show lr.must_change_p fs = .ok false
    unfold LinkRecord.must_change_p
    rw [hg, ht]
    simp
  | remove rr =>
    simp only [Record.path] at hg
    show rr.must_change_p fs = .ok false
    unfold RemoveThing.must_change_p
    rw [hg]

/-- A remove record that detects no change sits on an absent path. -/
theorem remove_det_false_absent (rr : RemoveThing) (fs : FS)
    (h : recordMustChangeP (Record.remove rr) fs = .ok false) :
    fsGet fs rr.path = none := by
  have h2 : rr.must_change_p fs = .ok false := h
  unfold RemoveThing.must_change_p at h2
  rcases hg : fsGet fs rr.path with _ | e
  · rfl
  · rw [hg] at h2
    have h3 : (if statMatches rr.stat_type e = true then
        (Except.ok true : Except Err Bool)
      else Except.error (Err.notAThing rr.path)) = Except.ok false := h2
    split at h3 <;> simp at h3

/-- The settable-mode projection is idempotent. -/
theorem settable_mode_settable (m : Nat) :
    settable_mode (settable_mode m) = settable_mode m := by
  unfold settable_mode
  apply Nat.eq_of_testBit_eq
  intro i
  simp [Nat.testBit_land, Bool.and_assoc]

/-- Masking out the umask keeps a mode inside the settable bits. -/
theorem and_not_settable (base u : Nat) (hb : settable_mode base = base) :
    settable_mode (and_not base u) = and_not base u := by
  unfold settable_mode at hb ⊢
  unfold and_not
  apply Nat.eq_of_testBit_eq
  intro i
  have htb : (base.testBit i && SETTABLE_MASK.testBit i) = base.testBit i := by
    rw [← Nat.testBit_land, hb]
  simp only [Nat.testBit_land, Nat.testBit_xor]
  revert htb
  cases base.testBit i <;> cases u.testBit i <;>
    cases SETTABLE_MASK.testBit i <;> decide

theorem EXECUTABLE_settable : settable_mode EXECUTABLE = EXECUTABLE := by
  decide

theorem NONEXECUTABLE_settable : settable_mode NONEXECUTABLE = NONEXECUTABLE := by
  decide

/-! Commit establishment: a record whose commit ran detects no change on the
resulting filesystem. -/

theorem file_commit_establishes (fr : FileRecord) (fs fsX : FS)
    (r' : FileRecord) (hflag : fr.must_change = true)
    (hsent : fr.content ≠ FileContent.sentinel)
    (hmode : settable_mode fr.mode = fr.mode)
    (h : fr.commit fs = .ok (fsX, r')) :
    fr.must_change_p fsX = .ok false := by
  have hflag' : ¬ (fr.must_change = false) := by
    rw [hflag]
    exact fun hh => Bool.noConfusion hh
  unfold FileRecord.commit at h
  rw [if_neg hflag'] at h
  split at h
  · -- desired content: absent
    rename_i hc
    split at h
    · rename_i hg
      injection h with h'
      injection h' with hfs hr
      subst hfs
      simp [FileRecord.must_change_p, hash_file, hg, hc]
    · exact Except.noConfusion h
    · rename_i e hg hne
      injection h with h'
      injection h' with hfs hr
      subst hfs
      simp [FileRecord.must_change_p, hash_file, fsGet_fsRemove, hc]
  · -- desired content: the sentinel
    rename_i hc
    exact absurd hc hsent
  · -- desired content: exact bytes
    rename_i data hc
    split at h
    · exact Except.noConfusion h
    · rename_i fs1 hmk
      split at h
      · split at h
        · exact Except.noConfusion h
        · rename_i hg2 hne
          injection h with h'
          injection h' with hfs hr
          subst hfs
          simp [FileRecord.must_change_p, hash_file, fsGet_fsSet, hc,
            settable_mode_or_ifreg, settable_mode_settable, hmode, sha256hex]
      · exact Except.noConfusion h

theorem link_commit_rest_establishes (lr : LinkRecord) (fs1 fsX : FS)
    (r' : LinkRecord) (habs : fsGet fs1 lr.path = none)
    (h : lr.commit_rest fs1 = .ok (fsX, r')) :
    lr.must_change_p fsX = .ok false := by
  unfold LinkRecord.commit_rest at h
  split at h
  · rename_i ht
    injection h with h'
    injection h' with hfs hr
    subst hfs
    simp [LinkRecord.must_change_p, habs, ht]
  · rename_i t ht
    split at h
    · exact Except.noConfusion h
    · rename_i fs2 hmk
      split at h
      · exact Except.noConfusion h
      · rename_i hg2
        injection h with h'
        injection h' with hfs hr
        subst hfs
        simp [LinkRecord.must_change_p, fsGet_fsSet, ht]

theorem link_commit_establishes (lr : LinkRecord) (fs fsX : FS)
    (r' : LinkRecord) (hflag : lr.must_change = true)
    (h : lr.commit fs = .ok (fsX, r')) :
    lr.must_change_p fsX = .ok false := by
  have hflag' : ¬ (lr.must_change = false) := by
    rw [hflag]
    exact fun hh => Bool.noConfusion hh
  unfold LinkRecord.commit at h
  rw [if_neg hflag'] at h
  split at h
  · rename_i hg
    exact link_commit_rest_establishes lr fs fsX r' hg h
  · exact Except.noConfusion h
  · rename_i e hg hne
    refine link_commit_rest_establishes lr (fsRemove fs lr.path) fsX r'
      ?_ h
    rw [fsGet_fsRemove, if_pos rfl]

theorem remove_commit_establishes (rr : RemoveThing) (fs fsX : FS)
    (r' : RemoveThing) (hflag : rr.must_change = true)
    (h : rr.commit fs = .ok (fsX, r')) :
    rr.must_change_p fsX = .ok false := by
  have hflag' : ¬ (rr.must_change = false) := by
    rw [hflag]
    exact fun hh => Bool.noConfusion hh
  unfold RemoveThing.commit at h
  rw [if_neg hflag'] at h
  split at h
  · -- S_ISREG: os.unlink
    split at h
    · exact Except.noConfusion h
    · exact Except.noConfusion h
    · rename_i e hg hne
      injection h with h'
      injection h' with hfs hr
      subst hfs
      simp [RemoveThing.must_change_p, fsGet_fsRemove]
  · -- S_ISDIR: shutil.rmtree
    split at h
    · rename_i hg
      injection h with h'
      injection h' with hfs hr
      subst hfs
      simp [RemoveThing.must_change_p, fsGet_fsRemoveTree,
        isPrefixOf_refl rr.path]
    · exact Except.noConfusion h

/-- Committing any record whose flag is set makes it detect-false on the
resulting filesystem (given the shapes the builder actually produces). -/
theorem record_commit_establishes (r : Record) (fs fsX : FS) (r' : Record)
    (hflag : r.must_change = true) (hshape : recordShapeOkB r = true)
    (h : r.commit fs = .ok (fsX, r')) :
    recordMustChangeP r fsX = .ok false := by
  cases r with
  | file fr =>
    simp only [Record.commit] at h
    split at h
    · exact Except.noConfusion h
    · rename_i fs2 fr2 hc
      injection h with h'
      injection h' with hfs hr
      subst hfs
      have hshape2 : ((match fr.content with
          | FileContent.sentinel => false
          | _ => true) && (settable_mode fr.mode == fr.mode)) = true := hshape
      rw [Bool.and_eq_true] at hshape2
      obtain ⟨hs1, hs2⟩ := hshape2
      have hsent : fr.content ≠ FileContent.sentinel := by
        intro hcontra
        rw [hcontra] at hs1
        cases hs1
      exact file_commit_establishes fr fs fs2 fr2 hflag hsent
        (eq_of_beq hs2) hc
  | link lr =>
    simp only [Record.commit] at h
    split at h
    · exact Except.noConfusion h
    · rename_i fs2 lr2 hc
      injection h with h'
      injection h' with hfs hr
      subst hfs
      exact link_commit_establishes lr fs fs2 lr2 hflag hc
  | remove rr =>
    simp only [Record.commit] at h
    split at h
    · exact Except.noConfusion h
    · rename_i fs2 rr2 hc
      injection h with h'
      injection h' with hfs hr
      subst hfs
      exact remove_commit_establishes rr fs fs2 rr2 hflag hc

/-! Commit footprint: what a single commit can touch. -/

theorem mkdirsGo_noneOrDir (rest : List String) (fs : FS) (done : Path)
    (fs' : FS) (h : mkdirsGo fs done rest = .ok fs') (q : Path)
    (hq : fsGet fs q = none ∨ fsGet fs q = some Entry.dir) :
    fsGet fs' q = none ∨ fsGet fs' q = some Entry.dir := by
  induction rest generalizing fs done with
  | nil =>
    unfold mkdirsGo at h
    injection h with h'
    subst h'
    exact hq
  | cons s more ih =>
    cases more with
    | nil =>
      unfold mkdirsGo at h
      rcases hg : fsGet fs (done ++ [s]) with _ | e' <;> rw [hg] at h <;>
        injection h with h' <;> subst h'
      · rw [fsGet_fsSet]
        by_cases hqq : q = done ++ [s]
        · rw [if_pos hqq]
          right
          rfl
        · rw [if_neg hqq]
          exact hq
      · exact hq
    | cons s2 more2 =>
      unfold mkdirsGo at h
      rcases hg : fsGet fs (done ++ [s]) with _ | e' <;> rw [hg] at h
      · apply ih (fsSet fs (done ++ [s]) Entry.dir) (done ++ [s]) h
        rw [fsGet_fsSet]
        by_cases hqq : q = done ++ [s]
        · rw [if_pos hqq]
          right
          rfl
        · rw [if_neg hqq]
          exact hq
      · cases e'
        · cases h
        · exact ih fs (done ++ [s]) h hq
        · cases h

/-- Off-chain keys are untouched by `makedirs_exist_ok`, stated for the
`done = []` entry point. -/
theorem makedirs_unchanged (fs : FS) (p : Path) (fs' : FS)
    (h : makedirs_exist_ok fs p = .ok fs') (q : Path)
    (hq : ¬ (q ≠ [] ∧ q.isPrefixOf p = true)) :
    fsGet fs' q = fsGet fs q := by
  apply mkdirsGo_unchanged p fs [] fs' h q
  rintro ⟨h1, h2, h3⟩
  rw [List.nil_append] at h2
  exact hq ⟨h3, h2⟩

theorem file_commit_touch (fr : FileRecord) (fsN fsX : FS)
    (r' : FileRecord) (h : fr.commit fsN = .ok (fsX, r')) (q : Path)
    (hne : q ≠ fr.path)
    (hmk : ∀ data, fr.content = FileContent.exact data →
      ¬ (q ≠ [] ∧ q.isPrefixOf fr.path.dropLast = true)) :
    fsGet fsX q = fsGet fsN q := by
  unfold FileRecord.commit at h
  by_cases hb : fr.must_change = false
  · rw [if_pos hb] at h
    injection h with h'
    injection h' with hfs hr
    subst hfs
    rfl
  · rw [if_neg hb] at h
    split at h
    · split at h
      · injection h with h'
        injection h' with hfs hr
        subst hfs
        rfl
      · exact Except.noConfusion h
      · injection h with h'
        injection h' with hfs hr
        subst hfs
        rw [fsGet_fsRemove, if_neg hne]
    · split at h
      · exact Except.noConfusion h
      · injection h with h'
        injection h' with hfs hr
        subst hfs
        rfl
      · injection h with h'
        injection h' with hfs hr
        subst hfs
        rw [fsGet_fsSet, if_neg hne]
      · injection h with h'
        injection h' with hfs hr
        subst hfs
        rfl
    · rename_i data hc
      split at h
      · exact Except.noConfusion h
      · rename_i fs1 hmk1
        split at h
        · split at h
          · exact Except.noConfusion h
          · injection h with h'
            injection h' with hfs hr
            subst hfs
            rw [fsGet_fsSet, if_neg hne]
            exact makedirs_unchanged fsN fr.path.dropLast fs1 hmk1 q
              (hmk data hc)
        · exact Except.noConfusion h

theorem link_commit_rest_touch (lr : LinkRecord) (fs1 fsX : FS)
    (r' : LinkRecord) (h : lr.commit_rest fs1 = .ok (fsX, r')) (q : Path)
    (hne : q ≠ lr.path)
    (hmk : lr.target.isSome = true →
      ¬ (q ≠ [] ∧ q.isPrefixOf lr.path.dropLast = true)) :
    fsGet fsX q = fsGet fs1 q := by
  unfold LinkRecord.commit_rest at h
  split at h
  · injection h with h'
    injection h' with hfs hr
    subst hfs
    rfl
  · rename_i t ht
    split at h
    · exact Except.noConfusion h
    · rename_i fs2 hmk2
      split at h
      · exact Except.noConfusion h
      · injection h with h'
        injection h' with hfs hr
        subst hfs
        rw [fsGet_fsSet, if_neg hne]
        exact makedirs_unchanged fs1 lr.path.dropLast fs2 hmk2 q
          (hmk (by rw [ht]; rfl))

theorem link_commit_touch (lr : LinkRecord) (fsN fsX : FS)
    (r' : LinkRecord) (h : lr.commit fsN = .ok (fsX, r')) (q : Path)
    (hne : q ≠ lr.path)
    (hmk : lr.target.isSome = true →
      ¬ (q ≠ [] ∧ q.isPrefixOf lr.path.dropLast = true)) :
    fsGet fsX q = fsGet fsN q := by
  unfold LinkRecord.commit at h
  by_cases hb : lr.must_change = false
  · rw [if_pos hb] at h
    injection h with h'
    injection h' with hfs hr
    subst hfs
    rfl
  · rw [if_neg hb] at h
    split at h
    · exact link_commit_rest_touch lr fsN fsX r' h q hne hmk
    · exact Except.noConfusion h
    · rw [link_commit_rest_touch lr (fsRemove fsN lr.path) fsX r' h q
        hne hmk]
      rw [fsGet_fsRemove, if_neg hne]

theorem remove_commit_touch (rr : RemoveThing) (fsN fsX : FS)
    (r' : RemoveThing) (h : rr.commit fsN = .ok (fsX, r')) (q : Path)
    (hne : q ≠ rr.path)
    (hrm : rr.stat_type = StatType.S_ISDIR → rr.path.isPrefixOf q = false) :
    fsGet fsX q = fsGet fsN q := by
  unfold RemoveThing.commit at h
  by_cases hb : rr.must_change = false
  · rw [if_pos hb] at h
    injection h with h'
    injection h' with hfs hr
    subst hfs
    rfl
  · rw [if_neg hb] at h
    split at h
    · split at h
      · exact Except.noConfusion h
      · exact Except.noConfusion h
      · injection h with h'
        injection h' with hfs hr
        subst hfs
        rw [fsGet_fsRemove, if_neg hne]
    · rename_i hst
      split at h
      · injection h with h'
        injection h' with hfs hr
        subst hfs
        rw [fsGet_fsRemoveTree, hrm hst]
        simp
      · exact Except.noConfusion h

/-- Inversion of a successful `Record.commit` into the variant commit. -/
theorem record_commit_inv (s : Record) (fsN fsX : FS) (s' : Record)
    (h : s.commit fsN = .ok (fsX, s')) :
    (∃ fr fr', s = Record.file fr ∧ s' = Record.file fr' ∧
      fr.commit fsN = .ok (fsX, fr')) ∨
    (∃ lr lr', s = Record.link lr ∧ s' = Record.link lr' ∧
      lr.commit fsN = .ok (fsX, lr')) ∨
    (∃ rr rr', s = Record.remove rr ∧ s' = Record.remove rr' ∧
      rr.commit fsN = .ok (fsX, rr')) := by
  cases s with
  | file fr =>
    simp only [Record.commit] at h
    split at h
    · exact Except.noConfusion h
    · rename_i fs2 fr2 hc
      injection h with h'
      injection h' with hfs hr
      subst hfs
      exact Or.inl ⟨fr, fr2, rfl, hr.symm, hc⟩
  | link lr =>
    simp only [Record.commit] at h
    split at h
    · exact Except.noConfusion h
    · rename_i fs2 lr2 hc
      injection h with h'
      injection h' with hfs hr
      subst hfs
      exact Or.inr (Or.inl ⟨lr, lr2, rfl, hr.symm, hc⟩)
  | remove rr =>
    simp only [Record.commit] at h
    split at h
    · exact Except.noConfusion h
    · rename_i fs2 rr2 hc
      injection h with h'
      injection h' with hfs hr
      subst hfs
      exact Or.inr (Or.inr ⟨rr, rr2, rfl, hr.symm, hc⟩)

/-- A commit leaves every key untouched that is not the record's own path,
not under a tree it removes, and not on its implicit mkdir chain. -/
theorem record_commit_touch (s : Record) (fsN fsX : FS) (s' : Record)
    (h : s.commit fsN = .ok (fsX, s')) (q : Path) (hne : q ≠ s.path)
    (hrm : isRmtreeRec s = true → s.path.isPrefixOf q = false)
    (hmk : hasMakedirsRec s = true →
      ¬ (q ≠ [] ∧ q.isPrefixOf s.path.dropLast = true)) :
    fsGet fsX q = fsGet fsN q := by
  rcases record_commit_inv s fsN fsX s' h with
    ⟨fr, fr', hs, hs', hc⟩ | ⟨lr, lr', hs, hs', hc⟩ | ⟨rr, rr', hs, hs', hc⟩
  · subst hs
    exact file_commit_touch fr fsN fsX fr' hc q hne
      (fun data hcd => hmk (by
        show (match fr.content with
          | FileContent.exact _ => true
          | _ => false) = true
        rw [hcd]))
  · subst hs
    exact link_commit_touch lr fsN fsX lr' hc q hne
      (fun hsome => hmk hsome)
  · subst hs
    exact remove_commit_touch rr fsN fsX rr' hc q hne
      (fun hst => hrm (by
        show (match rr.stat_type with
          | StatType.S_ISDIR => true
          | StatType.S_ISREG => false) = true
        rw [hst]))

theorem remove_commit_absent (rr : RemoveThing) (fsN fsX : FS)
    (r' : RemoveThing) (h : rr.commit fsN = .ok (fsX, r')) (q : Path)
    (hne : q ≠ rr.path) (hq : fsGet fsN q = none) : fsGet fsX q = none := by
  unfold RemoveThing.commit at h
  by_cases hb : rr.must_change = false
  · rw [if_pos hb] at h
    injection h with h'
    injection h' with hfs hr
    subst hfs
    exact hq
  · rw [if_neg hb] at h
    split at h
    · split at h
      · exact Except.noConfusion h
      · exact Except.noConfusion h
      · injection h with h'
        injection h' with hfs hr
        subst hfs
        rw [fsGet_fsRemove, if_neg hne]
        exact hq
    · split at h
      · injection h with h'
        injection h' with hfs hr
        subst hfs
        rw [fsGet_fsRemoveTree]
        split
        · rfl
        · exact hq
      · exact Except.noConfusion h

/-- A commit never creates a key other than its own path and its mkdir
chain. -/
theorem record_commit_absent (s : Record) (fsN fsX : FS) (s' : Record)
    (h : s.commit fsN = .ok (fsX, s')) (q : Path) (hne : q ≠ s.path)
    (hmk : hasMakedirsRec s = true →
      ¬ (q ≠ [] ∧ q.isPrefixOf s.path.dropLast = true))
    (hq : fsGet fsN q = none) : fsGet fsX q = none := by
  rcases record_commit_inv s fsN fsX s' h with
    ⟨fr, fr', hs, hs', hc⟩ | ⟨lr, lr', hs, hs', hc⟩ | ⟨rr, rr', hs, hs', hc⟩
  · subst hs
    rw [file_commit_touch fr fsN fsX fr' hc q hne
      (fun data hcd => hmk (by
        show (match fr.content with
          | FileContent.exact _ => true
          | _ => false) = true
        rw [hcd]))]
    exact hq
  · subst hs
    rw [link_commit_touch lr fsN fsX lr' hc q hne
      (fun hsome => hmk hsome)]
    exact hq
  · subst hs
    exact remove_commit_absent rr fsN fsX rr' hc q hne hq

theorem file_commit_noneOrDir (fr : FileRecord) (fsN fsX : FS)
    (r' : FileRecord) (h : fr.commit fsN = .ok (fsX, r')) (q : Path)
    (hne : q ≠ fr.path)
    (hq : fsGet fsN q = none ∨ fsGet fsN q = some Entry.dir) :
    fsGet fsX q = none ∨ fsGet fsX q = some Entry.dir := by
  unfold FileRecord.commit at h
  by_cases hb : fr.must_change = false
  · rw [if_pos hb] at h
    injection h with h'
    injection h' with hfs hr
    subst hfs
    exact hq
  · rw [if_neg hb] at h
    split at h
    · split at h
      · injection h with h'
        injection h' with hfs hr
        subst hfs
        exact hq
      · exact Except.noConfusion h
      · injection h with h'
        injection h' with hfs hr
        subst hfs
        rw [fsGet_fsRemove, if_neg hne]
        exact hq
    · split at h
      · exact Except.noConfusion h
      · injection h with h'
        injection h' with hfs hr
        subst hfs
        exact hq
      · injection h with h'
        injection h' with hfs hr
        subst hfs
        rw [fsGet_fsSet, if_neg hne]
        exact hq
      · injection h with h'
        injection h' with hfs hr
        subst hfs
        exact hq
    · rename_i data hc
      split at h
      · exact Except.noConfusion h
      · rename_i fs1 hmk1
        split at h
        · split at h
          · exact Except.noConfusion h
          · injection h with h'
            injection h' with hfs hr
            subst hfs
            rw [fsGet_fsSet, if_neg hne]
            exact mkdirsGo_noneOrDir fr.path.dropLast fsN [] fs1 hmk1 q hq
        · exact Except.noConfusion h

theorem link_commit_rest_noneOrDir (lr : LinkRecord) (fs1 fsX : FS)
    (r' : LinkRecord) (h : lr.commit_rest fs1 = .ok (fsX, r')) (q : Path)
    (hne : q ≠ lr.path)
    (hq : fsGet fs1 q = none ∨ fsGet fs1 q = some Entry.dir) :
    fsGet fsX q = none ∨ fsGet fsX q = some Entry.dir := by
  unfold LinkRecord.commit_rest at h
  split at h
  · injection h with h'
    injection h' with hfs hr
    subst hfs
    exact hq
  · rename_i t ht
    split at h
    · exact Except.noConfusion h
    · rename_i fs2 hmk2
      split at h
      · exact Except.noConfusion h
      · injection h with h'
        injection h' with hfs hr
        subst hfs
        rw [fsGet_fsSet, if_neg hne]
        exact mkdirsGo_noneOrDir lr.path.dropLast fs1 [] fs2 hmk2 q hq

theorem link_commit_noneOrDir (lr : LinkRecord) (fsN fsX : FS)
    (r' : LinkRecord) (h : lr.commit fsN = .ok (fsX, r')) (q : Path)
    (hne : q ≠ lr.path)
    (hq : fsGet fsN q = none ∨ fsGet fsN q = some Entry.dir) :
    fsGet fsX q = none ∨ fsGet fsX q = some Entry.dir := by
  unfold LinkRecord.commit at h
  by_cases hb : lr.must_change = false
  · rw [if_pos hb] at h
    injection h with h'
    injection h' with hfs hr
    subst hfs
    exact hq
  · rw [if_neg hb] at h
    split at h
    · exact link_commit_rest_noneOrDir lr fsN fsX r' h q hne hq
    · exact Except.noConfusion h
    · refine link_commit_rest_noneOrDir lr (fsRemove fsN lr.path) fsX r'
        h q hne ?_
      rw [fsGet_fsRemove, if_neg hne]
      exact hq

theorem remove_commit_noneOrDir (rr : RemoveThing) (fsN fsX : FS)
    (r' : RemoveThing) (h : rr.commit fsN = .ok (fsX, r')) (q : Path)
    (hne : q ≠ rr.path)
    (hq : fsGet fsN q = none ∨ fsGet fsN q = some Entry.dir) :
    fsGet fsX q = none ∨ fsGet fsX q = some Entry.dir := by
  unfold RemoveThing.commit at h
  by_cases hb : rr.must_change = false
  · rw [if_pos hb] at h
    injection h with h'
    injection h' with hfs hr
    subst hfs
    exact hq
  · rw [if_neg hb] at h
    split at h
    · split at h
      · exact Except.noConfusion h
      · exact Except.noConfusion h
      · injection h with h'
        injection h' with hfs hr
        subst hfs
        rw [fsGet_fsRemove, if_neg hne]
        exact hq
    · split at h
      · injection h with h'
        injection h' with hfs hr
        subst hfs
        rw [fsGet_fsRemoveTree]
        split
        · exact Or.inl rfl
        · exact hq
      · exact Except.noConfusion h

/-- A commit keeps a key (other than the record's own path) in the
none-or-directory state: it only ever creates directories elsewhere. -/
theorem record_commit_noneOrDir (s : Record) (fsN fsX : FS) (s' : Record)
    (h : s.commit fsN = .ok (fsX, s')) (q : Path) (hne : q ≠ s.path)
    (hq : fsGet fsN q = none ∨ fsGet fsN q = some Entry.dir) :
    fsGet fsX q = none ∨ fsGet fsX q = some Entry.dir := by
  rcases record_commit_inv s fsN fsX s' h with
    ⟨fr, fr', hs, hs', hc⟩ | ⟨lr, lr', hs, hs', hc⟩ | ⟨rr, rr', hs, hs', hc⟩
  · subst hs
    exact file_commit_noneOrDir fr fsN fsX fr' hc q hne hq
  · subst hs
    exact link_commit_noneOrDir lr fsN fsX lr' hc q hne hq
  · subst hs
    exact remove_commit_noneOrDir rr fsN fsX rr' hc q hne hq

/-- A tree-removing record either leaves the filesystem alone or removes
exactly its subtree. -/
theorem record_commit_rmtree_cases (s : Record) (fsN fsX : FS) (s' : Record)
    (hrm : isRmtreeRec s = true) (h : s.commit fsN = .ok (fsX, s')) :
    fsX = fsN ∨ fsX = fsRemoveTree fsN s.path := by
  rcases record_commit_inv s fsN fsX s' h with
    ⟨fr, fr', hs, hs', hc⟩ | ⟨lr, lr', hs, hs', hc⟩ | ⟨rr, rr', hs, hs', hc⟩
  · subst hs
    exact absurd hrm (by simp [isRmtreeRec])
  · subst hs
    exact absurd hrm (by simp [isRmtreeRec])
  · subst hs
    unfold RemoveThing.commit at hc
    by_cases hb : rr.must_change = false
    · rw [if_pos hb] at hc
      injection hc with h'
      injection h' with hfs hr
      subst hfs
      exact Or.inl rfl
    · rw [if_neg hb] at hc
      split at hc
      · rename_i hst2
        exfalso
        have hfalse : isRmtreeRec (Record.remove rr) = false := by
          simp [isRmtreeRec, hst2]
        rw [hfalse] at hrm
        exact Bool.noConfusion hrm
      · split at hc
        · injection hc with h'
          injection h' with hfs hr
          subst hfs
          exact Or.inr rfl
        · exact Except.noConfusion hc

/-- Committing a record with a clear flag is a no-op. -/
theorem record_commit_flag_false (r : Record) (fs : FS)
    (hb : r.must_change = false) : r.commit fs = .ok (fs, r) := by
  cases r with
  | file fr =>
    have hb' : fr.must_change = false := hb
    have hcf : fr.commit fs = .ok (fs, fr) := by
      unfold FileRecord.commit
      rw [if_pos hb']
    show (match fr.commit fs with
      | Except.error e => Except.error e
      | Except.ok (fs', r') => Except.ok (fs', Record.file r')) =
      Except.ok (fs, Record.file fr)
    rw [hcf]
  | link lr =>
    have hb' : lr.must_change = false := hb
    have hcf : lr.commit fs = .ok (fs, lr) := by
      unfold LinkRecord.commit
      rw [if_pos hb']
    show (match lr.commit fs with
      | Except.error e => Except.error e
      | Except.ok (fs', r') => Except.ok (fs', Record.link r')) =
      Except.ok (fs, Record.link lr)
    rw [hcf]
  | remove rr =>
    have hb' : rr.must_change = false := hb
    have hcf : rr.commit fs = .ok (fs, rr) := by
      unfold RemoveThing.commit
      rw [if_pos hb']
    show (match rr.commit fs with
      | Except.error e => Except.error e
      | Except.ok (fs', r') => Except.ok (fs', Record.remove r')) =
      Except.ok (fs, Record.remove rr)
    rw [hcf]

/-- One commit preserves detect-false of a non-interfering record. -/
theorem pres_det_false (s t : Record) (fsN fsX : FS) (s' : Record)
    (h : s.commit fsN = .ok (fsX, s')) (hne : s.path ≠ t.path)
    (hc : condRec s t) (hd : recordMustChangeP t fsN = .ok false) :
    recordMustChangeP t fsX = .ok false := by
  obtain ⟨hc1, hc2⟩ := hc
  by_cases hrm : isRmtreeRec s = true ∧ s.path.isPrefixOf t.path = true
  · rcases record_commit_rmtree_cases s fsN fsX s' hrm.1 h with rfl | rfl
    · exact hd
    · exact mayBeAbsent_det_false t _ (hc1 hrm.1 hrm.2)
        (by rw [fsGet_fsRemoveTree, if_pos hrm.2])
  · have hrm' : isRmtreeRec s = true → s.path.isPrefixOf t.path = false := by
      intro h1
      cases hpf : s.path.isPrefixOf t.path
      · rfl
      · exact absurd ⟨h1, hpf⟩ hrm
    have hmk' : hasMakedirsRec s = true →
        ¬ (t.path ≠ [] ∧ t.path.isPrefixOf s.path.dropLast = true) := by
      intro h1
      rintro ⟨h2, h3⟩
      rw [hc2 h1 h2] at h3
      exact Bool.noConfusion h3
    rw [recordMustChangeP_congr t fsX fsN
      (record_commit_touch s fsN fsX s' h t.path (Ne.symm hne) hrm' hmk')]
    exact hd

/-- The whole commit fold preserves detect-false of any non-interfering
record. -/
theorem fold_pres_det_false (rs : List Record) (fs0 fs1 : FS)
    (rs' : List Record) (t : Record)
    (h : commit_records fs0 rs = .ok (fs1, rs'))
    (hcond : ∀ u ∈ rs, u.path ≠ t.path ∧ condRec u t)
    (hd : recordMustChangeP t fs0 = .ok false) :
    recordMustChangeP t fs1 = .ok false := by
  induction rs generalizing fs0 rs' with
  | nil =>
    unfold commit_records at h
    injection h with h'
    injection h' with hfs hr
    subst hfs
    exact hd
  | cons s rest ih =>
    unfold commit_records at h
    split at h
    · exact Except.noConfusion h
    · rename_i fsX s1 hcm
      split at h
      · exact Except.noConfusion h
      · rename_i fs2 rest2 hrec
        injection h with h'
        injection h' with hfs hr2
        subst hfs
        have hstep := pres_det_false s t fs0 fsX s1 hcm
          (hcond s (List.mem_cons_self s rest)).1
          (hcond s (List.mem_cons_self s rest)).2 hd
        exact ih fsX rest2 hrec
          (fun u hu => hcond u (List.mem_cons_of_mem s hu)) hstep

/-- Core lemma: after a successful commit pass over pairwise
non-interfering, well-shaped records whose clear flags were accurate,
every one of them detects no change on the final filesystem. -/
theorem commit_fold_det_false (rs : List Record) (fs0 fs1 : FS)
    (rs' : List Record)
    (h : commit_records fs0 rs = .ok (fs1, rs'))
    (hshape : ∀ r ∈ rs, recordShapeOkB r = true)
    (hpc : List.Pairwise (fun s r =>
      s.path ≠ r.path ∧ condRec s r ∧ condRec r s) rs)
    (hinit : ∀ r ∈ rs, r.must_change = false →
      recordMustChangeP r fs0 = .ok false) :
    ∀ r ∈ rs, recordMustChangeP r fs1 = .ok false := by
  induction rs generalizing fs0 rs' with
  | nil =>
    intro r hr
    cases hr
  | cons s rest ih =>
    unfold commit_records at h
    split at h
    · exact Except.noConfusion h
    · rename_i fsX s1 hcm
      split at h
      · exact Except.noConfusion h
      · rename_i fs2 rest2 hrec
        injection h with h'
        injection h' with hfs hr2
        subst hfs
        have hpc' := List.pairwise_cons.mp hpc
        intro r hr
        rcases List.mem_cons.mp hr with rfl | hrmem
        · have hsX : recordMustChangeP r fsX = .ok false := by
            by_cases hb : r.must_change = false
            · have h0 := hinit r (List.mem_cons_self r rest) hb
              have heq := record_commit_flag_false r fs0 hb
              rw [heq] at hcm
              injection hcm with h2
              injection h2 with hfs2 hr3
              subst hfs2
              exact h0
            · exact record_commit_establishes r fs0 fsX s1
                (Bool.of_not_eq_false hb)
                (hshape r (List.mem_cons_self r rest)) hcm
          exact fold_pres_det_false rest fsX fs2 rest2 r hrec
            (fun u hu => ⟨Ne.symm (hpc'.1 u hu).1, (hpc'.1 u hu).2.2⟩) hsX
        · refine ih fsX rest2 hrec
            (fun u hu => hshape u (List.mem_cons_of_mem s hu)) hpc'.2
            (fun u hu hub => ?_) r hrmem
          exact pres_det_false s u fs0 fsX s1 hcm (hpc'.1 u hu).1
            (hpc'.1 u hu).2.1
            (hinit u (List.mem_cons_of_mem s hu) hub)

/-- The commit fold never creates a key outside the record paths and their
mkdir chains. -/
theorem fold_new_key (rs : List Record) (fs0 fs1 : FS) (rs' : List Record)
    (h : commit_records fs0 rs = .ok (fs1, rs')) (q : Path)
    (hq : fsGet fs0 q = none) (hx : fsGet fs1 q ≠ none) :
    ∃ s ∈ rs, q = s.path ∨ (hasMakedirsRec s = true ∧ q ≠ [] ∧
      q.isPrefixOf s.path.dropLast = true) := by
  induction rs generalizing fs0 rs' with
  | nil =>
    unfold commit_records at h
    injection h with h'
    injection h' with hfs hr
    subst hfs
    exact absurd hq hx
  | cons s rest ih =>
    unfold commit_records at h
    split at h
    · exact Except.noConfusion h
    · rename_i fsX s1 hcm
      split at h
      · exact Except.noConfusion h
      · rename_i fs2 rest2 hrec
        injection h with h'
        injection h' with hfs hr2
        subst hfs
        by_cases hqp : q = s.path
        · exact ⟨s, List.mem_cons_self s rest, Or.inl hqp⟩
        · by_cases hchain : hasMakedirsRec s = true ∧ q ≠ [] ∧
            q.isPrefixOf s.path.dropLast = true
          · exact ⟨s, List.mem_cons_self s rest, Or.inr hchain⟩
          · have habs : fsGet fsX q = none := by
              refine record_commit_absent s fs0 fsX s1 hcm q hqp ?_ hq
              intro hmk
              rintro ⟨h1, h2⟩
              exact hchain ⟨hmk, h1, h2⟩
            obtain ⟨u, hu, hcase⟩ := ih fsX rest2 hrec habs
            exact ⟨u, List.mem_cons_of_mem s hu, hcase⟩

/-- The commit fold keeps foreign keys in the none-or-directory state. -/
theorem fold_noneOrDir (rs : List Record) (fs0 fs1 : FS) (rs' : List Record)
    (h : commit_records fs0 rs = .ok (fs1, rs')) (q : Path)
    (hne : ∀ s ∈ rs, s.path ≠ q)
    (hq : fsGet fs0 q = none ∨ fsGet fs0 q = some Entry.dir) :
    fsGet fs1 q = none ∨ fsGet fs1 q = some Entry.dir := by
  induction rs generalizing fs0 rs' with
  | nil =>
    unfold commit_records at h
    injection h with h'
    injection h' with hfs hr
    subst hfs
    exact hq
  | cons s rest ih =>
    unfold commit_records at h
    split at h
    · exact Except.noConfusion h
    · rename_i fsX s1 hcm
      split at h
      · exact Except.noConfusion h
      · rename_i fs2 rest2 hrec
        injection h with h'
        injection h' with hfs hr2
        subst hfs
        refine ih fsX rest2 hrec
          (fun u hu => hne u (List.mem_cons_of_mem s hu)) ?_
        exact record_commit_noneOrDir s fs0 fsX s1 hcm q
          (Ne.symm (hne s (List.mem_cons_self s rest))) hq

/-! Detection-phase lemmas. -/

theorem check_ok_elim (rec rec' : Record) (fs : FS)
    (h : rec.check_if_must_change fs = .ok rec') :
    ∃ b, recordMustChangeP rec fs = .ok b ∧ rec' = updateMust rec b := by
  cases rec with
  | file fr =>
    have h2 : (match fr.must_change_p fs with
      | Except.error e => Except.error e
      | Except.ok b => Except.ok (Record.file { fr with must_change := b })) =
      Except.ok rec' := h
    split at h2
    · exact Except.noConfusion h2
    · rename_i b heq
      injection h2 with h'
      exact ⟨b, heq, h'.symm⟩
  | link lr =>
    have h2 : (match lr.must_change_p fs with
      | Except.error e => Except.error e
      | Except.ok b => Except.ok (Record.link { lr with must_change := b })) =
      Except.ok rec' := h
    split at h2
    · exact Except.noConfusion h2
    · rename_i b heq
      injection h2 with h'
      exact ⟨b, heq, h'.symm⟩
  | remove rr =>
    have h2 : (match rr.must_change_p fs with
      | Except.error e => Except.error e
      | Except.ok b => Except.ok (Record.remove { rr with must_change := b })) =
      Except.ok rec' := h
    split at h2
    · exact Except.noConfusion h2
    · rename_i b heq
      injection h2 with h'
      exact ⟨b, heq, h'.symm⟩

theorem check_of_false (rec : Record) (fs : FS)
    (hd : recordMustChangeP rec fs = .ok false) :
    rec.check_if_must_change fs = .ok (updateMust rec false) := by
  cases rec with
  | file fr =>
    have hd' : fr.must_change_p fs = .ok false := hd
    show (match fr.must_change_p fs with
      | Except.error e => Except.error e
      | Except.ok b => Except.ok (Record.file { fr with must_change := b })) =
      Except.ok (updateMust (Record.file fr) false)
    rw [hd']
    rfl
  | link lr =>
    have hd' : lr.must_change_p fs = .ok false := hd
    show (match lr.must_change_p fs with
      | Except.error e => Except.error e
      | Except.ok b => Except.ok (Record.link { lr with must_change := b })) =
      Except.ok (updateMust (Record.link lr) false)
    rw [hd']
    rfl
  | remove rr =>
    have hd' : rr.must_change_p fs = .ok false := hd
    show (match rr.must_change_p fs with
      | Except.error e => Except.error e
      | Except.ok b => Except.ok (Record.remove { rr with must_change := b })) =
      Except.ok (updateMust (Record.remove rr) false)
    rw [hd']
    rfl

/-- A successful detection pass relates records pointwise: each output is
the input with its flag set to the detected value. -/
theorem detect_records_elim (fs : FS) (rs rs' : List Record)
    (h : detect_records fs rs = .ok rs') :
    List.Forall₂ (fun r r' => ∃ b, recordMustChangeP r fs = .ok b ∧
      r' = updateMust r b) rs rs' := by
  induction rs generalizing rs' with
  | nil =>
    unfold detect_records at h
    injection h with h'
    subst h'
    exact List.Forall₂.nil
  | cons r rest ih =>
    unfold detect_records at h
    split at h
    · exact Except.noConfusion h
    · rename_i r1 heq
      split at h
      · exact Except.noConfusion h
      · rename_i rest1 heq2
        injection h with h'
        subst h'
        exact List.Forall₂.cons (check_ok_elim r r1 fs heq) (ih rest1 heq2)

theorem detect_records_of_false (fs : FS) (rs : List Record)
    (hall : ∀ r ∈ rs, recordMustChangeP r fs = .ok false) :
    detect_records fs rs = .ok (rs.map (fun r => updateMust r false)) := by
  induction rs with
  | nil => rfl
  | cons r rest ih =>
    show (match r.check_if_must_change fs with
      | Except.error e => Except.error e
      | Except.ok r' =>
        match detect_records fs rest with
        | Except.error e => Except.error e
        | Except.ok rest' => Except.ok (r' :: rest')) =
      Except.ok ((r :: rest).map (fun r => updateMust r false))
    rw [check_of_false r fs (hall r (List.mem_cons_self r rest)),
      ih (fun u hu => hall u (List.mem_cons_of_mem r hu))]
    rfl

theorem forall2_mem_right {R : Record → Record → Prop} {l1 l2 : List Record}
    (h : List.Forall₂ R l1 l2) : ∀ b ∈ l2, ∃ a ∈ l1, R a b := by
  induction h with
  | nil =>
    intro b hb
    cases hb
  | cons hr ht ih =>
    intro b hb
    rcases List.mem_cons.mp hb with rfl | hb2
    · exact ⟨_, List.mem_cons_self _ _, hr⟩
    · obtain ⟨a, ha, hab⟩ := ih b hb2
      exact ⟨a, List.mem_cons_of_mem _ ha, hab⟩

theorem forall2_mem_left {R : Record → Record → Prop} {l1 l2 : List Record}
    (h : List.Forall₂ R l1 l2) : ∀ a ∈ l1, ∃ b ∈ l2, R a b := by
  induction h with
  | nil =>
    intro a ha
    cases ha
  | cons hr ht ih =>
    intro a ha
    rcases List.mem_cons.mp ha with rfl | ha2
    · exact ⟨_, List.mem_cons_self _ _, hr⟩
    · obtain ⟨b, hb, hab⟩ := ih a ha2
      exact ⟨b, List.mem_cons_of_mem _ hb, hab⟩

/-- Detection does not change the path list. -/
theorem detect_paths_eq (fs : FS) (rs rs' : List Record)
    (h : detect_records fs rs = .ok rs') :
    rs'.map Record.path = rs.map Record.path := by
  have hf := detect_records_elim fs rs rs' h
  clear h
  induction hf with
  | nil => rfl
  | cons hr ht ih =>
    obtain ⟨b, hb, rfl⟩ := hr
    simp only [List.map_cons, updateMust_path, ih]

/-! Path and kind facts for the records the builder produces. -/

theorem isPrefixOf_append_cancel (a s t : Path) :
    (a ++ s).isPrefixOf (a ++ t) = s.isPrefixOf t := by
  induction a with
  | nil => rfl
  | cons x as ih => simp [List.isPrefixOf, ih]

theorem isPrefixOf_false_of_longer {a b : Path} (h : b.length < a.length) :
    a.isPrefixOf b = false := by
  cases hv : a.isPrefixOf b
  · rfl
  · have := isPrefixOf_length_le hv
    omega

theorem dropLast_snoc (a : Path) (x : String) : (a ++ [x]).dropLast = a :=
  List.dropLast_concat

theorem namesOk_elim (cfg : Config) (hnm : namesOk cfg = true) (kv : String × String)
    (hkv : kv ∈ cfg.extra_files ∨ kv ∈ cfg.extra_scripts) :
    kv.1 ≠ "log" ∧ kv.1 ≠ "env" := by
  unfold namesOk at hnm
  have hmem : kv ∈ cfg.extra_files ++ cfg.extra_scripts :=
    List.mem_append.mpr hkv
  have := List.all_eq_true.mp hnm kv hmem
  rw [Bool.and_eq_true] at this
  obtain ⟨h1, h2⟩ := this
  constructor
  · intro hcontra
    rw [hcontra] at h1
    simp at h1
  · intro hcontra
    rw [hcontra] at h2
    simp at h2

/-- Classification of builder records: the path shape of every record, which
records remove whole trees, and where implicit directory creation can
reach. -/
theorem outfiles_facts (cfg : Config) (fs : FS) (sv_dir service_dir : Path)
    (hnm : namesOk cfg = true)
    (hlogc : cfg.log_runscript = none → cfg.log_supervise_link = none)
    (r : Record) (hr : r ∈ outfiles_spec cfg fs sv_dir service_dir) :
    ((∃ x, r.path = (sv_dir ++ [cfg.name]) ++ [x] ∧
        (x = "log" → cfg.log_runscript = none) ∧
        (x = "env" → cfg.envdir = none)) ∨
      (r.path = (sv_dir ++ [cfg.name]) ++ ["log", "run"] ∧
        cfg.log_runscript ≠ none) ∨
      (∃ k, r.path = (sv_dir ++ [cfg.name]) ++ ["env", k] ∧
        cfg.envdir ≠ none) ∨
      (r = Record.link
        { path := (sv_dir ++ [cfg.name]) ++ ["log", "supervise"],
          target := cfg.log_supervise_link,
          dir_ok := cfg.log_supervise_link.isNone }) ∨
      (r.path = service_dir ++ [cfg.name]) ∨
      (∃ d, first_directory cfg.init_d_directory fs = some d ∧
        r.path = d ++ [cfg.name])) ∧
    (isRmtreeRec r = true →
      (cfg.log_runscript = none ∧ r.path = (sv_dir ++ [cfg.name]) ++ ["log"]) ∨
      (cfg.envdir = none ∧ r.path = (sv_dir ++ [cfg.name]) ++ ["env"])) ∧
    (hasMakedirsRec r = true →
      r.path.dropLast = sv_dir ++ [cfg.name] ∨
      (r.path.dropLast = (sv_dir ++ [cfg.name]) ++ ["log"] ∧
        cfg.log_runscript ≠ none) ∨
      (r.path.dropLast = (sv_dir ++ [cfg.name]) ++ ["env"] ∧
        cfg.envdir ≠ none) ∨
      r.path.dropLast = service_dir ∨
      (∃ d, first_directory cfg.init_d_directory fs = some d ∧
        r.path.dropLast = d)) := by
  unfold outfiles_spec at hr
  simp only [List.mem_append] at hr
  rcases hr with ((((((h1 | h2) | h3) | h4) | h5) | h6) | h7)
  · -- run record
    rw [List.mem_singleton] at h1
    subst h1
    refine ⟨Or.inl ⟨"run", rfl, ?_, ?_⟩, ?_, ?_⟩
    · intro hcontra
      first
      | exact Bool.noConfusion hcontra
      | exact absurd hcontra (by decide)
    · intro hcontra
      first
      | exact Bool.noConfusion hcontra
      | exact absurd hcontra (by decide)
    · intro hcontra
      first
      | exact Bool.noConfusion hcontra
      | exact absurd hcontra (by decide)
    · intro _
      left
      exact dropLast_snoc _ _
  · -- log branch
    rcases hlr : cfg.log_runscript with _ | lr0 <;> simp only [hlr] at h2 <;>
      rw [List.mem_singleton] at h2 <;> subst h2
    · refine ⟨Or.inl ⟨"log", rfl, fun _ => rfl, ?_⟩, ?_, ?_⟩
      · intro hcontra
        first
        | exact Bool.noConfusion hcontra
        | exact absurd hcontra (by decide)
      · intro _
        exact Or.inl ⟨rfl, rfl⟩
      · intro hcontra
        first
        | exact Bool.noConfusion hcontra
        | exact absurd hcontra (by decide)
    · refine ⟨Or.inr (Or.inl ⟨rfl, by simp [hlr]⟩), ?_, ?_⟩
      · intro hcontra
        first
        | exact Bool.noConfusion hcontra
        | exact absurd hcontra (by decide)
      · intro _
        right
        left
        constructor
        · show ((sv_dir ++ [cfg.name]) ++ ["log", "run"]).dropLast = _
          have heq : (sv_dir ++ [cfg.name]) ++ ["log", "run"] =
              ((sv_dir ++ [cfg.name]) ++ ["log"]) ++ ["run"] := by
            simp
          rw [heq, dropLast_snoc]
        · simp [hlr]
  · -- extra files
    rw [List.mem_map] at h3
    obtain ⟨kv, hkv, hrr⟩ := h3
    subst hrr
    obtain ⟨hne1, hne2⟩ := namesOk_elim cfg hnm kv (Or.inl hkv)
    refine ⟨Or.inl ⟨kv.1, rfl, fun hc => absurd hc hne1,
      fun hc => absurd hc hne2⟩, ?_, ?_⟩
    · intro hcontra
      first
      | exact Bool.noConfusion hcontra
      | exact absurd hcontra (by decide)
    · intro _
      left
      exact dropLast_snoc _ _
  · -- extra scripts
    rw [List.mem_map] at h4
    obtain ⟨kv, hkv, hrr⟩ := h4
    subst hrr
    obtain ⟨hne1, hne2⟩ := namesOk_elim cfg hnm kv (Or.inr hkv)
    refine ⟨Or.inl ⟨kv.1, rfl, fun hc => absurd hc hne1,
      fun hc => absurd hc hne2⟩, ?_, ?_⟩
    · intro hcontra
      first
      | exact Bool.noConfusion hcontra
      | exact absurd hcontra (by decide)
    · intro _
      left
      exact dropLast_snoc _ _
  · -- env branch
    rcases henv : cfg.envdir with _ | kvs <;> simp only [henv] at h5
    · rw [List.mem_singleton] at h5
      subst h5
      refine ⟨Or.inl ⟨"env", rfl, ?_, fun _ => rfl⟩, ?_, ?_⟩
      · intro hcontra
        first
        | exact Bool.noConfusion hcontra
        | exact absurd hcontra (by decide)
      · intro _
        exact Or.inr ⟨rfl, rfl⟩
      · intro hcontra
        first
        | exact Bool.noConfusion hcontra
        | exact absurd hcontra (by decide)
    · rw [List.mem_map] at h5
      obtain ⟨kv, hkv, hrr⟩ := h5
      subst hrr
      refine ⟨Or.inr (Or.inr (Or.inl ⟨kv.1, rfl, by simp [henv]⟩)), ?_, ?_⟩
      · intro hcontra
        first
        | exact Bool.noConfusion hcontra
        | exact absurd hcontra (by decide)
      · intro _
        right
        right
        left
        constructor
        · show ((sv_dir ++ [cfg.name]) ++ ["env", kv.1]).dropLast = _
          have heq : (sv_dir ++ [cfg.name]) ++ ["env", kv.1] =
              ((sv_dir ++ [cfg.name]) ++ ["env"]) ++ [kv.1] := by
            simp
          rw [heq, dropLast_snoc]
        · simp [henv]
  · -- down, supervise, log supervise, service link
    simp only [List.mem_cons, List.mem_singleton, List.not_mem_nil,
      or_false] at h6
    rcases h6 with h6 | h6 | h6 | h6
    · subst h6
      refine ⟨Or.inl ⟨"down", rfl, ?_, ?_⟩, ?_, ?_⟩
      · intro hcontra
        first
        | exact Bool.noConfusion hcontra
        | exact absurd hcontra (by decide)
      · intro hcontra
        first
        | exact Bool.noConfusion hcontra
        | exact absurd hcontra (by decide)
      · intro hcontra
        first
        | exact Bool.noConfusion hcontra
        | exact absurd hcontra (by decide)
      · intro _
        left
        exact dropLast_snoc _ _
    · subst h6
      refine ⟨Or.inl ⟨"supervise", rfl, ?_, ?_⟩, ?_, ?_⟩
      · intro hcontra
        first
        | exact Bool.noConfusion hcontra
        | exact absurd hcontra (by decide)
      · intro hcontra
        first
        | exact Bool.noConfusion hcontra
        | exact absurd hcontra (by decide)
      · intro hcontra
        first
        | exact Bool.noConfusion hcontra
        | exact absurd hcontra (by decide)
      · intro _
        left
        exact dropLast_snoc _ _
    · subst h6
      refine ⟨Or.inr (Or.inr (Or.inr (Or.inl rfl))), ?_, ?_⟩
      · intro hcontra
        first
        | exact Bool.noConfusion hcontra
        | exact absurd hcontra (by decide)
      · intro hmk
        right
        left
        constructor
        · show ((sv_dir ++ [cfg.name]) ++ ["log", "supervise"]).dropLast = _
          have heq : (sv_dir ++ [cfg.name]) ++ ["log", "supervise"] =
              ((sv_dir ++ [cfg.name]) ++ ["log"]) ++ ["supervise"] := by
            simp
          rw [heq, dropLast_snoc]
        · intro hlog
          have hsup := hlogc hlog
          have hmk2 : cfg.log_supervise_link.isSome = true := hmk
          rw [hsup] at hmk2
          exact Bool.noConfusion hmk2
    · subst h6
      refine ⟨Or.inr (Or.inr (Or.inr (Or.inr (Or.inl rfl)))), ?_, ?_⟩
      · intro hcontra
        first
        | exact Bool.noConfusion hcontra
        | exact absurd hcontra (by decide)
      · intro _
        right
        right
        right
        left
        exact dropLast_snoc _ _
  · -- lsb segment
    by_cases habs : cfg.state = SvState.absent
    · rw [if_pos habs] at h7
      cases h7
    · rw [if_neg habs] at h7
      rcases hfd : first_directory cfg.init_d_directory fs with _ | d <;>
        simp only [hfd] at h7
      · cases h7
      · rw [List.mem_singleton] at h7
        subst h7
        refine ⟨Or.inr (Or.inr (Or.inr (Or.inr (Or.inr ⟨d, rfl, rfl⟩)))),
          ?_, ?_⟩
        · intro hcontra
          first
          | exact Bool.noConfusion hcontra
          | exact absurd hcontra (by decide)
        · intro _
          right
          right
          right
          right
          exact ⟨d, rfl, dropLast_snoc _ _⟩

theorem separated_elim {a b : Path} (h : separated a b = true) :
    a.isPrefixOf b = false ∧ b.isPrefixOf a = false := by
  unfold separated at h
  rw [Bool.and_eq_true] at h
  obtain ⟨h1, h2⟩ := h
  constructor
  · cases hv : a.isPrefixOf b
    · rfl
    · rw [hv] at h1
      exact Bool.noConfusion h1
  · cases hv : b.isPrefixOf a
    · rfl
    · rw [hv] at h2
      exact Bool.noConfusion h2

theorem initSepOk_elim (cfg : Config) (fs : FS) (svp sp : Path)
    (h : initSepOk cfg fs svp sp = true) (d : Path)
    (hd : first_directory cfg.init_d_directory fs = some d) :
    separated svp (d ++ [cfg.name]) = true ∧
    separated sp (d ++ [cfg.name]) = true := by
  unfold initSepOk at h
  simp only [hd] at h
  rw [Bool.and_eq_true] at h
  exact h

theorem isPrefixOf_cons_ne {x y : String} {s t : Path} (hxy : x ≠ y) :
    (x :: s).isPrefixOf (y :: t) = false := by
  have hb : (x == y) = false := by
    rw [beq_eq_false_iff_ne]
    exact hxy
  simp [List.isPrefixOf, hb]

theorem mem_dirs_spec_elim (cfg : Config) (sv_dir : Path) (d : Path)
    (hd : d ∈ dirs_spec cfg sv_dir) :
    d = sv_dir ++ [cfg.name] ∨
    (d = (sv_dir ++ [cfg.name]) ++ ["log"] ∧ cfg.log_runscript ≠ none) ∨
    (d = (sv_dir ++ [cfg.name]) ++ ["env"] ∧ cfg.envdir ≠ none) := by
  unfold dirs_spec at hd
  simp only [List.mem_append, List.mem_singleton] at hd
  rcases hd with (hd | hd) | hd
  · exact Or.inl hd
  · rcases hlr : cfg.log_runscript with _ | lr0 <;> simp only [hlr] at hd
    · cases hd
    · rw [List.mem_singleton] at hd
      exact Or.inr (Or.inl ⟨hd, by simp [hlr]⟩)
  · rcases henv : cfg.envdir with _ | kvs <;> simp only [henv] at hd
    · cases hd
    · rw [List.mem_singleton] at hd
      exact Or.inr (Or.inr ⟨hd, by simp [henv]⟩)

theorem mem_dirs_spec_svp (cfg : Config) (sv_dir : Path) :
    sv_dir ++ [cfg.name] ∈ dirs_spec cfg sv_dir := by
  unfold dirs_spec
  simp

theorem mem_dirs_spec_log (cfg : Config) (sv_dir : Path) (lr0 : String)
    (hlr : cfg.log_runscript = some lr0) :
    (sv_dir ++ [cfg.name]) ++ ["log"] ∈ dirs_spec cfg sv_dir := by
  unfold dirs_spec
  simp [hlr]

theorem mem_dirs_spec_env (cfg : Config) (sv_dir : Path)
    (kvs : List (String × String)) (henv : cfg.envdir = some kvs) :
    (sv_dir ++ [cfg.name]) ++ ["env"] ∈ dirs_spec cfg sv_dir := by
  unfold dirs_spec
  simp [henv]

theorem bool_clash {b : Bool} (h1 : b = true) (h2 : b = false) : False := by
  rw [h1] at h2
  exact Bool.noConfusion h2

/-- Pairwise non-interference of the run's records: no record's subtree
removal covers an intolerant record, and no record's mkdir chain reaches
another record's path. -/
theorem condAll (cfg : Config) (fs : FS) (sv_dir service_dir : Path)
    (cleanup : List Record)
    (hnm : namesOk cfg = true)
    (hlogc : cfg.log_runscript = none → cfg.log_supervise_link = none)
    (hsep1 : separated (sv_dir ++ [cfg.name]) (service_dir ++ [cfg.name]) = true)
    (hsepI : initSepOk cfg fs (sv_dir ++ [cfg.name])
      (service_dir ++ [cfg.name]) = true)
    (hcl : cleanup_records fs (dirs_spec cfg sv_dir)
      ((outfiles_spec cfg fs sv_dir service_dir).map Record.path ++
        dirs_spec cfg sv_dir) = .ok cleanup)
    (s : Record) (hs : s ∈ outfiles_spec cfg fs sv_dir service_dir ++ cleanup)
    (r : Record) (hr : r ∈ outfiles_spec cfg fs sv_dir service_dir ++ cleanup)
    (hne : s.path ≠ r.path) :
    condRec s r := by
  obtain ⟨hsh, hclnodup, hclmem⟩ := cleanup_records_mem fs _ _ cleanup
    (dirs_spec_nodup cfg sv_dir) hcl
  have hsvpsp := separated_elim hsep1
  constructor
  · -- subtree-removal component
    intro hrm hpre
    rcases List.mem_append.mp hs with hso | hsc
    · obtain ⟨hAs, hBs, hCs⟩ := outfiles_facts cfg fs sv_dir service_dir
        hnm hlogc s hso
      rcases List.mem_append.mp hr with hro | hrc
      · obtain ⟨hAr, hBr, hCr⟩ := outfiles_facts cfg fs sv_dir service_dir
          hnm hlogc r hro
        rcases hBs hrm with ⟨hlognone, hpath⟩ | ⟨henvnone, hpath⟩
        · -- s removes the log subtree; the log runscript is unconfigured
          rw [hpath] at hpre
          rcases hAr with ⟨x, hx, hxlog, hxenv⟩ | ⟨hx, hlogsome⟩ |
            ⟨k, hx, henvsome⟩ | hlsr | hx | ⟨d, hd, hx⟩
          · rw [hx] at hpre
            have hxeq : "log" = x := isPrefixOf_snoc_same hpre
            exact absurd (by rw [hpath, hx, ← hxeq]) hne
          · exact absurd hlognone hlogsome
          · rw [hx, isPrefixOf_append_cancel] at hpre
            exact absurd hpre (by
              rw [isPrefixOf_cons_ne (by decide)]
              exact Bool.noConfusion)
          · rw [hlsr]
            show (cfg.log_supervise_link).isNone = true
            rw [hlogc hlognone]
            rfl
          · rw [hx] at hpre
            have h1 := isPrefixOf_trans
              (isPrefixOf_append_right (sv_dir ++ [cfg.name]) ["log"]) hpre
            exact (bool_clash h1 hsvpsp.1).elim
          · rw [hx] at hpre
            have h1 := isPrefixOf_trans
              (isPrefixOf_append_right (sv_dir ++ [cfg.name]) ["log"]) hpre
            have hsepd := initSepOk_elim cfg fs _ _ hsepI d hd
            exact (bool_clash h1 (separated_elim hsepd.1).1).elim
        · -- s removes the env subtree; no envdir is configured
          rw [hpath] at hpre
          rcases hAr with ⟨x, hx, hxlog, hxenv⟩ | ⟨hx, hlogsome⟩ |
            ⟨k, hx, henvsome⟩ | hlsr | hx | ⟨d, hd, hx⟩
          · rw [hx] at hpre
            have hxeq : "env" = x := isPrefixOf_snoc_same hpre
            exact absurd (by rw [hpath, hx, ← hxeq]) hne
          · rw [hx, isPrefixOf_append_cancel] at hpre
            exact absurd hpre (by
              rw [isPrefixOf_cons_ne (by decide)]
              exact Bool.noConfusion)
          · exact absurd henvnone henvsome
          · rw [hlsr] at hpre
            simp only [Record.path] at hpre
            rw [isPrefixOf_append_cancel] at hpre
            exact absurd hpre (by
              rw [isPrefixOf_cons_ne (by decide)]
              exact Bool.noConfusion)
          · rw [hx] at hpre
            have h1 := isPrefixOf_trans
              (isPrefixOf_append_right (sv_dir ++ [cfg.name]) ["env"]) hpre
            exact (bool_clash h1 hsvpsp.1).elim
          · rw [hx] at hpre
            have h1 := isPrefixOf_trans
              (isPrefixOf_append_right (sv_dir ++ [cfg.name]) ["env"]) hpre
            have hsepd := initSepOk_elim cfg fs _ _ hsepI d hd
            exact (bool_clash h1 (separated_elim hsepd.1).1).elim
      · -- r is a cleanup record: remove records tolerate absence
        obtain ⟨p, rfl⟩ := hsh r hrc
        rfl
    · -- s is a cleanup record: it removes no subtree
      obtain ⟨p, rfl⟩ := hsh s hsc
      exact Bool.noConfusion hrm
  · -- mkdir-chain component
    intro hmk hnil
    rcases List.mem_append.mp hs with hso | hsc
    swap
    · obtain ⟨p, rfl⟩ := hsh s hsc
      exact Bool.noConfusion hmk
    obtain ⟨hAs, hBs, hCs⟩ := outfiles_facts cfg fs sv_dir service_dir
      hnm hlogc s hso
    -- collect the path facts of r
    have hrfacts :
        ((∃ x, r.path = (sv_dir ++ [cfg.name]) ++ [x] ∧
            (x = "log" → cfg.log_runscript = none) ∧
            (x = "env" → cfg.envdir = none)) ∨
          (r.path = (sv_dir ++ [cfg.name]) ++ ["log", "run"] ∧
            cfg.log_runscript ≠ none) ∨
          (∃ k, r.path = (sv_dir ++ [cfg.name]) ++ ["env", k] ∧
            cfg.envdir ≠ none) ∨
          (r.path = (sv_dir ++ [cfg.name]) ++ ["log", "supervise"]) ∨
          (r.path = service_dir ++ [cfg.name]) ∨
          (∃ d, first_directory cfg.init_d_directory fs = some d ∧
            r.path = d ++ [cfg.name])) ∨
        (∃ d0 x0, d0 ∈ dirs_spec cfg sv_dir ∧ r.path = d0 ++ [x0] ∧
          r.path ∉ ((outfiles_spec cfg fs sv_dir service_dir).map Record.path ++
            dirs_spec cfg sv_dir)) := by
      rcases List.mem_append.mp hr with hro | hrc
      · left
        obtain ⟨hAr, _, _⟩ := outfiles_facts cfg fs sv_dir service_dir
          hnm hlogc r hro
        rcases hAr with h | h | h | h | h | h
        · exact Or.inl h
        · exact Or.inr (Or.inl h)
        · exact Or.inr (Or.inr (Or.inl h))
        · refine Or.inr (Or.inr (Or.inr (Or.inl ?_)))
          rw [h]
          rfl
        · exact Or.inr (Or.inr (Or.inr (Or.inr (Or.inl h))))
        · exact Or.inr (Or.inr (Or.inr (Or.inr (Or.inr h))))
      · right
        obtain ⟨p, rfl⟩ := hsh r hrc
        obtain ⟨⟨d0, hd0, hd0dir, hchild, _⟩, hunc⟩ := (hclmem p).mp hrc
        have hchild2 := hchild
        unfold isChildOf at hchild2
        rw [Bool.and_eq_true] at hchild2
        obtain ⟨hcp, hclen⟩ := hchild2
        obtain ⟨t, hp⟩ := (isPrefixOf_exists d0 p).mp hcp
        have hlen : p.length = d0.length + 1 := eq_of_beq hclen
        obtain ⟨x0, ht⟩ : ∃ x0, t = [x0] := by
          subst hp
          rw [List.length_append] at hlen
          obtain ⟨x0, hx0⟩ := List.length_eq_one.mp (by omega : t.length = 1)
          exact ⟨x0, hx0⟩
        refine ⟨d0, x0, hd0, ?_, hunc⟩
        rw [hp, ht]
        rfl
    have hlenarg : ∀ a b : Path, b.length < a.length →
        a.isPrefixOf b = false := fun a b hh => isPrefixOf_false_of_longer hh
    rcases hCs hmk with hD | ⟨hD, hlogsome⟩ | ⟨hD, henvsome⟩ | hD | ⟨d0s, hd0s, hD⟩
    · -- chain ends at the service entry directory itself
      rw [hD]
      rcases hrfacts with (⟨x, hx, _, _⟩ | ⟨hx, _⟩ | ⟨k, hx, _⟩ | hx | hx |
        ⟨d, hd, hx⟩) | ⟨d0, x0, hd0, hx, hunc⟩
      · rw [hx]
        exact hlenarg _ _ (by
          simp only [List.length_append, List.length_cons, List.length_nil]
          omega)
      · rw [hx]
        exact hlenarg _ _ (by
          simp only [List.length_append, List.length_cons, List.length_nil]
          omega)
      · rw [hx]
        exact hlenarg _ _ (by
          simp only [List.length_append, List.length_cons, List.length_nil]
          omega)
      · rw [hx]
        exact hlenarg _ _ (by
          simp only [List.length_append, List.length_cons, List.length_nil]
          omega)
      · rw [hx]
        exact hsvpsp.2
      · rw [hx]
        have hsepd := initSepOk_elim cfg fs _ _ hsepI d hd
        exact (separated_elim hsepd.1).2
      · rw [hx]
        have hslen : (sv_dir ++ [cfg.name]).length ≤ d0.length := by
          rcases mem_dirs_spec_elim cfg sv_dir d0 hd0 with hh | ⟨hh, _⟩ |
            ⟨hh, _⟩ <;> rw [hh] <;>
            simp only [List.length_append, List.length_cons, List.length_nil] <;>
            omega
        exact hlenarg _ _ (by
          simp only [List.length_append, List.length_cons, List.length_nil]
            at hslen ⊢
          omega)
    · -- chain ends at the log subdirectory (log runscript configured)
      rw [hD]
      rcases hrfacts with (⟨x, hx, hxlog, _⟩ | ⟨hx, _⟩ | ⟨k, hx, _⟩ | hx | hx |
        ⟨d, hd, hx⟩) | ⟨d0, x0, hd0, hx, hunc⟩
      · rw [hx]
        cases hv : ((sv_dir ++ [cfg.name]) ++ [x]).isPrefixOf
            ((sv_dir ++ [cfg.name]) ++ ["log"])
        · rfl
        · exact absurd (hxlog (isPrefixOf_snoc_same hv)) hlogsome
      · rw [hx]
        exact hlenarg _ _ (by
          simp only [List.length_append, List.length_cons, List.length_nil]
          omega)
      · rw [hx, isPrefixOf_append_cancel]
        exact isPrefixOf_cons_ne (by decide)
      · rw [hx]
        exact hlenarg _ _ (by
          simp only [List.length_append, List.length_cons, List.length_nil]
          omega)
      · rw [hx]
        cases hv : (service_dir ++ [cfg.name]).isPrefixOf
            ((sv_dir ++ [cfg.name]) ++ ["log"])
        · rfl
        · exfalso
          rcases isPrefixOf_snoc_split hv with h1 | h1
          · exact bool_clash h1 hsvpsp.2
          · have h2 : (sv_dir ++ [cfg.name]).isPrefixOf
                (service_dir ++ [cfg.name]) = true := by
              rw [h1]
              exact isPrefixOf_append_right _ _
            exact bool_clash h2 hsvpsp.1
      · rw [hx]
        cases hv : (d ++ [cfg.name]).isPrefixOf
            ((sv_dir ++ [cfg.name]) ++ ["log"])
        · rfl
        · exfalso
          have hsepd := initSepOk_elim cfg fs _ _ hsepI d hd
          rcases isPrefixOf_snoc_split hv with h1 | h1
          · exact bool_clash h1 (separated_elim hsepd.1).2
          · have h2 : (sv_dir ++ [cfg.name]).isPrefixOf (d ++ [cfg.name]) =
                true := by
              rw [h1]
              exact isPrefixOf_append_right _ _
            exact bool_clash h2 (separated_elim hsepd.1).1
      · rw [hx]
        cases hv : (d0 ++ [x0]).isPrefixOf ((sv_dir ++ [cfg.name]) ++ ["log"])
        · rfl
        · exfalso
          rcases mem_dirs_spec_elim cfg sv_dir d0 hd0 with hh | ⟨hh, _⟩ |
            ⟨hh, _⟩
          · rw [hh] at hv
            have hx0 : x0 = "log" := isPrefixOf_snoc_same hv
            apply hunc
            apply List.mem_append.mpr
            right
            rw [hx, hh, hx0]
            rcases hlrr : cfg.log_runscript with _ | lr0
            · exact absurd hlrr hlogsome
            · exact mem_dirs_spec_log cfg sv_dir lr0 hlrr
          · rw [hh] at hv
            exact bool_clash hv (hlenarg _ _ (by
              simp only [List.length_append, List.length_cons, List.length_nil]
              omega))
          · rw [hh] at hv
            exact bool_clash hv (hlenarg _ _ (by
              simp only [List.length_append, List.length_cons, List.length_nil]
              omega))
    · -- chain ends at the env subdirectory (envdir configured)
      rw [hD]
      rcases hrfacts with (⟨x, hx, _, hxenv⟩ | ⟨hx, _⟩ | ⟨k, hx, _⟩ | hx | hx |
        ⟨d, hd, hx⟩) | ⟨d0, x0, hd0, hx, hunc⟩
      · rw [hx]
        cases hv : ((sv_dir ++ [cfg.name]) ++ [x]).isPrefixOf
            ((sv_dir ++ [cfg.name]) ++ ["env"])
        · rfl
        · exact absurd (hxenv (isPrefixOf_snoc_same hv)) henvsome
      · rw [hx, isPrefixOf_append_cancel]
        exact isPrefixOf_cons_ne (by decide)
      · rw [hx]
        exact hlenarg _ _ (by
          simp only [List.length_append, List.length_cons, List.length_nil]
          omega)
      · rw [hx, isPrefixOf_append_cancel]
        exact isPrefixOf_cons_ne (by decide)
      · rw [hx]
        cases hv : (service_dir ++ [cfg.name]).isPrefixOf
            ((sv_dir ++ [cfg.name]) ++ ["env"])
        · rfl
        · exfalso
          rcases isPrefixOf_snoc_split hv with h1 | h1
          · exact bool_clash h1 hsvpsp.2
          · have h2 : (sv_dir ++ [cfg.name]).isPrefixOf
                (service_dir ++ [cfg.name]) = true := by
              rw [h1]
              exact isPrefixOf_append_right _ _
            exact bool_clash h2 hsvpsp.1
      · rw [hx]
        cases hv : (d ++ [cfg.name]).isPrefixOf
            ((sv_dir ++ [cfg.name]) ++ ["env"])
        · rfl
        · exfalso
          have hsepd := initSepOk_elim cfg fs _ _ hsepI d hd
          rcases isPrefixOf_snoc_split hv with h1 | h1
          · exact bool_clash h1 (separated_elim hsepd.1).2
          · have h2 : (sv_dir ++ [cfg.name]).isPrefixOf (d ++ [cfg.name]) =
                true := by
              rw [h1]
              exact isPrefixOf_append_right _ _
            exact bool_clash h2 (separated_elim hsepd.1).1
      · rw [hx]
        cases hv : (d0 ++ [x0]).isPrefixOf ((sv_dir ++ [cfg.name]) ++ ["env"])
        · rfl
        · exfalso
          rcases mem_dirs_spec_elim cfg sv_dir d0 hd0 with hh | ⟨hh, _⟩ |
            ⟨hh, _⟩
          · rw [hh] at hv
            have hx0 : x0 = "env" := isPrefixOf_snoc_same hv
            apply hunc
            apply List.mem_append.mpr
            right
            rw [hx, hh, hx0]
            rcases henvv : cfg.envdir with _ | kvs
            · exact absurd henvv henvsome
            · exact mem_dirs_spec_env cfg sv_dir kvs henvv
          · rw [hh] at hv
            exact bool_clash hv (hlenarg _ _ (by
              simp only [List.length_append, List.length_cons, List.length_nil]
              omega))
          · rw [hh] at hv
            exact bool_clash hv (hlenarg _ _ (by
              simp only [List.length_append, List.length_cons, List.length_nil]
              omega))
    · -- chain ends at the selected service directory
      rw [hD]
      have hspsp : service_dir.isPrefixOf (service_dir ++ [cfg.name]) = true :=
        isPrefixOf_append_right _ _
      rcases hrfacts with (⟨x, hx, _, _⟩ | ⟨hx, _⟩ | ⟨k, hx, _⟩ | hx | hx |
        ⟨d, hd, hx⟩) | ⟨d0, x0, hd0, hx, hunc⟩
      · rw [hx]
        cases hv : ((sv_dir ++ [cfg.name]) ++ [x]).isPrefixOf service_dir
        · rfl
        · exact (bool_clash (isPrefixOf_trans (isPrefixOf_trans
            (isPrefixOf_append_right _ _) hv) hspsp) hsvpsp.1).elim
      · rw [hx]
        cases hv : ((sv_dir ++ [cfg.name]) ++ ["log", "run"]).isPrefixOf
            service_dir
        · rfl
        · exact (bool_clash (isPrefixOf_trans (isPrefixOf_trans
            (isPrefixOf_append_right _ _) hv) hspsp) hsvpsp.1).elim
      · rw [hx]
        cases hv : ((sv_dir ++ [cfg.name]) ++ ["env", k]).isPrefixOf
            service_dir
        · rfl
        · exact (bool_clash (isPrefixOf_trans (isPrefixOf_trans
            (isPrefixOf_append_right _ _) hv) hspsp) hsvpsp.1).elim
      · rw [hx]
        cases hv : ((sv_dir ++ [cfg.name]) ++ ["log", "supervise"]).isPrefixOf
            service_dir
        · rfl
        · exact (bool_clash (isPrefixOf_trans (isPrefixOf_trans
            (isPrefixOf_append_right _ _) hv) hspsp) hsvpsp.1).elim
      · rw [hx]
        exact hlenarg _ _ (by
          simp only [List.length_append, List.length_cons, List.length_nil]
          omega)
      · rw [hx]
        cases hv : (d ++ [cfg.name]).isPrefixOf service_dir
        · rfl
        · exfalso
          have hsepd := initSepOk_elim cfg fs _ _ hsepI d hd
          exact bool_clash (isPrefixOf_trans hv hspsp)
            (separated_elim hsepd.2).2
      · rw [hx]
        have hsvpd0 : (sv_dir ++ [cfg.name]).isPrefixOf d0 = true := by
          rcases mem_dirs_spec_elim cfg sv_dir d0 hd0 with hh | ⟨hh, _⟩ |
            ⟨hh, _⟩ <;> rw [hh]
          · exact isPrefixOf_refl _
          · exact isPrefixOf_append_right _ _
          · exact isPrefixOf_append_right _ _
        cases hv : (d0 ++ [x0]).isPrefixOf service_dir
        · rfl
        · exact (bool_clash (isPrefixOf_trans (isPrefixOf_trans
            (isPrefixOf_trans hsvpd0 (isPrefixOf_append_right d0 [x0])) hv)
            hspsp) hsvpsp.1).elim
    · -- chain ends at the selected init.d directory
      rw [hD]
      have hsepd := initSepOk_elim cfg fs _ _ hsepI d0s hd0s
      have hd0sp : d0s.isPrefixOf (d0s ++ [cfg.name]) = true :=
        isPrefixOf_append_right _ _
      rcases hrfacts with (⟨x, hx, _, _⟩ | ⟨hx, _⟩ | ⟨k, hx, _⟩ | hx | hx |
        ⟨d, hd, hx⟩) | ⟨d0, x0, hd0, hx, hunc⟩
      · rw [hx]
        cases hv : ((sv_dir ++ [cfg.name]) ++ [x]).isPrefixOf d0s
        · rfl
        · exact (bool_clash (isPrefixOf_trans (isPrefixOf_trans
            (isPrefixOf_append_right _ _) hv) hd0sp)
            (separated_elim hsepd.1).1).elim
      · rw [hx]
        cases hv : ((sv_dir ++ [cfg.name]) ++ ["log", "run"]).isPrefixOf d0s
        · rfl
        · exact (bool_clash (isPrefixOf_trans (isPrefixOf_trans
            (isPrefixOf_append_right _ _) hv) hd0sp)
            (separated_elim hsepd.1).1).elim
      · rw [hx]
        cases hv : ((sv_dir ++ [cfg.name]) ++ ["env", k]).isPrefixOf d0s
        · rfl
        · exact (bool_clash (isPrefixOf_trans (isPrefixOf_trans
            (isPrefixOf_append_right _ _) hv) hd0sp)
            (separated_elim hsepd.1).1).elim
      · rw [hx]
        cases hv : ((sv_dir ++ [cfg.name]) ++ ["log", "supervise"]).isPrefixOf
            d0s
        · rfl
        · exact (bool_clash (isPrefixOf_trans (isPrefixOf_trans
            (isPrefixOf_append_right _ _) hv) hd0sp)
            (separated_elim hsepd.1).1).elim
      · rw [hx]
        cases hv : (service_dir ++ [cfg.name]).isPrefixOf d0s
        · rfl
        · exact (bool_clash (isPrefixOf_trans hv hd0sp)
            (separated_elim hsepd.2).1).elim
      · rw [hx]
        have hdd : d = d0s := by
          rw [hd] at hd0s
          exact Option.some.inj hd0s
        rw [hdd]
        exact hlenarg _ _ (by
          simp only [List.length_append, List.length_cons, List.length_nil]
          omega)
      · rw [hx]
        have hsvpd0 : (sv_dir ++ [cfg.name]).isPrefixOf d0 = true := by
          rcases mem_dirs_spec_elim cfg sv_dir d0 hd0 with hh | ⟨hh, _⟩ |
            ⟨hh, _⟩ <;> rw [hh]
          · exact isPrefixOf_refl _
          · exact isPrefixOf_append_right _ _
          · exact isPrefixOf_append_right _ _
        cases hv : (d0 ++ [x0]).isPrefixOf d0s
        · rfl
        · exact (bool_clash (isPrefixOf_trans (isPrefixOf_trans
            (isPrefixOf_trans hsvpd0 (isPrefixOf_append_right d0 [x0])) hv)
            hd0sp) (separated_elim hsepd.1).1).elim

theorem condRec_updateMust (s r : Record) (b b' : Bool) :
    condRec (updateMust s b) (updateMust r b') ↔ condRec s r := by
  unfold condRec
  rw [isRmtreeRec_updateMust, updateMust_path, updateMust_path,
    hasMakedirsRec_updateMust, mayBeAbsentRec_updateMust]

/-- Detection preserves the pairwise non-interference conditions. -/
theorem pairwise_detect (fs : FS) (rs rs' : List Record)
    (h : detect_records fs rs = .ok rs')
    (hp : List.Pairwise (fun s r =>
      s.path ≠ r.path ∧ condRec s r ∧ condRec r s) rs) :
    List.Pairwise (fun s r =>
      s.path ≠ r.path ∧ condRec s r ∧ condRec r s) rs' := by
  have hf := detect_records_elim fs rs rs' h
  clear h
  induction hf with
  | nil => exact List.Pairwise.nil
  | cons hr ht ih =>
    rename_i a l1 b2 l2
    obtain ⟨b, hb, rfl⟩ := hr
    have hp' := List.pairwise_cons.mp hp
    refine List.Pairwise.cons ?_ (ih hp'.2)
    intro r' hr'
    obtain ⟨a', ha', b', hb', rfl⟩ := forall2_mem_right ht r' hr'
    obtain ⟨hne, hc1, hc2⟩ := hp'.1 a' ha'
    refine ⟨?_, ?_, ?_⟩
    · rw [updateMust_path, updateMust_path]
      exact hne
    · rw [condRec_updateMust]
      exact hc1
    · rw [condRec_updateMust]
      exact hc2

/-- All builder records are well-shaped: no sentinel contents and settable
modes. -/
theorem outfiles_shape (cfg : Config) (fs : FS) (sv_dir service_dir : Path)
    (r : Record) (hr : r ∈ outfiles_spec cfg fs sv_dir service_dir) :
    recordShapeOkB r = true := by
  unfold outfiles_spec at hr
  simp only [List.mem_append] at hr
  have hexe : settable_mode (and_not EXECUTABLE cfg.umask) =
      and_not EXECUTABLE cfg.umask :=
    and_not_settable _ _ EXECUTABLE_settable
  have hnexe : settable_mode (and_not NONEXECUTABLE cfg.umask) =
      and_not NONEXECUTABLE cfg.umask :=
    and_not_settable _ _ NONEXECUTABLE_settable
  rcases hr with ((((((h1 | h2) | h3) | h4) | h5) | h6) | h7)
  · rw [List.mem_singleton] at h1
    subst h1
    simp [recordShapeOkB, hexe]
  · rcases hlr : cfg.log_runscript with _ | lr0 <;> simp only [hlr] at h2 <;>
      rw [List.mem_singleton] at h2 <;> subst h2
    · rfl
    · simp [recordShapeOkB, hexe]
  · rw [List.mem_map] at h3
    obtain ⟨kv, hkv, hrr⟩ := h3
    subst hrr
    simp [recordShapeOkB, hnexe]
  · rw [List.mem_map] at h4
    obtain ⟨kv, hkv, hrr⟩ := h4
    subst hrr
    simp [recordShapeOkB, hexe]
  · rcases henv : cfg.envdir with _ | kvs <;> simp only [henv] at h5
    · rw [List.mem_singleton] at h5
      subst h5
      rfl
    · rw [List.mem_map] at h5
      obtain ⟨kv, hkv, hrr⟩ := h5
      subst hrr
      simp [recordShapeOkB, hnexe]
  · simp only [List.mem_cons, List.mem_singleton, List.not_mem_nil,
      or_false] at h6
    rcases h6 with h6 | h6 | h6 | h6 <;> subst h6
    · by_cases hst : cfg.state = SvState.down
      · simp [recordShapeOkB, hnexe, hst]
      · simp [recordShapeOkB, hnexe, hst]
    · rfl
    · rfl
    · rfl
  · by_cases habs : cfg.state = SvState.absent
    · rw [if_pos habs] at h7
      cases h7
    · rw [if_neg habs] at h7
      rcases hfd : first_directory cfg.init_d_directory fs with _ | d <;>
        simp only [hfd] at h7
      · cases h7
      · rw [List.mem_singleton] at h7
        subst h7
        rfl

theorem any_const_false (rs : List Record) :
    (rs.any fun _ => false) = false := by
  induction rs with
  | nil => rfl
  | cons r rest ih => simp [ih]

theorem any_updateMust_false (rs : List Record) :
    ((rs.map fun r => updateMust r false).any fun r => r.must_change) =
      false := by
  rw [any_map_hetero]
  have hfun : (fun a => (updateMust a false).must_change) =
      (fun _ : Record => false) := by
    funext a
    exact updateMust_must_change a false
  rw [hfun]
  exact any_const_false rs

theorem paths_map_updateMust (rs : List Record) :
    ((rs.map fun r => updateMust r false).map
      fun r => (r.path, r.must_change)) =
    rs.map fun r => (r.path, false) := by
  rw [List.map_map]
  apply List.map_congr_left
  intro a ha
  simp [Function.comp, updateMust_path, updateMust_must_change]

/-- No builder record's path coincides with a directory to clear. -/
theorem outfile_path_ne_dir (cfg : Config) (fs : FS) (sv_dir service_dir : Path)
    (hnm : namesOk cfg = true)
    (hlogc : cfg.log_runscript = none → cfg.log_supervise_link = none)
    (hsep1 : separated (sv_dir ++ [cfg.name]) (service_dir ++ [cfg.name]) = true)
    (hsepI : initSepOk cfg fs (sv_dir ++ [cfg.name])
      (service_dir ++ [cfg.name]) = true)
    (s : Record) (hs : s ∈ outfiles_spec cfg fs sv_dir service_dir)
    (d : Path) (hd : d ∈ dirs_spec cfg sv_dir) :
    s.path ≠ d := by
  obtain ⟨hAs, _, _⟩ := outfiles_facts cfg fs sv_dir service_dir hnm hlogc s hs
  have hsvpsp := separated_elim hsep1
  intro heq
  rcases mem_dirs_spec_elim cfg sv_dir d hd with hdd | ⟨hdd, hlogsome⟩ |
    ⟨hdd, henvsome⟩
  · subst hdd
    rcases hAs with ⟨x, hx, hxlog, hxenv⟩ | ⟨hx, hs2⟩ | ⟨k, hx, hs2⟩ | hx |
      hx | ⟨d0, hd0, hx⟩
    · rw [hx] at heq
      have hl := congrArg List.length heq
      simp only [List.length_append, List.length_cons, List.length_nil] at hl
      omega
    · rw [hx] at heq
      have hl := congrArg List.length heq
      simp only [List.length_append, List.length_cons, List.length_nil] at hl
      omega
    · rw [hx] at heq
      have hl := congrArg List.length heq
      simp only [List.length_append, List.length_cons, List.length_nil] at hl
      omega
    · subst hx
      simp only [Record.path] at heq
      have hl := congrArg List.length heq
      simp only [List.length_append, List.length_cons, List.length_nil] at hl
      omega
    · rw [hx] at heq
      have h1 : (sv_dir ++ [cfg.name]).isPrefixOf
          (service_dir ++ [cfg.name]) = true := by
        rw [heq]
        exact isPrefixOf_refl _
      exact bool_clash h1 hsvpsp.1
    · rw [hx] at heq
      have hsepd := initSepOk_elim cfg fs _ _ hsepI d0 hd0
      have h1 : (sv_dir ++ [cfg.name]).isPrefixOf (d0 ++ [cfg.name]) =
          true := by
        rw [heq]
        exact isPrefixOf_refl _
      exact bool_clash h1 (separated_elim hsepd.1).1
  · subst hdd
    rcases hAs with ⟨x, hx, hxlog, hxenv⟩ | ⟨hx, hs2⟩ | ⟨k, hx, hs2⟩ | hx |
      hx | ⟨d0, hd0, hx⟩
    · rw [hx] at heq
      have hxx := List.append_cancel_left heq
      injection hxx with hx1 hx2
      exact hlogsome (hxlog hx1)
    · rw [hx] at heq
      have hl := congrArg List.length heq
      simp only [List.length_append, List.length_cons, List.length_nil] at hl
      omega
    · rw [hx] at heq
      have hl := congrArg List.length heq
      simp only [List.length_append, List.length_cons, List.length_nil] at hl
      omega
    · subst hx
      simp only [Record.path] at heq
      have hl := congrArg List.length heq
      simp only [List.length_append, List.length_cons, List.length_nil] at hl
      omega
    · rw [hx] at heq
      have h1 : (sv_dir ++ [cfg.name]).isPrefixOf
          (service_dir ++ [cfg.name]) = true := by
        rw [heq]
        exact isPrefixOf_append_right _ _
      exact bool_clash h1 hsvpsp.1
    · rw [hx] at heq
      have hsepd := initSepOk_elim cfg fs _ _ hsepI d0 hd0
      have h1 : (sv_dir ++ [cfg.name]).isPrefixOf (d0 ++ [cfg.name]) =
          true := by
        rw [heq]
        exact isPrefixOf_append_right _ _
      exact bool_clash h1 (separated_elim hsepd.1).1
  · subst hdd
    rcases hAs with ⟨x, hx, hxlog, hxenv⟩ | ⟨hx, hs2⟩ | ⟨k, hx, hs2⟩ | hx |
      hx | ⟨d0, hd0, hx⟩
    · rw [hx] at heq
      have hxx := List.append_cancel_left heq
      injection hxx with hx1 hx2
      exact henvsome (hxenv hx1)
    · rw [hx] at heq
      have hl := congrArg List.length heq
      simp only [List.length_append, List.length_cons, List.length_nil] at hl
      omega
    · rw [hx] at heq
      have hl := congrArg List.length heq
      simp only [List.length_append, List.length_cons, List.length_nil] at hl
      omega
    · subst hx
      simp only [Record.path] at heq
      have hl := congrArg List.length heq
      simp only [List.length_append, List.length_cons, List.length_nil] at hl
      omega
    · rw [hx] at heq
      have h1 : (sv_dir ++ [cfg.name]).isPrefixOf
          (service_dir ++ [cfg.name]) = true := by
        rw [heq]
        exact isPrefixOf_append_right _ _
      exact bool_clash h1 hsvpsp.1
    · rw [hx] at heq
      have hsepd := initSepOk_elim cfg fs _ _ hsepI d0 hd0
      have h1 : (sv_dir ++ [cfg.name]).isPrefixOf (d0 ++ [cfg.name]) =
          true := by
        rw [heq]
        exact isPrefixOf_append_right _ _
      exact bool_clash h1 (separated_elim hsepd.1).1

/-- A successful cleanup pass shows each directory to clear was absent or a
real directory. -/
theorem cleanup_records_ok_dirs (fs : FS) (dirs claimed : List Path)
    (rs : List Record) (hc : cleanup_records fs dirs claimed = .ok rs) :
    ∀ d ∈ dirs, fsGet fs d = none ∨ fsGet fs d = some Entry.dir := by
  induction dirs generalizing rs with
  | nil =>
    intro d hd
    cases hd
  | cons d0 rest ih =>
    unfold cleanup_records at hc
    split at hc
    · rename_i heq
      intro d hd
      rcases List.mem_cons.mp hd with rfl | hd2
      · left
        unfold list_directory at heq
        split at heq
        · rename_i hg
          exact hg
        · exact Except.noConfusion heq
        · injection heq with h2
          exact OsErr.noConfusion h2
      · exact ih rs hc d hd2
    · exact Except.noConfusion hc
    · rename_i children heq
      split at hc
      · exact Except.noConfusion hc
      · rename_i tail heq2
        intro d hd
        rcases List.mem_cons.mp hd with rfl | hd2
        · right
          unfold list_directory at heq
          split at heq
          · exact Except.noConfusion heq
          · rename_i hg
            exact hg
          · exact Except.noConfusion heq
        · exact ih tail heq2 d hd2

/-- In a well-formed filesystem the parent of every entry is a directory. -/
theorem fsWFb_parent (fs : FS) (hwf : fsWFb fs = true) (q : Path) (e : Entry)
    (hq : (q, e) ∈ fs) (hnil : q.dropLast ≠ []) :
    fsGet fs q.dropLast = some Entry.dir := by
  unfold fsWFb at hwf
  have h1 := List.all_eq_true.mp hwf (q, e) hq
  have hqne : q ≠ [] := by
    intro hcontra
    subst hcontra
    exact hnil rfl
  have hmem : q.dropLast ∈ properAncestors q := by
    unfold properAncestors
    rw [List.mem_filter]
    constructor
    · rw [List.mem_map]
      refine ⟨q.length - 1, ?_, ?_⟩
      · rw [List.mem_range]
        have hpos : 0 < q.length := List.length_pos.mpr hqne
        omega
      · rw [List.dropLast_eq_take]
    · rw [Bool.not_eq_true']
      rw [List.isEmpty_eq_false_iff_exists_mem]
      obtain ⟨y, hy⟩ := List.exists_mem_of_ne_nil q.dropLast hnil
      exact ⟨y, hy⟩
  have h2 := List.all_eq_true.mp h1 q.dropLast hmem
  exact eq_of_beq h2

/-- When every existing child of each directory to clear is claimed, the
cleanup pass appends nothing. -/
theorem cleanup_records_nil (fs : FS) (dirs claimed : List Path)
    (h : ∀ d ∈ dirs, fsGet fs d = none ∨ (fsGet fs d = some Entry.dir ∧
      ∀ q, isChildOf d q = true → (∃ e, (q, e) ∈ fs) → q ∈ claimed)) :
    cleanup_records fs dirs claimed = .ok [] := by
  induction dirs with
  | nil => rfl
  | cons d rest ih =>
    have htail := ih (fun u hu => h u (List.mem_cons_of_mem d hu))
    show (match list_directory fs d with
      | .error .ENOENT => cleanup_records fs rest claimed
      | .error e => .error e
      | .ok children =>
        match cleanup_records fs rest claimed with
        | .error e => .error e
        | .ok tail =>
          .ok (((children.filter fun p => !claimed.contains p).map
            fun p => Record.remove (rm p)) ++ tail)) = .ok []
    rcases h d (List.mem_cons_self d rest) with hd | ⟨hd, hcl⟩
    · have hld : list_directory fs d = .error .ENOENT := by
        unfold list_directory
        rw [hd]
      rw [hld]
      exact htail
    · have hld : list_directory fs d = .ok ((fs.filterMap fun pe =>
        if isChildOf d pe.1 then some pe.1 else none).dedup) := by
        unfold list_directory
        rw [hd]
      simp only [hld, htail]
      have hfil : ((fs.filterMap fun pe =>
          if isChildOf d pe.1 then some pe.1 else none).dedup.filter
          fun p => !claimed.contains p) = [] := by
        rw [List.filter_eq_nil_iff]
        intro p hp
        rw [List.mem_dedup, List.mem_filterMap] at hp
        obtain ⟨pe, hpe, hif⟩ := hp
        by_cases hic : isChildOf d pe.1 = true
        · rw [if_pos hic] at hif
          injection hif with hp2
          subst hp2
          have hclm := hcl pe.1 hic ⟨pe.2, hpe⟩
          simp [hclm]
        · rw [if_neg hic] at hif
          cases hif
      rw [hfil]
      rfl

/-- The builder consults the filesystem only for the init.d lookup. -/
theorem build_records_congr (cfg : Config) (fsA fsB : FS)
    (sv_dir service_dir : Path)
    (h : first_directory cfg.init_d_directory fsA =
      first_directory cfg.init_d_directory fsB) :
    build_records cfg fsA sv_dir service_dir =
      build_records cfg fsB sv_dir service_dir := by
  unfold build_records
  rw [h]

theorem outfiles_spec_congr (cfg : Config) (fsA fsB : FS)
    (sv_dir service_dir : Path)
    (h : first_directory cfg.init_d_directory fsA =
      first_directory cfg.init_d_directory fsB) :
    outfiles_spec cfg fsA sv_dir service_dir =
      outfiles_spec cfg fsB sv_dir service_dir := by
  unfold outfiles_spec
  rw [h]

/-- Inversion of a successful real (non-check) run into its phases. -/
theorem main_ok_inversion (cfg : Config) (fs : FS) (rep : RunReport)
    (fs1 : FS) (sv_dir service_dir : Path)
    (hsv : first_directory cfg.sv_directory fs = some sv_dir)
    (hserv : first_directory cfg.service_directory fs = some service_dir)
    (h : _main cfg false fs = .ok (rep, fs1)) :
    ∃ outfiles dirs cleanup detected,
      build_records cfg fs sv_dir service_dir = .ok (outfiles, dirs) ∧
      (outfiles.map Record.path).dedup.length =
        (outfiles.map Record.path).length ∧
      cleanup_records fs dirs (outfiles.map Record.path ++ dirs) =
        .ok cleanup ∧
      detect_records fs (outfiles ++ cleanup) = .ok detected ∧
      rep.paths = detected.map (fun r => (r.path, r.must_change)) ∧
      rep.changed = detected.any (fun r => r.must_change) ∧
      (((detected.any fun r => r.must_change) = false ∧ fs1 = fs) ∨
        ((detected.any fun r => r.must_change) = true ∧
          ∃ rs', commit_records fs detected = .ok (fs1, rs'))) := by
  rcases hb : build_records cfg fs sv_dir service_dir with f | built
  · unfold _main at h
    simp only [hsv, hserv, hb] at h
    cases h
  obtain ⟨outfiles, dirs⟩ := built
  unfold _main at h
  simp only [hsv, hserv, hb] at h
  split at h
  · cases h
  rename_i hdedup
  split at h
  · cases h
  rename_i cleanup hcl
  split at h
  · cases h
  rename_i detected hdet
  split at h
  · rename_i hany
    injection h with h'
    injection h' with hrep hfs
    subst hrep
    exact ⟨outfiles, dirs, cleanup, detected, rfl, not_ne_iff.mp hdedup, hcl,
      hdet, rfl, hany.symm, Or.inl ⟨hany, hfs.symm⟩⟩
  · rename_i hany
    have hany' : (detected.any fun r => r.must_change) = true :=
      Bool.of_not_eq_false hany
    split at h
    · rename_i hcm
      exact absurd hcm (by decide)
    · split at h
      · cases h
      · rename_i fs2 rs2 hcom
        injection h with h'
        injection h' with hrep hfs
        subst hrep
        subst hfs
        exact ⟨outfiles, dirs, cleanup, detected, rfl, not_ne_iff.mp hdedup,
          hcl, hdet, rfl, hany'.symm, Or.inr ⟨hany', rs2, hcom⟩⟩

/-- Forward construction of a converged run: when the cleanup pass appends
nothing and every builder record detects no change, the run reports
changed = false and leaves the filesystem alone. -/
theorem main_ok_of_parts (cfg : Config) (cm : Bool) (fs : FS)
    (sv_dir service_dir : Path) (outfiles : List Record) (dirs : List Path)
    (hsv : first_directory cfg.sv_directory fs = some sv_dir)
    (hserv : first_directory cfg.service_directory fs = some service_dir)
    (hb : build_records cfg fs sv_dir service_dir = .ok (outfiles, dirs))
    (hdedup : (outfiles.map Record.path).dedup.length =
      (outfiles.map Record.path).length)
    (hcl : cleanup_records fs dirs (outfiles.map Record.path ++ dirs) =
      .ok [])
    (hdet : ∀ r ∈ outfiles, recordMustChangeP r fs = .ok false) :
    _main cfg cm fs =
      .ok ({ paths := outfiles.map fun r => (r.path, false),
             changed := false }, fs) := by
  unfold _main
  simp only [hsv, hserv, hb]
  rw [if_neg (fun hc => hc hdedup)]
  simp only [hcl]
  rw [List.append_nil]
  simp only [detect_records_of_false fs outfiles hdet]
  rw [if_pos (any_updateMust_false outfiles)]
  rw [paths_map_updateMust]

theorem all_map_hetero {α β : Type} (l : List α) (f : α → β) (p : β → Bool) :
    (l.map f).all p = l.all fun a => p (f a) := by
  induction l with
  | nil => rfl
  | cons x xs ih => simp only [List.map_cons, List.all_cons, ih]

theorem all_const_true {α : Type} (l : List α) :
    (l.all fun _ => true) = true := by
  induction l with
  | nil => rfl
  | cons x xs ih => simp [ih]

theorem fsGet_some_mem (fs : FS) (q : Path) (e : Entry)
    (h : fsGet fs q = some e) : (q, e) ∈ fs := by
  unfold fsGet at h
  rcases hf : fs.find? (fun pe => pe.1 == q) with _ | pe <;> rw [hf] at h
  · cases h
  · injection h with h2
    have h0 := List.find?_some hf
    have h3 : pe.1 = q := eq_of_beq h0
    have h4 := List.mem_of_find?_eq_some hf
    have h5 : (q, e) = pe := by
      rw [← h3, ← h2]
    rw [h5]
    exact h4

theorem dirs_spec_ne_nil (cfg : Config) (sv_dir : Path) (d : Path)
    (hd : d ∈ dirs_spec cfg sv_dir) : d ≠ [] := by
  rcases mem_dirs_spec_elim cfg sv_dir d hd with hh | ⟨hh, _⟩ | ⟨hh, _⟩ <;>
    subst hh <;> simp

theorem dirs_spec_svp_le (cfg : Config) (sv_dir : Path) (d : Path)
    (hd : d ∈ dirs_spec cfg sv_dir) :
    (sv_dir ++ [cfg.name]).isPrefixOf d = true := by
  rcases mem_dirs_spec_elim cfg sv_dir d hd with hh | ⟨hh, _⟩ | ⟨hh, _⟩ <;>
    subst hh
  · exact isPrefixOf_refl _
  · exact isPrefixOf_append_right _ _
  · exact isPrefixOf_append_right _ _

theorem isChildOf_snoc (d q : Path) (h : isChildOf d q = true) :
    ∃ x, q = d ++ [x] := by
  unfold isChildOf at h
  rw [Bool.and_eq_true] at h
  obtain ⟨h1, h2⟩ := h
  obtain ⟨t, rfl⟩ := (isPrefixOf_exists d q).mp h1
  have hlen := eq_of_beq h2
  rw [List.length_append] at hlen
  obtain ⟨x, rfl⟩ := List.length_eq_one.mp (by omega : t.length = 1)
  exact ⟨x, rfl⟩

theorem any_false_all {l : List Record} {p : Record → Bool}
    (h : l.any p = false) : ∀ x ∈ l, p x = false := by
  intro x hx
  cases hv : p x
  · rfl
  · exfalso
    have : l.any p = true := List.any_eq_true.mpr ⟨x, hx, hv⟩
    rw [this] at h
    exact Bool.noConfusion h

theorem build_records_ok_logc (cfg : Config) (fs : FS)
    (sv_dir service_dir : Path) (built : List Record × List Path)
    (hb : build_records cfg fs sv_dir service_dir = .ok built) :
    cfg.log_runscript = none → cfg.log_supervise_link = none := by
  intro hl
  rcases hls : cfg.log_supervise_link with _ | ls
  · rfl
  · exfalso
    unfold build_records at hb
    simp only [hl, hls] at hb
    cases hb

/-- C1 (amended): reconciliation is idempotent for non-overlapping directory
layouts.  For a well-formed starting filesystem (every entry's ancestors are
directories), a configuration whose extra file/script names avoid the
reserved names "log" and "env", whose service-entry, service-link and
init.d-link paths name pairwise disjoint subtrees, and whose directory
selections are stable across the two runs, a successful real run — which
reports changed exactly when some record detected a needed change — is
followed by a second run that succeeds, reports changed = false with every
per-path flag false, and leaves the filesystem of the first run untouched. -/
theorem C1_idempotence (cfg : Config) (fs : FS) (sv_dir service_dir : Path)
    (rep1 : RunReport) (fs1 : FS)
    (hsv : first_directory cfg.sv_directory fs = some sv_dir)
    (hserv : first_directory cfg.service_directory fs = some service_dir)
    (hwf : fsWFb fs = true)
    (hnm : namesOk cfg = true)
    (hsep1 : separated (sv_dir ++ [cfg.name]) (service_dir ++ [cfg.name]) =
      true)
    (hsepI : initSepOk cfg fs (sv_dir ++ [cfg.name])
      (service_dir ++ [cfg.name]) = true)
    (hssv : first_directory cfg.sv_directory fs1 = some sv_dir)
    (hsserv : first_directory cfg.service_directory fs1 = some service_dir)
    (hsinit : first_directory cfg.init_d_directory fs1 =
      first_directory cfg.init_d_directory fs)
    (h1 : _main cfg false fs = .ok (rep1, fs1)) :
    rep1.changed = (rep1.paths.any fun pr => pr.2) ∧
    ∃ rep2, _main cfg false fs1 = .ok (rep2, fs1) ∧ rep2.changed = false ∧
      (rep2.paths.all fun pr => !pr.2) = true := by
  obtain ⟨outfiles, dirs, cleanup, detected, hbuild, hdedup, hcl, hdet,
    hpaths, hchanged, hlast⟩ :=
    main_ok_inversion cfg fs rep1 fs1 sv_dir service_dir hsv hserv h1
  have hparta : rep1.changed = (rep1.paths.any fun pr => pr.2) := by
    rw [hpaths, any_map_hetero, hchanged]
  have hspec := build_records_ok_eq cfg fs sv_dir service_dir _ hbuild
  injection hspec with ho hd2
  subst ho
  subst hd2
  have hlogc := build_records_ok_logc cfg fs sv_dir service_dir _ hbuild
  rcases hlast with ⟨hanyf, rfl⟩ | ⟨hanyt, rs', hcom⟩
  · -- the first run already found everything converged
    refine ⟨hparta, rep1, h1, hchanged.trans hanyf, ?_⟩
    rw [hpaths, all_map_hetero]
    apply List.all_eq_true.mpr
    intro r hrmem
    have hfl := any_false_all hanyf r hrmem
    rw [hfl]
    rfl
  · -- the first run committed changes
    have hsvpsp := separated_elim hsep1
    obtain ⟨hsh, hclnodup, hclmem⟩ := cleanup_records_mem fs _ _ cleanup
      (dirs_spec_nodup cfg sv_dir) hcl
    have hf2 := detect_records_elim fs _ _ hdet
    have hnodup1 : ((outfiles_spec cfg fs sv_dir service_dir).map
        Record.path).Nodup := (dedup_length_eq_iff _).mp hdedup
    have hnodupall : ((outfiles_spec cfg fs sv_dir service_dir ++
        cleanup).map Record.path).Nodup := by
      rw [List.map_append]
      refine List.Nodup.append hnodup1 hclnodup ?_
      intro a ha hac
      rw [List.mem_map] at hac
      obtain ⟨rc, hrc, hrcp⟩ := hac
      obtain ⟨p, rfl⟩ := hsh rc hrc
      obtain ⟨_, hunc⟩ := (hclmem p).mp hrc
      apply hunc
      apply List.mem_append.mpr
      left
      have hpa : p = a := hrcp
      rw [hpa]
      exact ha
    have hpw : List.Pairwise (fun s r : Record =>
        s.path ≠ r.path ∧ condRec s r ∧ condRec r s)
        (outfiles_spec cfg fs sv_dir service_dir ++ cleanup) := by
      have hpwne : List.Pairwise (fun s r : Record => s.path ≠ r.path)
          (outfiles_spec cfg fs sv_dir service_dir ++ cleanup) :=
        List.pairwise_map.mp hnodupall
      refine hpwne.imp_of_mem ?_
      intro a b ha hb hne2
      exact ⟨hne2, condAll cfg fs sv_dir service_dir cleanup hnm hlogc hsep1
        hsepI hcl a ha b hb hne2,
        condAll cfg fs sv_dir service_dir cleanup hnm hlogc hsep1 hsepI hcl
        b hb a ha (Ne.symm hne2)⟩
    have hpwdet := pairwise_detect fs _ _ hdet hpw
    have hshdet : ∀ r' ∈ detected, recordShapeOkB r' = true := by
      intro r' hr'
      obtain ⟨a, ha, b, hb, rfl⟩ := forall2_mem_right hf2 r' hr'
      rw [recordShapeOkB_updateMust]
      rcases List.mem_append.mp ha with hao | hac
      · exact outfiles_shape cfg fs sv_dir service_dir a hao
      · obtain ⟨p, rfl⟩ := hsh a hac
        rfl
    have hinitdet : ∀ r' ∈ detected, r'.must_change = false →
        recordMustChangeP r' fs = .ok false := by
      intro r' hr' hbf
      obtain ⟨a, ha, b, hb, rfl⟩ := forall2_mem_right hf2 r' hr'
      rw [updateMust_must_change] at hbf
      subst hbf
      rw [recordMustChangeP_updateMust]
      exact hb
    have hall1 : ∀ r' ∈ detected, recordMustChangeP r' fs1 = .ok false :=
      commit_fold_det_false detected fs fs1 rs' hcom hshdet hpwdet hinitdet
    have hallall : ∀ a ∈ outfiles_spec cfg fs sv_dir service_dir ++ cleanup,
        recordMustChangeP a fs1 = .ok false := by
      intro a ha
      obtain ⟨b2, hb2, bb, hbb, hup⟩ := forall2_mem_left hf2 a ha
      rw [← recordMustChangeP_updateMust a bb, ← hup]
      exact hall1 b2 hb2
    have hb2 : build_records cfg fs1 sv_dir service_dir =
        .ok (outfiles_spec cfg fs sv_dir service_dir,
          dirs_spec cfg sv_dir) := by
      rw [build_records_congr cfg fs1 fs sv_dir service_dir hsinit]
      exact hbuild
    have hdirfacts : ∀ d ∈ dirs_spec cfg sv_dir, fsGet fs1 d = none ∨
        (fsGet fs1 d = some Entry.dir ∧ ∀ q, isChildOf d q = true →
          (∃ e, (q, e) ∈ fs1) → q ∈
            ((outfiles_spec cfg fs sv_dir service_dir).map Record.path ++
              dirs_spec cfg sv_dir)) := by
      intro d hd
      have hdfs := cleanup_records_ok_dirs fs _ _ cleanup hcl d hd
      have hned : ∀ s ∈ detected, s.path ≠ d := by
        intro s hsm
        obtain ⟨a, ha, b, hb, rfl⟩ := forall2_mem_right hf2 s hsm
        rw [updateMust_path]
        rcases List.mem_append.mp ha with hao | hac
        · exact outfile_path_ne_dir cfg fs sv_dir service_dir hnm hlogc
            hsep1 hsepI a hao d hd
        · obtain ⟨p, rfl⟩ := hsh a hac
          obtain ⟨_, hunc⟩ := (hclmem p).mp hac
          intro hpd
          apply hunc
          apply List.mem_append.mpr
          right
          show p ∈ dirs_spec cfg sv_dir
          have hpp : p = d := hpd
          rw [hpp]
          exact hd
      have hd1 := fold_noneOrDir detected fs fs1 rs' hcom d hned hdfs
      rcases hd1 with hnone | hdir
      · exact Or.inl hnone
      · refine Or.inr ⟨hdir, ?_⟩
        intro q hqchild hqex
        by_contra hqn
        obtain ⟨e1, hqe1⟩ := hqex
        have hq1 : fsGet fs1 q ≠ none := fun hcontra =>
          ((fsGet_eq_none_iff fs1 q).mp hcontra) e1 hqe1
        rcases hfsq : fsGet fs q with _ | e0
        · obtain ⟨st, hst, hcase⟩ := fold_new_key detected fs fs1 rs' hcom q
            hfsq hq1
          obtain ⟨a, ha, b, hb, rfl⟩ := forall2_mem_right hf2 st hst
          rcases hcase with hqp | ⟨hmkst, hqnil, hqchain⟩
          · rw [updateMust_path] at hqp
            rcases List.mem_append.mp ha with hao | hac
            · apply hqn
              apply List.mem_append.mpr
              left
              rw [List.mem_map]
              exact ⟨a, hao, hqp.symm⟩
            · obtain ⟨p, rfl⟩ := hsh a hac
              obtain ⟨⟨d0, hd0, hd0dir, hchild0, e2, hpe2⟩, _⟩ :=
                (hclmem p).mp hac
              have hqp2 : q = p := hqp
              exact ((fsGet_eq_none_iff fs q).mp hfsq) e2 (hqp2 ▸ hpe2)
          · rw [hasMakedirsRec_updateMust] at hmkst
            rw [updateMust_path] at hqchain
            rcases List.mem_append.mp ha with hao | hac
            swap
            · obtain ⟨p, rfl⟩ := hsh a hac
              exact Bool.noConfusion hmkst
            · obtain ⟨hAa, hBa, hCa⟩ := outfiles_facts cfg fs sv_dir
                service_dir hnm hlogc a hao
              obtain ⟨x0, hqx⟩ := isChildOf_snoc d q hqchild
              have hsvpd := dirs_spec_svp_le cfg sv_dir d hd
              have hld := isPrefixOf_length_le hsvpd
              have hdleq : d.isPrefixOf q = true := by
                rw [hqx]
                exact isPrefixOf_append_right d [x0]
              rcases hCa hmkst with hD | ⟨hD, hlogsome⟩ | ⟨hD, henvsome⟩ |
                hD | ⟨d0s, hd0s, hD⟩ <;> rw [hD] at hqchain
              · have hlq := isPrefixOf_length_le hqchain
                rw [hqx] at hlq
                simp only [List.length_append, List.length_cons,
                  List.length_nil] at hlq hld
                omega
              · have hlq := isPrefixOf_length_le hqchain
                have hdsvp : d = sv_dir ++ [cfg.name] := by
                  refine (isPrefixOf_eq_of_length hsvpd ?_).symm
                  rw [hqx] at hlq
                  simp only [List.length_append, List.length_cons,
                    List.length_nil] at hlq ⊢
                  omega
                have hq_eq : q = (sv_dir ++ [cfg.name]) ++ ["log"] := by
                  apply isPrefixOf_eq_of_length hqchain
                  rw [hqx, hdsvp]
                  simp only [List.length_append, List.length_cons,
                    List.length_nil]
                  omega
                apply hqn
                apply List.mem_append.mpr
                right
                rw [hq_eq]
                rcases hlr2 : cfg.log_runscript with _ | lr0
                · exact absurd hlr2 hlogsome
                · exact mem_dirs_spec_log cfg sv_dir lr0 hlr2
              · have hlq := isPrefixOf_length_le hqchain
                have hdsvp : d = sv_dir ++ [cfg.name] := by
                  refine (isPrefixOf_eq_of_length hsvpd ?_).symm
                  rw [hqx] at hlq
                  simp only [List.length_append, List.length_cons,
                    List.length_nil] at hlq ⊢
                  omega
                have hq_eq : q = (sv_dir ++ [cfg.name]) ++ ["env"] := by
                  apply isPrefixOf_eq_of_length hqchain
                  rw [hqx, hdsvp]
                  simp only [List.length_append, List.length_cons,
                    List.length_nil]
                  omega
                apply hqn
                apply List.mem_append.mpr
                right
                rw [hq_eq]
                rcases henv2 : cfg.envdir with _ | kvs
                · exact absurd henv2 henvsome
                · exact mem_dirs_spec_env cfg sv_dir kvs henv2
              · have h2 : (sv_dir ++ [cfg.name]).isPrefixOf
                    (service_dir ++ [cfg.name]) = true :=
                  isPrefixOf_trans (isPrefixOf_trans
                    (isPrefixOf_trans hsvpd hdleq) hqchain)
                    (isPrefixOf_append_right service_dir [cfg.name])
                exact bool_clash h2 hsvpsp.1
              · have hsepd := initSepOk_elim cfg fs _ _ hsepI d0s hd0s
                have h2 : (sv_dir ++ [cfg.name]).isPrefixOf
                    (d0s ++ [cfg.name]) = true :=
                  isPrefixOf_trans (isPrefixOf_trans
                    (isPrefixOf_trans hsvpd hdleq) hqchain)
                    (isPrefixOf_append_right d0s [cfg.name])
                exact bool_clash h2 (separated_elim hsepd.1).1
        · have hmem0 := fsGet_some_mem fs q e0 hfsq
          have hdq : d = q.dropLast := isChildOf_parent d q hqchild
          have hpar : fsGet fs q.dropLast = some Entry.dir := by
            apply fsWFb_parent fs hwf q e0 hmem0
            rw [← hdq]
            exact dirs_spec_ne_nil cfg sv_dir d hd
          have hrmq : Record.remove (rm q) ∈ cleanup := by
            apply (hclmem q).mpr
            refine ⟨⟨d, hd, ?_, hqchild, e0, hmem0⟩, hqn⟩
            rw [hdq]
            exact hpar
          have hdetq := hallall (Record.remove (rm q))
            (List.mem_append.mpr (Or.inr hrmq))
          exact hq1 (remove_det_false_absent (rm q) fs1 hdetq)
    have hcl2 : cleanup_records fs1 (dirs_spec cfg sv_dir)
        ((outfiles_spec cfg fs sv_dir service_dir).map Record.path ++
          dirs_spec cfg sv_dir) = .ok [] :=
      cleanup_records_nil fs1 _ _ hdirfacts
    have hdet2 : ∀ r ∈ outfiles_spec cfg fs sv_dir service_dir,
        recordMustChangeP r fs1 = .ok false := fun r hrr =>
      hallall r (List.mem_append.mpr (Or.inl hrr))
    have hmain2 := main_ok_of_parts cfg false fs1 sv_dir service_dir
      (outfiles_spec cfg fs sv_dir service_dir) (dirs_spec cfg sv_dir)
      hssv hsserv hb2 hdedup hcl2 hdet2
    refine ⟨hparta, _, hmain2, rfl, ?_⟩
    rw [all_map_hetero]
    apply List.all_eq_true.mpr
    intro r hrmem
    rfl

/-- C1 counterexample: the claim promises changed = true on the first of two
runs for ANY starting state, but a run started on an already-converged
filesystem succeeds and reports changed = false. -/
theorem C1_counterexample :
    _main cfgBasic false fsConverged = .ok (repConverged, fsConverged) ∧
    repConverged.changed = false :=
  ⟨by decide, rfl⟩

/-- C1 witness: the amended idempotence theorem applied to the basic
fixture — the first run from the bare parent directories converges the
filesystem, and the second run reports changed = false on it. -/
theorem C1_idempotence_witness :
    (first_directory cfgBasic.sv_directory fsBasic = some ["sv"] ∧
     first_directory cfgBasic.service_directory fsBasic = some ["srv"] ∧
     fsWFb fsBasic = true ∧ namesOk cfgBasic = true ∧
     separated (["sv"] ++ [cfgBasic.name]) (["srv"] ++ [cfgBasic.name]) =
       true ∧
     initSepOk cfgBasic fsBasic (["sv"] ++ [cfgBasic.name])
       (["srv"] ++ [cfgBasic.name]) = true ∧
     first_directory cfgBasic.sv_directory fsConverged = some ["sv"] ∧
     first_directory cfgBasic.service_directory fsConverged = some ["srv"] ∧
     first_directory cfgBasic.init_d_directory fsConverged =
       first_directory cfgBasic.init_d_directory fsBasic ∧
     _main cfgBasic false fsBasic = .ok (repBasic, fsConverged)) ∧
    (repBasic.changed = (repBasic.paths.any fun pr => pr.2) ∧
     ∃ rep2, _main cfgBasic false fsConverged = .ok (rep2, fsConverged) ∧
       rep2.changed = false ∧ (rep2.paths.all fun pr => !pr.2) = true) :=
  ⟨⟨by decide, by decide, by decide, by decide, by decide, by decide,
    by decide, by decide, by decide, by decide⟩,
   C1_idempotence cfgBasic fsBasic ["sv"] ["srv"] repBasic fsConverged
     (by decide) (by decide) (by decide) (by decide) (by decide) (by decide)
     (by decide) (by decide) (by decide) (by decide)⟩

end RunitSv
